import Mathlib

/-!
Verification of the targz library (walle/targz): a shallow embedding of
`Compress` / `Extract` and their helpers (`stripTrailingSlashes`,
`makeAbsolute`, `mkdirAll`, `compress`, `writeDirectory`, `writeTarGz`,
`extract`, `handleErrorInDefer`) over an explicit filesystem state.

Paths are modelled as `List Char` (Go strings restricted to ASCII paths);
the lexical path functions from Go's `path/filepath` package (`Clean`,
`Dir`, `Join`, `Split`, `Base`, `Abs`) are implemented faithfully for
Unix separators.  The filesystem is an association list from absolute
clean paths to nodes (regular file, directory, or symbolic link); OS
primitives (`Stat`, `Lstat`, `ReadDir`, `MkdirAll`, `Create`, `Remove`,
`RemoveAll`, `EvalSymlinks`) are modelled on top of it, with explicit
fuel for symlink resolution and recursion.  The tar+gzip container is out
of scope of the spec (a standards-compliant external codec); it is
modelled by an injective encode/decode pair on entry lists.
-/

namespace Targz

/-- A path, as a Go string (one `Char` per byte; ASCII in all our uses). -/
abbrev Path := List Char

/-- One path component (no separators). -/
abbrev Comp := List Char

/-- The root path `/`. -/
def root : Path := ['/']

/-! ## Lexical path functions (Go `path/filepath`, Unix rules) -/

/-- Worker for `comps`: split on `/`, dropping empty components.
`acc` holds the current component reversed. -/
def compsGo : Path → List Char → List Comp
  | [], acc => if acc = [] then [] else [acc.reverse]
  | c :: rest, acc =>
    if c = '/' then
      if acc = [] then compsGo rest []
      else acc.reverse :: compsGo rest []
    else compsGo rest (c :: acc)

/-- The non-empty slash-separated components of a path. -/
def comps (p : Path) : List Comp := compsGo p []

/-- Join components with `/` separators (no leading separator). -/
def joinComps : List Comp → Path
  | [] => []
  | [c] => c
  | c :: cs => c ++ '/' :: joinComps cs

/-- An absolute path made of the given components. -/
def mkPath (cs : List Comp) : Path := '/' :: joinComps cs

/-- One step of Go `filepath.Clean`'s element processing. -/
def cleanStep (rooted : Bool) (out : List Comp) (c : Comp) : List Comp :=
  if c = ['.'] then out
  else if c = ['.', '.'] then
    if out ≠ [] ∧ out.getLast? ≠ some ['.', '.'] then out.dropLast
    else if rooted then out else out ++ [c]
  else out ++ [c]

/-- Go `filepath.Clean` (Unix): shortest lexically equivalent path. -/
def clean (p : Path) : Path :=
  if p = [] then ['.']
  else
    let rooted := p.head? = some '/'
    let out := (comps p).foldl (cleanStep rooted) []
    if rooted then (if out = [] then ['/'] else '/' :: joinComps out)
    else (if out = [] then ['.'] else joinComps out)

/-- Go `filepath.IsAbs` (Unix). -/
def isAbs (p : Path) : Bool := p.head? = some '/'

/-- The part of `p` up to and including the last separator
(the first half of Go `filepath.Split`, not cleaned). -/
def splitDirPart (p : Path) : Path :=
  (p.reverse.dropWhile (fun c => c ≠ '/')).reverse

/-- The part of `p` after the last separator
(the second half of Go `filepath.Split`). -/
def splitFilePart (p : Path) : Path :=
  (p.reverse.takeWhile (fun c => c ≠ '/')).reverse

/-- Go `filepath.Dir`: everything up to the last separator, cleaned. -/
def dirP (p : Path) : Path := clean (splitDirPart p)

/-- Go `path.Base` (also `filepath.Base` on Unix). -/
def baseP (p : Path) : Path :=
  if p = [] then ['.']
  else if p.reverse.dropWhile (fun c => c = '/') = [] then ['/']
  else ((p.reverse.dropWhile (fun c => c = '/')).takeWhile
    (fun c => c ≠ '/')).reverse

/-- Go `filepath.Join` of two elements: empties skipped, result cleaned. -/
def join2 (a b : Path) : Path :=
  if a = [] then (if b = [] then [] else clean b)
  else clean (a ++ '/' :: b)

/-- `targz.stripTrailingSlashes`: remove one trailing slash if present. -/
def stripTrailingSlashes (p : Path) : Path :=
  if p.getLast? = some '/' then p.dropLast else p

/-! ## Error kinds

`enoent`/`enotdir`/`eisdir` model the corresponding OS errnos;
`emptySource` is the `errors.New("targz: input directory is empty")`
value; `invalidWildcard` the `errors.New` wildcard-placement value;
`absFail` a `filepath.Abs` failure (unresolvable working directory);
`writeTooLong` is `tar.ErrWriteTooLong`; `formatError` a gzip/tar header
parse failure; `fuelOut` marks exhausted modelling fuel (never reachable
with sufficient fuel). -/
inductive Err where
  | enoent | enotdir | eisdir
  | emptySource | invalidWildcard | absFail
  | writeTooLong | formatError | fuelOut
  deriving DecidableEq, Repr

/-- Go `filepath.Abs`, with the working directory as explicit context
(`none` models an unresolvable working directory). -/
def absPath (cwd : Option Path) (p : Path) : Except Err Path :=
  if isAbs p then .ok (clean p)
  else
    match cwd with
    | some w => .ok (join2 w p)
    | none => .error .absFail

/-- `targz.makeAbsolute`: make input and output paths absolute. -/
def makeAbsolute (cwd : Option Path) (inputFilePath outputFilePath : Path) :
    Except Err (Path × Path) := do
  let i ← absPath cwd inputFilePath
  let o ← absPath cwd outputFilePath
  pure (i, o)

/-! ## Tar entries and the archive codec

A tar entry as the program constructs it: `tar.FileInfoHeader(fi, link)`
yields a symlink-typed header (with `Linkname = link`, size 0) when the
file info has the symlink mode bit, and a regular-file header (size =
file size) otherwise; the program then overwrites `Header.Name`.  The
gzip+tar container itself is an external standards-compliant codec, so
it is modelled as an injective serialization of the entry list. -/
structure Entry where
  name : Path
  isLink : Bool
  linkname : Path
  content : List Nat
  deriving DecidableEq, Repr

/-- Serialize a path (length-prefixed code points). -/
def encPath (p : Path) : List Nat := p.length :: p.map Char.toNat

/-- Serialize one tar entry. -/
def encEntry (e : Entry) : List Nat :=
  encPath e.name ++ [if e.isLink then 1 else 0] ++ encPath e.linkname ++
    (e.content.length :: e.content)

/-- Serialize an archive (the byte content of a `.tar.gz` file). -/
def encode (es : List Entry) : List Nat := es.length :: es.flatMap encEntry

/-- Deserialize a length-prefixed path. -/
def decPath : List Nat → Option (Path × List Nat)
  | [] => none
  | len :: rest =>
    if len ≤ rest.length then
      some ((rest.take len).map Char.ofNat, rest.drop len)
    else none

/-- Deserialize a length-prefixed byte list. -/
def decBytes : List Nat → Option (List Nat × List Nat)
  | [] => none
  | len :: rest =>
    if len ≤ rest.length then some (rest.take len, rest.drop len)
    else none

/-- Deserialize one tar entry. -/
def decEntry (bs : List Nat) : Option (Entry × List Nat) := do
  let (name, bs) ← decPath bs
  match bs with
  | [] => none
  | flag :: bs => do
    let (linkname, bs) ← decPath bs
    let (content, bs) ← decBytes bs
    pure ({ name := name, isLink := flag = 1, linkname := linkname,
            content := content }, bs)

/-- Deserialize a list of `n` entries. -/
def decEntries : Nat → List Nat → Option (List Entry)
  | 0, bs => if bs = [] then some [] else none
  | n + 1, bs => do
    let (e, bs) ← decEntry bs
    let es ← decEntries n bs
    pure (e :: es)

/-- Deserialize an archive; `none` models a gzip/tar format error. -/
def decode : List Nat → Option (List Entry)
  | [] => none
  | n :: bs => decEntries n bs

/-! ## The filesystem model -/

/-- A filesystem node: regular file with byte content, directory, or
symbolic link with its (raw) target path. -/
inductive Node where
  | file (content : List Nat)
  | dir
  | symlink (target : Path)
  deriving DecidableEq, Repr

/-- Is this node a directory (the `FileInfo.IsDir` test)? -/
def Node.isDir : Node → Bool
  | .dir => true
  | _ => false

/-- Is this node a symbolic link (the `ModeSymlink` bit)? -/
def Node.isLink : Node → Bool
  | .symlink _ => true
  | _ => false

/-- A filesystem: a finite map from absolute clean paths to nodes.  The
root directory `/` always exists and is not a key. -/
abbrev FS := List (Path × Node)

/-- Look a path up in the filesystem (the root is always a directory). -/
def lookupFS (fs : FS) (p : Path) : Option Node :=
  if p = root then some .dir
  else (fs.find? (fun e => e.1 = p)).map (fun e => e.2)

/-- Add or replace the node at a path. -/
def fsInsert (fs : FS) (p : Path) (n : Node) : FS :=
  (p, n) :: fs.filter (fun e => e.1 ≠ p)

/-- Delete the node at a path (`os.Remove` on a file). -/
def fsRemove (fs : FS) (p : Path) : FS :=
  fs.filter (fun e => e.1 ≠ p)

/-- Is `u` the same path as `q` or a (component-wise) ancestor of it?
Both are taken as absolute clean paths. -/
def pathUnder (u q : Path) : Bool :=
  comps u = (comps q).take (comps u).length

/-- `os.RemoveAll`: delete a path and everything beneath it. -/
def fsRemoveAll (fs : FS) (u : Path) : FS :=
  fs.filter (fun e => ¬ pathUnder u e.1)

/-- The child of directory path `d` named `c`. -/
def joinChild (d : Path) (c : Comp) : Path :=
  if d = root then '/' :: c else d ++ '/' :: c

/-- If `k` is a direct child path of directory path `d`, its name. -/
def childNameOf (d k : Path) : Option Comp :=
  let pre := if d = root then d else d ++ ['/']
  if pre = k.take pre.length ∧ pre.length < k.length ∧
      '/' ∉ k.drop pre.length
  then some (k.drop pre.length) else none

/-- Lexicographic order on names (byte order, as `os.ReadDir` sorts). -/
def nameLe : Comp → Comp → Bool
  | [], _ => true
  | _ :: _, [] => false
  | a :: as, b :: bs =>
    if a = b then nameLe as bs else decide (a.toNat ≤ b.toNat)

/-- The sorted child names of directory path `d` (as `os.ReadDir`
returns them). -/
def childrenNames (fs : FS) (d : Path) : List Comp :=
  (fs.filterMap (fun e => childNameOf d e.1)).insertionSort
    (fun a b => nameLe a b = true)

/-! ## Symlink resolution and OS primitives -/

/-- Walk the remaining components from an already-resolved directory
path, following symbolic links (fuelled; `fuelOut` is unreachable with
sufficient fuel). -/
def resolveComps (fs : FS) : Nat → Path → List Comp → Except Err Path
  | 0, _, _ => .error .fuelOut
  | _ + 1, cur, [] => .ok cur
  | fuel + 1, cur, c :: rest =>
    let q := joinChild cur c
    match lookupFS fs q with
    | none => .error .enoent
    | some .dir => resolveComps fs fuel q rest
    | some (.file _) => if rest = [] then .ok q else .error .enotdir
    | some (.symlink t) =>
      let tAbs := if isAbs t then clean t else join2 cur t
      match resolveComps fs fuel root (comps tAbs) with
      | .error e => .error e
      | .ok r => resolveComps fs fuel r rest

/-- Fully resolve an absolute path, following symbolic links in every
component including the last (the behavior of `filepath.EvalSymlinks`
and of the path walk done by `os.Stat`/`os.Open`). -/
def resolvePath (fs : FS) (fuel : Nat) (p : Path) : Except Err Path :=
  resolveComps fs fuel root (comps p)

/-- `os.Stat`: resolve fully, then classify the node. -/
def statNode (fs : FS) (fuel : Nat) (p : Path) : Except Err Node := do
  let r ← resolvePath fs fuel p
  match lookupFS fs r with
  | some n => .ok n
  | none => .error .enoent

/-- `os.Lstat`: resolve the parent, but not the final component. -/
def lstatNode (fs : FS) (fuel : Nat) (p : Path) : Except Err Node :=
  if p = root then .ok .dir
  else do
    let d ← resolvePath fs fuel (dirP p)
    match lookupFS fs (joinChild d (splitFilePart p)) with
    | some n => .ok n
    | none => .error .enoent

/-- `os.ReadDir`: resolve the path, require a directory, and return the
resolved path together with the sorted child names. -/
def readDirEx (fs : FS) (fuel : Nat) (p : Path) :
    Except Err (Path × List Comp) := do
  let r ← resolvePath fs fuel p
  match lookupFS fs r with
  | some .dir => .ok (r, childrenNames fs r)
  | some _ => .error .enotdir
  | none => .error .enoent

/-- `os.Create`: truncate an existing file or create a new one; returns
the updated filesystem and the resolved path of the created file. -/
def createFile (fs : FS) (fuel : Nat) (p : Path) :
    Except Err (FS × Path) := do
  let d ← resolvePath fs fuel (dirP p)
  match lookupFS fs d with
  | some .dir =>
    let target := joinChild d (splitFilePart p)
    match lookupFS fs target with
    | none => .ok (fsInsert fs target (.file []), target)
    | some (.file _) => .ok (fsInsert fs target (.file []), target)
    | some .dir => .error .eisdir
    | some (.symlink _) => do
      let r ← resolvePath fs fuel target
      match lookupFS fs r with
      | some (.file _) => .ok (fsInsert fs r (.file []), r)
      | some .dir => .error .eisdir
      | _ => .error .enoent
  | some _ => .error .enotdir
  | none => .error .enoent

/-- Replace the content of the file at (resolved) path `p`
(writes buffered through the stream wrappers, flushed at close). -/
def setContent (fs : FS) (p : Path) (bs : List Nat) : FS :=
  fsInsert fs p (.file bs)

/-- `os.MkdirAll`: create a directory and all missing ancestors. -/
def mkdirAllOS (fs : FS) : Nat → Path → Except Err FS
  | 0, _ => .error .fuelOut
  | fuel + 1, p =>
    match statNode fs (fuel + 1) p with
    | .ok n => if n.isDir then .ok fs else .error .enotdir
    | .error .enoent => do
      let fs₁ ← mkdirAllOS fs fuel (dirP p)
      .ok (fsInsert fs₁ p .dir)
    | .error e => .error e

/-- Go `filepath.Match` restricted to the metacharacters the repository
can produce (`*` and `?`; no character classes appear in its paths). -/
def matchComp : Comp → Comp → Bool
  | [], name => name = []
  | '*' :: ps, name =>
    matchComp ps name ||
      (match name with
       | [] => false
       | _ :: rest => matchComp ('*' :: ps) rest)
  | p :: ps, name =>
    match name with
    | [] => false
    | c :: cs => (p = '?' || p = c) && matchComp ps cs
  termination_by pat name => pat.length + name.length

/-- Does a pattern match a path, component by component? -/
def matchPath (pattern p : Path) : Bool :=
  isAbs pattern = isAbs p &&
    (comps pattern).length = (comps p).length &&
    ((comps pattern).zip (comps p)).all (fun x => matchComp x.1 x.2)

/-- `filepath.Glob`: the sorted existing paths matching the pattern. -/
def glob (fs : FS) (pattern : Path) : List Path :=
  ((fs.map (fun e => e.1)).filter (fun p => matchPath pattern p)).insertionSort
    (fun a b => nameLe a b = true)

/-! ## The program: `targz.go` translated over the model

State-changing functions take and return the filesystem explicitly;
fuel bounds recursion depth and symlink chains and is always sufficient
in the theorems below. -/

/-- `targz.mkdirAll`'s upward stat loop: walk from `dirPath` through
parents until an existing directory is found, recording the shallowest
non-existent path (the undo target). -/
def mkdirAllLoop (fs : FS) : Nat → Path → Option Path →
    Except Err (Option Path)
  | 0, _, _ => .error .fuelOut
  | fuel + 1, p, undo =>
    match statNode fs (fuel + 1) p with
    | .ok finfo =>
      if finfo.isDir then .ok undo
      else
        match lstatNode fs (fuel + 1) p with
        | .error e => .error e
        | .ok finfo2 => if finfo2.isDir then .ok undo else .error .enotdir
    | .error .enoent => mkdirAllLoop fs fuel (dirP p) (some p)
    | .error e => .error e

/-- `targz.mkdirAll`: create all directories, returning the path whose
recursive removal undoes the creation (`none` when nothing was
created) together with the updated filesystem. -/
def mkdirAll (fs : FS) (fuel : Nat) (dirPath : Path) :
    Except Err (Option Path × FS) := do
  match ← mkdirAllLoop fs fuel dirPath none with
  | none => .ok (none, fs)
  | some undoDir => do
    let fs₁ ← mkdirAllOS fs fuel dirPath
    .ok (some undoDir, fs₁)

/-- Apply the undo closure returned by `targz.mkdirAll`
(`os.RemoveAll` of the recorded directory, or a no-op). -/
def applyUndo (fs : FS) : Option Path → FS
  | none => fs
  | some u => fsRemoveAll fs u

/-- The outcome of `targz.handleErrorInDefer`: on a non-nil cleanup
error it prints the message and calls `os.Exit(1)`, terminating the
calling process. -/
inductive DeferOutcome where
  | normal
  | exitProcess (code : Nat)
  deriving DecidableEq, Repr

/-- `targz.handleErrorInDefer`. -/
def handleErrorInDefer : Option Err → DeferOutcome
  | some _ => .exitProcess 1
  | none => .normal

/-- `targz.writeTarGz`: write one non-directory entry.  `info` is the
`os.FileInfo` obtained from the directory entry (`Lstat` semantics).
Produces the tar entry appended to the stream, or the first error. -/
def writeTarGz (fs : FS) (fuel : Nat) (path : Path) (info : Node)
    (subPath : Path) : Except Err Entry := do
  let opened ← resolvePath fs fuel path
  let evaluatedPath ← resolvePath fs fuel path
  let subPathR ← resolvePath fs fuel subPath
  let link := if evaluatedPath ≠ path then evaluatedPath else []
  let headerName := evaluatedPath.drop subPathR.length
  match lookupFS fs opened with
  | some (.file bs) =>
    if info.isLink then
      if bs.length > 0 then .error .writeTooLong
      else .ok { name := headerName, isLink := true, linkname := link,
                 content := [] }
    else .ok { name := headerName, isLink := false, linkname := link,
               content := bs }
  | some .dir => .error .eisdir
  | _ => .error .enoent

/-- `targz.writeDirectory`: recursively write a directory (or the glob
matches of a pattern) to the tar stream. -/
def writeDirectory (fs : FS) : Nat → Path → Path → Except Err (List Entry)
  | 0, _, _ => .error .fuelOut
  | fuel + 1, directory, subPath =>
    if '*' ∈ directory then
      (glob fs directory).foldlM
        (fun acc m => do
          let es ← writeDirectory fs fuel m subPath
          pure (acc ++ es))
        []
    else do
      let (r, names) ← readDirEx fs (fuel + 1) directory
      names.foldlM
        (fun acc n => do
          let currentPath := join2 directory n
          match lookupFS fs (joinChild r n) with
          | some .dir => do
            let es ← writeDirectory fs fuel currentPath subPath
            pure (acc ++ es)
          | some info => do
            let e ← writeTarGz fs (fuel + 1) currentPath info subPath
            pure (acc ++ [e])
          | none => .error .enoent)
        []

/-- `targz.compress` (the lower-case worker): read the top directory,
reject an empty one, create the archive file, write all entries, and
close the stream stack; on failure after file creation, the deferred
`os.Remove` deletes the archive file. -/
def compressFn (fs : FS) (fuel : Nat) (inPath outFilePath subPath : Path) :
    Except Err Unit × FS :=
  match readDirEx fs fuel inPath with
  | .error e => (.error e, fs)
  | .ok (_, files) =>
    if files.length = 0 then (.error .emptySource, fs)
    else
      match createFile fs fuel outFilePath with
      | .error e => (.error e, fs)
      | .ok (fs₁, handle) =>
        match writeDirectory fs₁ fuel inPath subPath with
        | .error e => (.error e, fsRemove fs₁ outFilePath)
        | .ok es => (.ok (), setContent fs₁ handle (encode es))

/-- `targz.Compress`: the public compression orchestrator. -/
def Compress (cwd : Option Path) (fs : FS) (fuel : Nat)
    (inputFilePath outputFilePath : Path) : Except Err Unit × FS :=
  let inputFilePath := stripTrailingSlashes inputFilePath
  match makeAbsolute cwd inputFilePath outputFilePath with
  | .error e => (.error e, fs)
  | .ok (inputFilePath, outputFilePath) =>
    match mkdirAll fs fuel (dirP outputFilePath) with
    | .error e => (.error e, fs)
    | .ok (undoDir, fs₁) =>
      if '*' ∈ splitDirPart inputFilePath then
        (.error .invalidWildcard, applyUndo fs₁ undoDir)
      else
        let pair :=
          if '*' ∈ inputFilePath then
            (inputFilePath.dropLast, inputFilePath.dropLast)
          else (inputFilePath, dirP inputFilePath)
        match compressFn fs₁ fuel pair.1 outputFilePath pair.2 with
        | (.ok _, fs₂) => (.ok (), fs₂)
        | (.error e, fs₂) => (.error e, applyUndo fs₂ undoDir)

/-- The per-entry body of `targz.extract`'s loop: derive the target
directory and file name from the header, create the directory chain,
create the file, and copy the payload. -/
def extractEntries (fs : FS) (fuel : Nat) :
    List Entry → Path → Except Err Unit × FS
  | [], _ => (.ok (), fs)
  | e :: rest, directory =>
    let fileInfoName := baseP e.name
    let d := join2 directory (dirP e.name)
    let filename := join2 d fileInfoName
    match mkdirAllOS fs fuel d with
    | .error err => (.error err, fs)
    | .ok fs₁ =>
      match createFile fs₁ fuel filename with
      | .error err => (.error err, fs₁)
      | .ok (fs₂, handle) =>
        extractEntries (setContent fs₂ handle e.content) fuel rest directory

/-- `targz.extract` (the lower-case worker): open the archive, wrap it
in the gzip and tar readers, and materialize every entry. -/
def extractFn (fs : FS) (fuel : Nat) (filePath directory : Path) :
    Except Err Unit × FS :=
  match resolvePath fs fuel filePath with
  | .error e => (.error e, fs)
  | .ok r =>
    match lookupFS fs r with
    | some (.file bs) =>
      match decode bs with
      | none => (.error .formatError, fs)
      | some es => extractEntries fs fuel es directory
    | some .dir => (.error .eisdir, fs)
    | _ => (.error .enoent, fs)

/-- `targz.Extract`: the public extraction orchestrator. -/
def Extract (cwd : Option Path) (fs : FS) (fuel : Nat)
    (inputFilePath outputFilePath : Path) : Except Err Unit × FS :=
  let outputFilePath := stripTrailingSlashes outputFilePath
  match makeAbsolute cwd inputFilePath outputFilePath with
  | .error e => (.error e, fs)
  | .ok (inputFilePath, outputFilePath) =>
    match mkdirAll fs fuel outputFilePath with
    | .error e => (.error e, fs)
    | .ok (undoDir, fs₁) =>
      match extractFn fs₁ fuel inputFilePath outputFilePath with
      | (.ok _, fs₂) => (.ok (), fs₂)
      | (.error e, fs₂) => (.error e, applyUndo fs₂ undoDir)

/-! ## Well-formedness of filesystems and auxiliary views -/

/-- A valid path component: non-empty, separator-free, not a dot name. -/
def validComp (c : Comp) : Bool :=
  c ≠ [] ∧ '/' ∉ c ∧ c ≠ ['.'] ∧ c ≠ ['.', '.']

/-- All components valid. -/
def validComps (cs : List Comp) : Bool := cs.all validComp

/-- A well-formed filesystem: keys are distinct absolute clean non-root
paths and every key's parent is a directory.  (Stated with computable
shape checks so that concrete instances are decidable.) -/
def wfFS (fs : FS) : Prop :=
  (fs.map (fun e => e.1)).Nodup ∧
  ∀ e ∈ fs, (validComps (comps e.1) = true ∧ comps e.1 ≠ [] ∧
    e.1 = mkPath (comps e.1)) ∧ lookupFS fs (dirP e.1) = some .dir

/-- No symbolic links anywhere in the filesystem. -/
def noSymlinks (fs : FS) : Prop := ∀ e ∈ fs, ¬ e.2.isLink = true

/-- No wildcard metacharacters in any key. -/
def noStars (fs : FS) : Prop := ∀ e ∈ fs, '*' ∉ e.1

instance wfFSDec (fs : FS) : Decidable (wfFS fs) := by
  unfold wfFS
  infer_instance

instance noSymlinksDec (fs : FS) : Decidable (noSymlinks fs) := by
  unfold noSymlinks
  infer_instance

instance noStarsDec (fs : FS) : Decidable (noStars fs) := by
  unfold noStars
  infer_instance

/-- The byte content of the regular file at `p`, if any. -/
def fileAt (fs : FS) (p : Path) : Option (List Nat) :=
  match lookupFS fs p with
  | some (.file bs) => some bs
  | _ => none

/-- The depth-first enumeration (in `ReadDir` order) of the regular
files under a directory, with their absolute paths and contents.  This
is the reference enumeration the archive writer is proved against. -/
def dfsFiles (fs : FS) : Nat → Path → List (Path × List Nat)
  | 0, _ => []
  | fuel + 1, d =>
    (childrenNames fs d).flatMap
      (fun c =>
        let q := joinChild d c
        match lookupFS fs q with
        | some .dir => dfsFiles fs fuel q
        | some (.file bs) => [(q, bs)]
        | _ => [])

/-! ## Lemmas: splitting and joining path components -/

theorem dropWhile_append_all {α : Type} (p : α → Bool) (l₁ l₂ : List α)
    (h : ∀ a ∈ l₁, p a = true) :
    List.dropWhile p (l₁ ++ l₂) = List.dropWhile p l₂ := by
  induction l₁ with
  | nil => rfl
  | cons a l ih =>
    simp only [List.cons_append, List.dropWhile_cons]
    rw [h a (by simp)]
    exact ih (fun a ha => h a (by simp [ha]))

theorem takeWhile_append_stop {α : Type} (p : α → Bool) (l₁ l₂ : List α)
    (b : α) (h : ∀ a ∈ l₁, p a = true) (hb : p b = false) :
    List.takeWhile p (l₁ ++ b :: l₂) = l₁ := by
  induction l₁ with
  | nil => simp [List.takeWhile_cons, hb]
  | cons a l ih =>
    simp only [List.cons_append, List.takeWhile_cons]
    rw [h a (by simp)]
    simp only [if_true]
    rw [ih (fun a ha => h a (by simp [ha]))]

theorem compsGo_append (p q : Path) (acc : List Char) :
    compsGo (p ++ '/' :: q) acc = compsGo p acc ++ compsGo q [] := by
  induction p generalizing acc with
  | nil =>
    by_cases h : acc = [] <;> simp [compsGo, h]
  | cons c p ih =>
    by_cases hc : c = '/'
    · subst hc
      by_cases h : acc = [] <;> simp [compsGo, h, ih]
    · simp [compsGo, hc, ih]

theorem comps_append_slash (p q : Path) :
    comps (p ++ '/' :: q) = comps p ++ comps q := by
  simpa [comps] using compsGo_append p q []

theorem compsGo_noslash (w : Path) (acc : List Char) (h : '/' ∉ w) :
    compsGo w acc =
      if acc = [] ∧ w = [] then [] else [acc.reverse ++ w] := by
  induction w generalizing acc with
  | nil => by_cases ha : acc = [] <;> simp [compsGo, ha]
  | cons c w ih =>
    have hc : c ≠ '/' := fun hc => h (by simp [hc])
    have hw : '/' ∉ w := fun hw => h (by simp [hw])
    simp [compsGo, hc, ih _ hw]

theorem comps_noslash (w : Path) (h : '/' ∉ w) (hne : w ≠ []) :
    comps w = [w] := by
  simp [comps, compsGo_noslash w [] h, hne]

theorem comps_cons_slash (p : Path) : comps ('/' :: p) = comps p := by
  simp [comps, compsGo]

@[simp] theorem comps_nil : comps [] = [] := rfl

@[simp] theorem comps_root : comps root = [] := rfl

theorem joinComps_cons (c : Comp) (cs : List Comp) (h : cs ≠ []) :
    joinComps (c :: cs) = c ++ '/' :: joinComps cs := by
  match cs with
  | [] => exact absurd rfl h
  | d :: cs => rfl

theorem joinComps_append (cs ds : List Comp) (hc : cs ≠ []) (hd : ds ≠ []) :
    joinComps (cs ++ ds) = joinComps cs ++ '/' :: joinComps ds := by
  induction cs with
  | nil => exact absurd rfl hc
  | cons c cs ih =>
    by_cases h : cs = []
    · subst h
      rw [List.cons_append, List.nil_append, joinComps_cons c ds hd]
      rfl
    · rw [List.cons_append, joinComps_cons c (cs ++ ds) (by simp [h]),
        joinComps_cons c cs h, ih h]
      simp

/-- Components of a valid component list rebuilt by `joinComps`. -/
theorem comps_joinComps (cs : List Comp) (h : validComps cs = true) :
    comps (joinComps cs) = cs := by
  induction cs with
  | nil => rfl
  | cons c cs ih =>
    have hc : validComp c = true := by
      simp [validComps] at h; exact h.1
    have hcs : validComps cs = true := by
      simp [validComps] at h ⊢; exact fun x hx => h.2 x hx
    have hcne : c ≠ [] := by
      simp [validComp, decide_eq_true_eq] at hc; exact hc.1
    have hcslash : '/' ∉ c := by
      simp [validComp, decide_eq_true_eq] at hc; exact hc.2.1
    by_cases hnil : cs = []
    · subst hnil
      simpa [joinComps] using comps_noslash c hcslash hcne
    · rw [joinComps_cons c cs hnil, comps_append_slash, ih hcs,
        comps_noslash c hcslash hcne]
      rfl

theorem comps_mkPath (cs : List Comp) (h : validComps cs = true) :
    comps (mkPath cs) = cs := by
  rw [mkPath, comps_cons_slash, comps_joinComps cs h]

theorem validComps_append {c d : List Comp} (hc : validComps c = true)
    (hd : validComps d = true) : validComps (c ++ d) = true := by
  simp [validComps] at hc hd ⊢
  exact ⟨hc, hd⟩

theorem validComps_of_append_left {c d : List Comp}
    (h : validComps (c ++ d) = true) : validComps c = true := by
  simp [validComps] at h ⊢
  exact h.1

theorem validComps_of_append_right {cs ds : List Comp}
    (h : validComps (cs ++ ds) = true) : validComps ds = true := by
  simp [validComps] at h ⊢
  exact h.2

theorem joinComps_ne_nil (cs : List Comp) (h : validComps cs = true)
    (hne : cs ≠ []) : joinComps cs ≠ [] := by
  match cs with
  | [] => exact absurd rfl hne
  | [c] =>
    simp [validComps, validComp, decide_eq_true_eq] at h
    simpa [joinComps] using h.1
  | c :: d :: cs =>
    simp [validComps, validComp, decide_eq_true_eq] at h
    have hc : c ≠ [] := h.1.1
    intro hcon
    rw [joinComps_cons c (d :: cs) (by simp)] at hcon
    exact hc (List.append_eq_nil.mp hcon).1

theorem mkPath_ne_root (cs : List Comp) (h : validComps cs = true)
    (hne : cs ≠ []) : mkPath cs ≠ root := by
  intro hr
  have : joinComps cs = [] := by
    have := congrArg List.tail hr
    simpa [mkPath, root] using this
  exact joinComps_ne_nil cs h hne this

@[simp] theorem mkPath_nil : mkPath [] = root := rfl

theorem joinChild_mkPath (cs : List Comp) (c : Comp)
    (h : validComps cs = true) :
    joinChild (mkPath cs) c = mkPath (cs ++ [c]) := by
  by_cases hnil : cs = []
  · subst hnil; rfl
  · rw [joinChild, if_neg (mkPath_ne_root cs h hnil), mkPath, mkPath,
      joinComps_append cs [c] hnil (by simp)]
    rfl

theorem mkPath_snoc (cs : List Comp) (c : Comp) (h : cs ≠ []) :
    mkPath (cs ++ [c]) = mkPath cs ++ '/' :: c := by
  rw [mkPath, mkPath, joinComps_append cs [c] h (by simp)]
  rfl

/-- `mkPath` is injective on valid component lists. -/
theorem mkPath_injective {cs ds : List Comp} (hc : validComps cs = true)
    (hd : validComps ds = true) (h : mkPath cs = mkPath ds) : cs = ds := by
  have := congrArg comps h
  rwa [comps_mkPath cs hc, comps_mkPath ds hd] at this

/-! ## Lemmas: `clean`, `dirP`, `baseP`, `join2` on valid paths -/

theorem foldl_cleanStep_valid (rooted : Bool) (cs : List Comp)
    (h : validComps cs = true) (out : List Comp) :
    cs.foldl (cleanStep rooted) out = out ++ cs := by
  induction cs generalizing out with
  | nil => simp
  | cons c cs ih =>
    simp [validComps, validComp, decide_eq_true_eq] at h
    have hc := h.1
    have step : cleanStep rooted out c = out ++ [c] := by
      rw [cleanStep, if_neg hc.2.2.1, if_neg hc.2.2.2]
    rw [List.foldl_cons, step,
      ih (by simp [validComps, validComp, decide_eq_true_eq]; exact h.2)]
    simp

theorem mkPath_head (cs : List Comp) : (mkPath cs).head? = some '/' := rfl

theorem mkPath_ne_nil (cs : List Comp) : mkPath cs ≠ [] := by
  simp [mkPath]

theorem clean_mkPath (cs : List Comp) (h : validComps cs = true) :
    clean (mkPath cs) = mkPath cs := by
  rw [clean, if_neg (mkPath_ne_nil cs)]
  simp only [mkPath_head, comps_mkPath cs h]
  rw [foldl_cleanStep_valid _ cs h []]
  by_cases hnil : cs = []
  · subst hnil; rfl
  · simp [hnil, mkPath]

theorem isAbs_mkPath (cs : List Comp) : isAbs (mkPath cs) = true := rfl

/-- `clean` of a rooted path whose components reduce to `cs`. -/
theorem clean_eq_of_comps (p : Path) (cs : List Comp)
    (hp : p.head? = some '/') (hc : comps p = cs)
    (h : validComps cs = true) : clean p = mkPath cs := by
  have hne : p ≠ [] := by intro h0; subst h0; simp at hp
  rw [clean, if_neg hne]
  simp only [hp, if_pos rfl, hc]
  rw [foldl_cleanStep_valid _ cs h []]
  by_cases hnil : cs = []
  · subst hnil; simp [root, mkPath, joinComps]
  · simp [hnil, mkPath]

theorem splitDirPart_append (X : Path) (c : Comp) (h : '/' ∉ c) :
    splitDirPart (X ++ '/' :: c) = X ++ ['/'] := by
  rw [splitDirPart, List.reverse_append, List.reverse_cons]
  rw [List.append_assoc]
  rw [dropWhile_append_all _ c.reverse _
    (by intro a ha; simp at ha ⊢; intro hav; exact h (hav ▸ ha))]
  simp [List.dropWhile_cons]

theorem splitFilePart_append (X : Path) (c : Comp) (h : '/' ∉ c) :
    splitFilePart (X ++ '/' :: c) = c := by
  rw [splitFilePart, List.reverse_append, List.reverse_cons,
    List.append_assoc, List.singleton_append]
  rw [takeWhile_append_stop _ c.reverse _ '/'
    (by intro a ha; simp at ha ⊢; intro hav; exact h (hav ▸ ha))
    (by simp)]
  simp

theorem mkPath_eq_append (cs : List Comp) (c : Comp) :
    mkPath (cs ++ [c]) = (if cs = [] then ([] : Path) else mkPath cs) ++ '/' :: c := by
  by_cases hnil : cs = []
  · subst hnil; rfl
  · rw [mkPath_snoc cs c hnil, if_neg hnil]

theorem dirP_mkPath (cs : List Comp) (c : Comp)
    (h : validComps (cs ++ [c]) = true) :
    dirP (mkPath (cs ++ [c])) = mkPath cs := by
  have hc : validComp c = true := by
    have := validComps_of_append_right h
    simp [validComps] at this; exact this
  have hcs : validComps cs = true := validComps_of_append_left h
  have hslash : '/' ∉ c := by
    simp [validComp, decide_eq_true_eq] at hc; exact hc.2.1
  by_cases hnil : cs = []
  · subst hnil
    rw [List.nil_append, show mkPath [c] = [] ++ '/' :: c from rfl, dirP,
      splitDirPart_append [] c hslash]
    rfl
  · rw [dirP, mkPath_snoc cs c hnil,
      splitDirPart_append (mkPath cs) c hslash]
    have hcomp : comps (mkPath cs ++ ['/']) = cs := by
      rw [show (['/'] : Path) = '/' :: [] by rfl, comps_append_slash,
        comps_mkPath cs hcs]
      simp
    exact clean_eq_of_comps _ cs (by simp [mkPath]) hcomp hcs

theorem splitFilePart_mkPath (cs : List Comp) (c : Comp)
    (hslash : '/' ∉ c) :
    splitFilePart (mkPath (cs ++ [c])) = c := by
  rw [mkPath_eq_append cs c]
  by_cases hnil : cs = []
  · subst hnil
    simpa using splitFilePart_append [] c hslash
  · rw [if_neg hnil]
    exact splitFilePart_append (mkPath cs) c hslash

/-- Any path of the shape `X ++ '/' :: c` with `c` separator-free and
non-empty has base name `c`. -/
theorem baseP_append (X : Path) (c : Comp) (hne : c ≠ [])
    (hslash : '/' ∉ c) : baseP (X ++ '/' :: c) = c := by
  have hap : (X ++ '/' :: c) ≠ [] := by simp
  have hrev1 : (X ++ '/' :: c).reverse = c.reverse ++ '/' :: X.reverse := by
    rw [List.reverse_append, List.reverse_cons, List.append_assoc,
      List.singleton_append]
  have hrev : c.reverse ≠ [] := by simpa using hne
  have hdrop : (c.reverse ++ '/' :: X.reverse).dropWhile
      (fun x => x = '/') = c.reverse ++ '/' :: X.reverse := by
    match hcr : c.reverse with
    | [] => exact absurd hcr hrev
    | a :: as =>
      have ha : ¬ a = '/' := by
        intro hav
        have ham : a ∈ c.reverse := by rw [hcr]; simp
        rw [List.mem_reverse] at ham
        exact hslash (hav ▸ ham)
      simp [List.dropWhile_cons, ha]
  rw [baseP, if_neg hap, hrev1, hdrop]
  rw [if_neg (by simp [hrev])]
  rw [takeWhile_append_stop _ c.reverse _ '/'
    (by intro a ha; simp at ha ⊢; intro hav; exact hslash (hav ▸ ha))
    (by simp)]
  simp

theorem baseP_mkPath (cs : List Comp) (c : Comp)
    (hc : validComp c = true) :
    baseP (mkPath (cs ++ [c])) = c := by
  simp [validComp, decide_eq_true_eq] at hc
  obtain ⟨hne, hslash, -⟩ := hc
  rw [mkPath_eq_append cs c]
  exact baseP_append _ c hne hslash

theorem comps_append_path (p q : Path) (hq : q.head? = some '/') :
    comps (p ++ q) = comps p ++ comps q := by
  match q with
  | [] => simp at hq
  | a :: q' =>
    have ha : a = '/' := by simpa using hq
    subst ha
    rw [comps_append_slash, comps_cons_slash]

theorem join2_abs (as bs : List Comp) (ha : validComps as = true)
    (hb : validComps bs = true) :
    join2 (mkPath as) (mkPath bs) = mkPath (as ++ bs) := by
  rw [join2, if_neg (mkPath_ne_nil as)]
  have hcomp : comps (mkPath as ++ '/' :: mkPath bs) = as ++ bs := by
    rw [comps_append_slash, comps_mkPath as ha, comps_mkPath bs hb]
  exact clean_eq_of_comps _ (as ++ bs) (by simp [mkPath]) hcomp
    (validComps_append ha hb)

theorem join2_rel (as bs : List Comp) (ha : validComps as = true)
    (hb : validComps bs = true) :
    join2 (mkPath as) (joinComps bs) = mkPath (as ++ bs) := by
  rw [join2, if_neg (mkPath_ne_nil as)]
  have hcomp : comps (mkPath as ++ '/' :: joinComps bs) = as ++ bs := by
    rw [comps_append_slash, comps_mkPath as ha, comps_joinComps bs hb]
  exact clean_eq_of_comps _ (as ++ bs) (by simp [mkPath]) hcomp
    (validComps_append ha hb)

/-- `clean` of a rooted path whose components are `cs` plus a trailing
dot component. -/
theorem clean_eq_dots (p : Path) (cs : List Comp)
    (hp : p.head? = some '/') (hcomp : comps p = cs ++ [['.']])
    (h : validComps cs = true) : clean p = mkPath cs := by
  have hne : p ≠ [] := by intro h0; subst h0; simp at hp
  rw [clean, if_neg hne]
  simp only [hp, hcomp]
  rw [List.foldl_append, foldl_cleanStep_valid _ cs h []]
  simp only [List.foldl_cons, List.foldl_nil]
  have hstep : ∀ b : Bool, cleanStep b ([] ++ cs) ['.'] = cs := by
    intro b; simp [cleanStep]
  rw [hstep]
  by_cases hnil : cs = []
  · subst hnil; simp [root, mkPath, joinComps]
  · simp [hnil, mkPath]

theorem join2_dot (as : List Comp) (ha : validComps as = true) :
    join2 (mkPath as) ['.'] = mkPath as := by
  rw [join2, if_neg (mkPath_ne_nil as)]
  have hcomp : comps (mkPath as ++ '/' :: ['.']) = as ++ [['.']] := by
    rw [comps_append_slash, comps_mkPath as ha]
    rw [comps_noslash ['.'] (by simp) (by simp)]
  exact clean_eq_dots _ as (by simp [mkPath]) hcomp ha

theorem join2_child (as : List Comp) (c : Comp)
    (ha : validComps as = true) (hc : validComp c = true) :
    join2 (mkPath as) c = mkPath (as ++ [c]) := by
  have : joinComps [c] = c := rfl
  rw [← this]
  exact join2_rel as [c] ha (by simp [validComps, hc])

theorem join2_root (as : List Comp) (ha : validComps as = true) :
    join2 (mkPath as) root = mkPath as := by
  rw [join2, if_neg (mkPath_ne_nil as)]
  have hcomp : comps (mkPath as ++ '/' :: root) = as := by
    rw [comps_append_slash, comps_mkPath as ha, comps_root,
      List.append_nil]
  have := clean_eq_of_comps (mkPath as ++ '/' :: root) as
    (by simp [mkPath]) hcomp ha
  simpa using this

@[simp] theorem dirP_root : dirP root = root := rfl

theorem dirP_single (c : Comp) (hne : c ≠ []) (hslash : '/' ∉ c) :
    dirP c = ['.'] := by
  rw [dirP, splitDirPart]
  have : c.reverse.dropWhile (fun x => x ≠ '/') = [] := by
    rw [List.dropWhile_eq_nil_iff]
    intro a ha
    rw [List.mem_reverse] at ha
    simp
    intro hav
    exact hslash (hav ▸ ha)
  rw [this]
  rfl

theorem dirP_joinComps (cs : List Comp) (c : Comp)
    (h : validComps cs = true) (hc : validComp c = true)
    (hnil : cs ≠ []) :
    dirP (joinComps (cs ++ [c])) = joinComps cs := by
  simp [validComp, decide_eq_true_eq] at hc
  obtain ⟨hne, hslash, -⟩ := hc
  rw [joinComps_append cs [c] hnil (by simp), dirP]
  rw [show joinComps [c] = c from rfl]
  rw [splitDirPart_append (joinComps cs) c hslash]
  have hj : joinComps cs ≠ [] := joinComps_ne_nil cs h hnil
  have hcomp : comps (joinComps cs ++ ['/']) = cs := by
    rw [show (['/'] : Path) = '/' :: [] by rfl, comps_append_slash,
      comps_joinComps cs h]
    simp
  have hhead : (joinComps cs ++ ['/']).head? ≠ some '/' := by
    match hcs : cs with
    | [] => exact absurd rfl hnil
    | d :: cs' =>
      have hd : validComp d = true := by
        subst hcs
        simp [validComps] at h
        exact h.1
      simp [validComp, decide_eq_true_eq] at hd
      match hdd : d with
      | [] => exact absurd rfl hd.1
      | a :: d' =>
        have ha : ¬ a = '/' := by
          intro hav
          exact hd.2.1 (by simp [hav])
        by_cases hnil' : cs' = []
        · subst hnil'
          simp [joinComps, ha]
        · rw [joinComps_cons _ _ hnil']
          simp [ha]
  rw [clean]
  rw [if_neg (by simp [hj])]
  have hro : ¬ ((joinComps cs ++ ['/']).head? = some '/') := hhead
  simp only [hcomp, if_neg hro]
  rw [foldl_cleanStep_valid _ cs h []]
  simp [hnil]

theorem baseP_joinComps (cs : List Comp) (c : Comp)
    (hc : validComp c = true) (hnil : cs ≠ []) :
    baseP (joinComps (cs ++ [c])) = c := by
  simp [validComp, decide_eq_true_eq] at hc
  rw [joinComps_append cs [c] hnil (by simp),
    show joinComps [c] = c from rfl]
  exact baseP_append _ c hc.1 hc.2.1

theorem takeWhile_all {α : Type} (p : α → Bool) (l : List α)
    (h : ∀ a ∈ l, p a = true) : l.takeWhile p = l := by
  induction l with
  | nil => rfl
  | cons a l ih =>
    simp only [List.takeWhile_cons, h a (by simp), if_true]
    rw [ih (fun x hx => h x (by simp [hx]))]

theorem baseP_single (c : Comp) (hne : c ≠ []) (hslash : '/' ∉ c) :
    baseP c = c := by
  have h1 : c.reverse.dropWhile (fun x => x = '/') = c.reverse := by
    match hcr : c.reverse with
    | [] => rfl
    | a :: as =>
      have ha : ¬ a = '/' := by
        intro hav
        have ham : a ∈ c.reverse := by rw [hcr]; simp
        rw [List.mem_reverse] at ham
        exact hslash (hav ▸ ham)
      simp [List.dropWhile_cons, ha]
  rw [baseP, if_neg hne, h1, if_neg (by simpa using hne)]
  rw [takeWhile_all _ c.reverse (by
    intro a ha
    rw [List.mem_reverse] at ha
    simp
    intro hav
    exact hslash (hav ▸ ha))]
  simp

/-! trailing-slash facts -/

theorem getLast_append_comp (X : Path) (c : Comp) (hne : c ≠ []) :
    (X ++ '/' :: c).getLast? = c.getLast? := by
  rw [List.getLast?_append_of_ne_nil X (by simp)]
  match c, hne with
  | a :: c', _ =>
    rw [show ('/' :: a :: c' : Path) = ['/'] ++ a :: c' from rfl,
      List.getLast?_append_of_ne_nil ['/'] (by simp)]

theorem stripTrailingSlashes_mkPath (cs : List Comp) (c : Comp)
    (hc : validComp c = true) :
    stripTrailingSlashes (mkPath (cs ++ [c])) = mkPath (cs ++ [c]) := by
  simp [validComp, decide_eq_true_eq] at hc
  rw [stripTrailingSlashes, mkPath_eq_append cs c]
  rw [if_neg]
  rw [getLast_append_comp _ c hc.1]
  intro hl
  exact hc.2.1 (List.mem_of_mem_getLast? hl)

/-! ## Lemmas: filesystem lookups and updates -/

theorem find?_filter_sub {α : Type} (f g : α → Bool) (l : List α)
    (h : ∀ a, f a = true → g a = true) :
    (l.filter g).find? f = l.find? f := by
  induction l with
  | nil => rfl
  | cons a l ih =>
    by_cases hf : f a = true
    · rw [List.filter_cons, if_pos (h a hf), List.find?_cons_of_pos _ hf,
        List.find?_cons_of_pos _ hf]
    · have hf' : f a = false := by
        cases hfa : f a with
        | true => exact absurd hfa hf
        | false => rfl
      rw [List.filter_cons]
      by_cases hg : g a = true
      · rw [if_pos hg, List.find?_cons_of_neg _ (by simp [hf']),
          List.find?_cons_of_neg _ (by simp [hf']), ih]
      · rw [if_neg hg, List.find?_cons_of_neg _ (by simp [hf']), ih]

theorem find?_filter_none {α : Type} (f g : α → Bool) (l : List α)
    (h : ∀ a, f a = true → g a = false) :
    (l.filter g).find? f = none := by
  induction l with
  | nil => rfl
  | cons a l ih =>
    rw [List.filter_cons]
    by_cases hg : g a = true
    · have hf : f a = false := by
        cases hfa : f a with
        | true => rw [h a hfa] at hg; cases hg
        | false => rfl
      rw [if_pos hg, List.find?_cons_of_neg _ (by simp [hf]), ih]
    · rw [if_neg hg, ih]

theorem lookupFS_insert_self (fs : FS) (p : Path) (n : Node)
    (hp : p ≠ root) : lookupFS (fsInsert fs p n) p = some n := by
  rw [lookupFS, if_neg hp, fsInsert]
  rw [List.find?_cons_of_pos _ (by simp)]
  rfl

theorem lookupFS_insert_ne (fs : FS) (p : Path) (n : Node) (q : Path)
    (h : q ≠ p) : lookupFS (fsInsert fs p n) q = lookupFS fs q := by
  by_cases hq : q = root
  · subst hq; rw [lookupFS, if_pos rfl, lookupFS, if_pos rfl]
  · rw [lookupFS, if_neg hq, lookupFS, if_neg hq, fsInsert]
    rw [List.find?_cons_of_neg _ (by simp [Ne.symm h])]
    rw [find?_filter_sub _ _ fs (by
      intro a ha
      simp at ha ⊢
      rw [ha]
      exact Ne.symm (fun hpq => h hpq.symm))]

theorem lookupFS_remove_ne (fs : FS) (p q : Path) (h : q ≠ p) :
    lookupFS (fsRemove fs p) q = lookupFS fs q := by
  by_cases hq : q = root
  · subst hq; rw [lookupFS, if_pos rfl, lookupFS, if_pos rfl]
  · rw [lookupFS, if_neg hq, lookupFS, if_neg hq, fsRemove]
    rw [find?_filter_sub _ _ fs (by
      intro a ha
      simp at ha ⊢
      rw [ha]
      exact h)]

theorem lookupFS_remove_self (fs : FS) (p : Path) (hp : p ≠ root) :
    lookupFS (fsRemove fs p) p = none := by
  rw [lookupFS, if_neg hp, fsRemove]
  rw [find?_filter_none _ _ fs (by
    intro a ha
    simp at ha ⊢
    exact ha)]
  rfl

theorem lookupFS_removeAll_out (fs : FS) (u q : Path)
    (h : pathUnder u q = false) :
    lookupFS (fsRemoveAll fs u) q = lookupFS fs q := by
  by_cases hq : q = root
  · subst hq; rw [lookupFS, if_pos rfl, lookupFS, if_pos rfl]
  · rw [lookupFS, if_neg hq, lookupFS, if_neg hq, fsRemoveAll]
    rw [find?_filter_sub _ _ fs (by
      intro a ha
      simp at ha ⊢
      simp [ha, h])]

theorem lookupFS_removeAll_under (fs : FS) (u q : Path)
    (h : pathUnder u q = true) (hq : q ≠ root) :
    lookupFS (fsRemoveAll fs u) q = none := by
  rw [lookupFS, if_neg hq, fsRemoveAll]
  rw [find?_filter_none _ _ fs (by
    intro a ha
    simp at ha ⊢
    simp [ha, h])]
  rfl

theorem pathUnder_self (p : Path) : pathUnder p p = true := by
  simp [pathUnder]

theorem pathUnder_mkPath_iff (us qs : List Comp)
    (hu : validComps us = true) (hq : validComps qs = true) :
    pathUnder (mkPath us) (mkPath qs) = true ↔ ∃ ts, qs = us ++ ts := by
  rw [pathUnder, comps_mkPath us hu, comps_mkPath qs hq]
  constructor
  · intro h
    rw [decide_eq_true_eq] at h
    exact ⟨qs.drop us.length, by
      conv_lhs => rw [← List.take_append_drop us.length qs]
      rw [← h]⟩
  · rintro ⟨ts, rfl⟩
    rw [decide_eq_true_eq, List.take_left]

/-! ## Lemmas: well-formed filesystems -/

theorem find?_eq_some_of_mem_nodup {l : FS}
    (hnd : (l.map (fun e => e.1)).Nodup) {p : Path} {n : Node}
    (hm : (p, n) ∈ l) : l.find? (fun e => e.1 = p) = some (p, n) := by
  induction l with
  | nil => cases hm
  | cons a l ih =>
    rw [List.map_cons, List.nodup_cons] at hnd
    rcases List.mem_cons.mp hm with h | h
    · subst h
      rw [List.find?_cons_of_pos _ (by simp)]
    · have hne : ¬ a.1 = p := by
        intro he
        exact hnd.1 (he ▸ List.mem_map_of_mem (fun e => e.1) h)
      rw [List.find?_cons_of_neg _ (by simp [hne])]
      exact ih hnd.2 h

theorem lookupFS_of_mem {fs : FS} (hwf : wfFS fs) {p : Path} {n : Node}
    (hm : (p, n) ∈ fs) : lookupFS fs p = some n := by
  obtain ⟨hnd, hsh⟩ := hwf
  obtain ⟨⟨hcs, hcne, hp⟩, -⟩ := hsh (p, n) hm
  simp only at hp hcs hcne
  have hroot : p ≠ root := by
    rw [hp]; exact mkPath_ne_root _ hcs hcne
  rw [lookupFS, if_neg hroot, find?_eq_some_of_mem_nodup hnd hm]
  rfl

theorem mem_of_lookupFS {fs : FS} {p : Path} {n : Node}
    (hp : p ≠ root) (h : lookupFS fs p = some n) : (p, n) ∈ fs := by
  rw [lookupFS, if_neg hp] at h
  match hf : fs.find? (fun e => e.1 = p) with
  | none => rw [hf] at h; cases h
  | some e =>
    rw [hf] at h
    have hmem := List.mem_of_find?_eq_some hf
    have hkey := List.find?_some hf
    obtain ⟨e1, e2⟩ := e
    simp at hkey h
    subst hkey
    subst h
    exact hmem

theorem wf_key_shape {fs : FS} (hwf : wfFS fs) {p : Path} {n : Node}
    (hp : p ≠ root) (h : lookupFS fs p = some n) :
    ∃ cs, validComps cs = true ∧ cs ≠ [] ∧ p = mkPath cs := by
  obtain ⟨h1, h2, h3⟩ := (hwf.2 (p, n) (mem_of_lookupFS hp h)).1
  exact ⟨comps p, h1, h2, h3⟩

theorem wf_parent_dir {fs : FS} (hwf : wfFS fs) {p : Path} {n : Node}
    (hp : p ≠ root) (h : lookupFS fs p = some n) :
    lookupFS fs (dirP p) = some .dir := by
  exact (hwf.2 (p, n) (mem_of_lookupFS hp h)).2

/-- Every strict ancestor (with at least one component) of an existing
path is a directory. -/
theorem wf_prefix_dir {fs : FS} (hwf : wfFS fs) (cs : List Comp)
    (hcs : cs ≠ []) :
    ∀ ds : List Comp, ds ≠ [] → validComps (cs ++ ds) = true →
      (∃ n, lookupFS fs (mkPath (cs ++ ds)) = some n) →
      lookupFS fs (mkPath cs) = some .dir := by
  intro ds
  induction ds using List.reverseRecOn with
  | nil => intro h; exact absurd rfl h
  | append_singleton ds d ih =>
    rintro - hv ⟨n, h⟩
    have hv' : validComps ((cs ++ ds) ++ [d]) = true := by
      rwa [List.append_assoc]
    have hne : mkPath ((cs ++ ds) ++ [d]) ≠ root :=
      mkPath_ne_root _ hv' (by simp)
    have h' : lookupFS fs (mkPath ((cs ++ ds) ++ [d])) = some n := by
      rwa [← List.append_assoc] at h
    have hparent := wf_parent_dir hwf hne h'
    rw [dirP_mkPath (cs ++ ds) d hv'] at hparent
    by_cases hnil : ds = []
    · subst hnil; simpa using hparent
    · exact ih hnil (validComps_of_append_left hv') ⟨_, hparent⟩

/-- Nothing exists strictly below a missing path. -/
theorem wf_missing_below {fs : FS} (hwf : wfFS fs) (cs ds : List Comp)
    (hcs : cs ≠ []) (hds : ds ≠ []) (hv : validComps (cs ++ ds) = true)
    (hmiss : lookupFS fs (mkPath cs) = none) :
    lookupFS fs (mkPath (cs ++ ds)) = none := by
  match hl : lookupFS fs (mkPath (cs ++ ds)) with
  | none => rfl
  | some n =>
    have := wf_prefix_dir hwf cs hcs ds hds hv ⟨n, hl⟩
    rw [hmiss] at this
    cases this

/-- Nothing exists strictly below a regular file. -/
theorem wf_file_below {fs : FS} (hwf : wfFS fs) (cs ds : List Comp)
    (hcs : cs ≠ []) (hds : ds ≠ []) (hv : validComps (cs ++ ds) = true)
    {bs : List Nat} (hfile : lookupFS fs (mkPath cs) = some (.file bs)) :
    lookupFS fs (mkPath (cs ++ ds)) = none := by
  match hl : lookupFS fs (mkPath (cs ++ ds)) with
  | none => rfl
  | some n =>
    have := wf_prefix_dir hwf cs hcs ds hds hv ⟨n, hl⟩
    rw [hfile] at this
    cases this

/-! ## Lemmas: directory children -/

theorem childNameOf_append (d : Path) (c : Comp) (hne : c ≠ [])
    (hslash : '/' ∉ c) :
    childNameOf d ((if d = root then d else d ++ ['/']) ++ c) = some c := by
  rw [childNameOf]
  have h1 : (if d = root then d else d ++ ['/']) =
      ((if d = root then d else d ++ ['/']) ++ c).take
        (if d = root then d else d ++ ['/']).length := (List.take_left _ _).symm
  have h2 : (if d = root then d else d ++ ['/']).length <
      ((if d = root then d else d ++ ['/']) ++ c).length := by
    rw [List.length_append]
    have : 0 < c.length := List.length_pos.mpr hne
    omega
  have h3 : '/' ∉ ((if d = root then d else d ++ ['/']) ++ c).drop
      (if d = root then d else d ++ ['/']).length := by
    rw [List.drop_left]; exact hslash
  rw [if_pos ⟨h1, h2, h3⟩, List.drop_left]

theorem joinChild_eq_pre (d : Path) (c : Comp) :
    joinChild d c = (if d = root then d else d ++ ['/']) ++ c := by
  rw [joinChild]
  by_cases hd : d = root
  · rw [if_pos hd, if_pos hd, hd]; rfl
  · rw [if_neg hd, if_neg hd, List.append_assoc]; rfl

theorem childNameOf_joinChild (d : Path) (c : Comp) (hne : c ≠ [])
    (hslash : '/' ∉ c) :
    childNameOf d (joinChild d c) = some c := by
  rw [joinChild_eq_pre]
  exact childNameOf_append d c hne hslash

theorem childNameOf_some {d k : Path} {c : Comp}
    (h : childNameOf d k = some c) :
    k = joinChild d c ∧ c ≠ [] ∧ '/' ∉ c := by
  rw [childNameOf] at h
  by_cases hc : (if d = root then d else d ++ ['/']) =
      k.take (if d = root then d else d ++ ['/']).length ∧
      (if d = root then d else d ++ ['/']).length < k.length ∧
      '/' ∉ k.drop (if d = root then d else d ++ ['/']).length
  · rw [if_pos hc] at h
    obtain ⟨h1, h2, h3⟩ := hc
    injection h with h
    subst h
    refine ⟨?_, ?_, h3⟩
    · have hsplit := List.take_append_drop
        (if d = root then d else d ++ ['/']).length k
      rw [← h1] at hsplit
      rw [joinChild_eq_pre, hsplit]
    · intro hnil
      rw [List.drop_eq_nil_iff] at hnil
      omega
  · rw [if_neg hc] at h; cases h

theorem comps_mkPath_snoc (cs : List Comp) (c : Comp)
    (hv : validComps cs = true) (hne : c ≠ []) (hslash : '/' ∉ c) :
    comps (mkPath (cs ++ [c])) = cs ++ [c] := by
  rw [mkPath_eq_append]
  by_cases hnil : cs = []
  · subst hnil
    rw [show (if ([] : List Comp) = [] then ([] : Path) else mkPath []) =
      ([] : Path) from rfl, List.nil_append, comps_cons_slash,
      comps_noslash c hslash hne]
    simp
  · rw [if_neg hnil, comps_append_slash, comps_mkPath cs hv,
      comps_noslash c hslash hne]

theorem childrenNames_as_keys (fs : FS) (d : Path) :
    childrenNames fs d = ((fs.map (fun e => e.1)).filterMap
      (childNameOf d)).insertionSort (fun a b => nameLe a b = true) := by
  rw [childrenNames, List.filterMap_map]
  rfl

theorem nodup_childrenNames {fs : FS} (hwf : wfFS fs) (d : Path) :
    (childrenNames fs d).Nodup := by
  rw [childrenNames_as_keys]
  refine (List.perm_insertionSort _ _).nodup_iff.mpr ?_
  refine hwf.1.filterMap ?_
  intro k k' c hk hk'
  rw [Option.mem_def] at hk hk'
  have e1 := (childNameOf_some hk).1
  have e2 := (childNameOf_some hk').1
  rw [e1, e2]

theorem mem_childrenNames_iff {fs : FS} (hwf : wfFS fs) (cs : List Comp)
    (hv : validComps cs = true) (c : Comp) :
    c ∈ childrenNames fs (mkPath cs) ↔
      validComp c = true ∧
        ∃ n, lookupFS fs (mkPath (cs ++ [c])) = some n := by
  rw [childrenNames,
    (List.perm_insertionSort (fun a b => nameLe a b = true) _).mem_iff,
    List.mem_filterMap]
  constructor
  · rintro ⟨e, he, hf⟩
    obtain ⟨hk, hne, hslash⟩ := childNameOf_some hf
    have hkey : e.1 = mkPath (cs ++ [c]) := by
      rw [hk, joinChild_mkPath cs c hv]
    have hmem : (e.1, e.2) ∈ fs := he
    have hlook := lookupFS_of_mem hwf hmem
    rw [hkey] at hlook
    obtain ⟨⟨hes, hesne, hkeq⟩, -⟩ := hwf.2 e he
    have hescomp : comps e.1 = cs ++ [c] := by
      rw [hkey, comps_mkPath_snoc cs c hv hne hslash]
    have hvc : validComp c = true := by
      have := validComps_of_append_right (hescomp ▸ hes)
      simp [validComps] at this
      exact this
    exact ⟨hvc, e.2, hlook⟩
  · rintro ⟨hvc, n, hlook⟩
    have hvall : validComps (cs ++ [c]) = true :=
      validComps_append hv (by simp [validComps, hvc])
    have hroot : mkPath (cs ++ [c]) ≠ root :=
      mkPath_ne_root _ hvall (by simp)
    have hmem := mem_of_lookupFS hroot hlook
    refine ⟨(mkPath (cs ++ [c]), n), hmem, ?_⟩
    rw [← joinChild_mkPath cs c hv]
    have hcc : c ≠ [] ∧ '/' ∉ c := by
      simp [validComp, decide_eq_true_eq] at hvc
      exact ⟨hvc.1, hvc.2.1⟩
    exact childNameOf_joinChild _ c hcc.1 hcc.2

/-! ## Lemmas: path resolution without symbolic links -/

theorem not_symlink_of_noSymlinks {fs : FS} (hwf : wfFS fs)
    (hns : noSymlinks fs) {p : Path} {t : Path}
    (h : lookupFS fs p = some (.symlink t)) : False := by
  by_cases hp : p = root
  · rw [lookupFS, if_pos hp] at h; cases h
  · exact hns _ (mem_of_lookupFS hp h) rfl

theorem resolveComps_nosym {fs : FS} (hwf : wfFS fs)
    (hns : noSymlinks fs) :
    ∀ (rest : List Comp) (fuel : Nat) (as : List Comp),
      validComps (as ++ rest) = true →
      (∃ n, lookupFS fs (mkPath (as ++ rest)) = some n) →
      rest.length < fuel →
      resolveComps fs fuel (mkPath as) rest = .ok (mkPath (as ++ rest)) := by
  intro rest
  induction rest with
  | nil =>
    intro fuel as hv hex hfuel
    match fuel, hfuel with
    | fuel + 1, _ => simp [resolveComps]
  | cons c rest ih =>
    intro fuel as hv hex hfuel
    match fuel, hfuel with
    | fuel + 1, hfuel =>
      rw [resolveComps]
      rw [joinChild_mkPath as c (validComps_of_append_left (d := c :: rest)
        (by simpa using hv))]
      have hassoc : as ++ c :: rest = (as ++ [c]) ++ rest := by simp
      by_cases hrest : rest = []
      · subst hrest
        obtain ⟨n, hn⟩ := hex
        match n, hn with
        | .dir, hn =>
          rw [hn]
          have hres : resolveComps fs fuel (mkPath (as ++ [c])) [] =
              .ok (mkPath (as ++ [c])) := by
            have hf0 : 0 < fuel := by simp at hfuel; omega
            match fuel, hf0 with
            | fuel + 1, _ => simp [resolveComps]
          rw [hres]
        | .file bs, hn =>
          rw [hn]
          simp
        | .symlink t, hn =>
          exact absurd hn (fun h => not_symlink_of_noSymlinks hwf hns h)
      · have hv' : validComps ((as ++ [c]) ++ rest) = true := by
          rwa [← hassoc]
        have hex' : ∃ n, lookupFS fs (mkPath ((as ++ [c]) ++ rest)) =
            some n := by rwa [← hassoc]
        have hdir : lookupFS fs (mkPath (as ++ [c])) = some .dir :=
          wf_prefix_dir hwf (as ++ [c]) (by simp) rest hrest hv' hex'
        rw [hdir]
        rw [ih fuel (as ++ [c]) hv' hex' (by simp at hfuel; omega)]
        rw [hassoc]

theorem resolvePath_nosym {fs : FS} (hwf : wfFS fs) (hns : noSymlinks fs)
    (cs : List Comp) (fuel : Nat) (hv : validComps cs = true)
    (hex : ∃ n, lookupFS fs (mkPath cs) = some n)
    (hfuel : cs.length < fuel) :
    resolvePath fs fuel (mkPath cs) = .ok (mkPath cs) := by
  rw [resolvePath, comps_mkPath cs hv,
    show root = mkPath [] from rfl]
  simpa using resolveComps_nosym hwf hns cs fuel [] (by simpa using hv)
    (by simpa using hex) hfuel

/-- Resolving a path that walks through a regular file yields `ENOTDIR`
(the `syscall.ENOTDIR` the OS returns for such walks). -/
theorem resolveComps_enotdir {fs : FS} (hwf : wfFS fs)
    (hns : noSymlinks fs) {bs : List Nat} :
    ∀ (pre : List Comp) (ds : List Comp) (fuel : Nat) (as : List Comp),
      pre ≠ [] → ds ≠ [] →
      validComps (as ++ pre ++ ds) = true →
      lookupFS fs (mkPath (as ++ pre)) = some (.file bs) →
      pre.length < fuel →
      resolveComps fs fuel (mkPath as) (pre ++ ds) = .error .enotdir := by
  intro pre
  induction pre with
  | nil => intro ds fuel as h; exact absurd rfl h
  | cons c pre ih =>
    intro ds fuel as hpre hds hv hfile hfuel
    match fuel, hfuel with
    | fuel + 1, hfuel =>
      rw [List.cons_append, resolveComps]
      have hvc : validComps (as ++ [c]) = true := by
        refine validComps_of_append_left (d := pre ++ ds) ?_
        simpa [List.append_assoc] using hv
      rw [joinChild_mkPath as c (validComps_of_append_left (d := [c]) hvc)]
      by_cases hp : pre = []
      · subst hp
        rw [show as ++ [c] = as ++ [c] ++ [] from by simp] at hfile
        simp at hfile
        rw [hfile]
        simp [hds]
      · have hassoc1 : as ++ c :: pre = (as ++ [c]) ++ pre := by simp
        have hfile' : lookupFS fs (mkPath ((as ++ [c]) ++ pre)) =
            some (.file bs) := by
          rw [← hassoc1]
          exact hfile
        have hv' : validComps ((as ++ [c]) ++ pre ++ ds) = true := by
          simpa [List.append_assoc] using hv
        have hvp : validComps ((as ++ [c]) ++ pre) = true :=
          validComps_of_append_left hv'
        have hdir : lookupFS fs (mkPath (as ++ [c])) = some .dir :=
          wf_prefix_dir hwf (as ++ [c]) (by simp) pre hp hvp
            ⟨.file bs, hfile'⟩
        rw [hdir]
        exact ih ds fuel (as ++ [c]) hp hds hv' hfile'
          (by simp at hfuel; omega)

theorem resolvePath_enotdir {fs : FS} (hwf : wfFS fs)
    (hns : noSymlinks fs) {bs : List Nat} (pre ds : List Comp)
    (fuel : Nat) (hpre : pre ≠ []) (hds : ds ≠ [])
    (hv : validComps (pre ++ ds) = true)
    (hfile : lookupFS fs (mkPath pre) = some (.file bs))
    (hfuel : pre.length < fuel) :
    resolvePath fs fuel (mkPath (pre ++ ds)) = .error .enotdir := by
  rw [resolvePath, comps_mkPath _ hv, show root = mkPath [] from rfl]
  simpa using resolveComps_enotdir hwf hns pre ds fuel [] hpre hds
    (by simpa using hv) (by simpa using hfile) hfuel

/-- On a symlink-free well-formed filesystem, a successful resolution
returns the path itself and the path exists. -/
theorem resolveComps_nosym_inv {fs : FS} (hwf : wfFS fs)
    (hns : noSymlinks fs) :
    ∀ (fuel : Nat) (rest : List Comp) (as : List Comp) (r : Path),
      validComps (as ++ rest) = true →
      (∃ n, lookupFS fs (mkPath as) = some n) →
      resolveComps fs fuel (mkPath as) rest = .ok r →
      r = mkPath (as ++ rest) ∧ ∃ n, lookupFS fs r = some n := by
  intro fuel
  induction fuel with
  | zero => intro rest as r _ _ h; cases h
  | succ fuel ih =>
    intro rest as r hv hex h
    match rest with
    | [] =>
      rw [resolveComps] at h
      injection h with h
      subst h
      exact ⟨by simp, hex⟩
    | c :: rest =>
      rw [resolveComps,
        joinChild_mkPath as c (validComps_of_append_left (d := c :: rest)
          (by simpa using hv))] at h
      match hl : lookupFS fs (mkPath (as ++ [c])) with
      | none => rw [hl] at h; cases h
      | some .dir =>
        rw [hl] at h
        have := ih rest (as ++ [c]) r (by simpa using hv) ⟨.dir, hl⟩ h
        simpa using this
      | some (.file bs) =>
        rw [hl] at h
        by_cases hrest : rest = []
        · subst hrest
          rw [if_pos rfl] at h
          injection h with h
          subst h
          exact ⟨by simp, ⟨.file bs, hl⟩⟩
        · rw [if_neg hrest] at h; cases h
      | some (.symlink t) =>
        exact absurd hl (fun hll => not_symlink_of_noSymlinks hwf hns hll)

theorem resolvePath_nosym_inv {fs : FS} (hwf : wfFS fs)
    (hns : noSymlinks fs) {fuel : Nat} {cs : List Comp} {r : Path}
    (hv : validComps cs = true)
    (h : resolvePath fs fuel (mkPath cs) = .ok r) :
    r = mkPath cs ∧ ∃ n, lookupFS fs r = some n := by
  rw [resolvePath, comps_mkPath cs hv,
    show root = mkPath [] from rfl] at h
  have := resolveComps_nosym_inv hwf hns fuel cs [] r (by simpa using hv)
    ⟨.dir, rfl⟩ h
  simpa using this

/-- `os.Stat` on a symlink-free well-formed filesystem: success means
the path itself carries the returned node. -/
theorem statNode_nosym_inv {fs : FS} (hwf : wfFS fs)
    (hns : noSymlinks fs) {fuel : Nat} {cs : List Comp} {n : Node}
    (hv : validComps cs = true)
    (h : statNode fs fuel (mkPath cs) = .ok n) :
    lookupFS fs (mkPath cs) = some n := by
  rw [statNode] at h
  match hres : resolvePath fs fuel (mkPath cs) with
  | .error e => rw [hres] at h; cases h
  | .ok r =>
    rw [hres] at h
    obtain ⟨hr, -⟩ := resolvePath_nosym_inv hwf hns hv hres
    subst hr
    have h' : (match lookupFS fs (mkPath cs) with
        | some m => Except.ok m
        | none => (Except.error Err.enoent : Except Err Node)) =
        Except.ok n := h
    match hl : lookupFS fs (mkPath cs) with
    | none => rw [hl] at h'; cases h'
    | some m =>
      rw [hl] at h'
      injection h' with h'
      rw [h']

theorem statNode_nosym {fs : FS} (hwf : wfFS fs) (hns : noSymlinks fs)
    {fuel : Nat} {c : List Comp} {n : Node}
    (hv : validComps c = true)
    (hl : lookupFS fs (mkPath c) = some n)
    (hfuel : c.length < fuel) :
    statNode fs fuel (mkPath c) = .ok n := by
  rw [statNode, resolvePath_nosym hwf hns c fuel hv ⟨n, hl⟩ hfuel]
  have hgoal : (match lookupFS fs (mkPath c) with
      | some m => Except.ok m
      | none => (Except.error Err.enoent : Except Err Node)) =
      Except.ok n := by rw [hl]
  exact hgoal

/-- `os.Stat` reports `ENOENT` for a missing path whose parent chain is
well-formed (no file blocks the walk). -/
theorem statNode_missing {fs : FS} (hwf : wfFS fs) (hns : noSymlinks fs)
    {fuel : Nat} {cs : List Comp}
    (hv : validComps cs = true) (hcs : cs ≠ [])
    (hnofile : ∀ us, us ≠ [] → us.length < cs.length →
      us = cs.take us.length → lookupFS fs (mkPath us) ≠ none →
      lookupFS fs (mkPath us) = some .dir)
    (hl : lookupFS fs (mkPath cs) = none)
    (hfuel : cs.length < fuel) :
    statNode fs fuel (mkPath cs) = .error .enoent := by
  rw [statNode]
  suffices h : resolvePath fs fuel (mkPath cs) = .error .enoent by
    rw [h]; rfl
  rw [resolvePath, comps_mkPath cs hv, show root = mkPath [] from rfl]
  -- walk down until the first missing component
  suffices haux : ∀ (fuel : Nat) (rest as : List Comp), rest ≠ [] →
      as ++ rest = cs →
      lookupFS fs (mkPath as) = some .dir →
      rest.length < fuel →
      resolveComps fs fuel (mkPath as) rest = .error .enoent by
    exact haux fuel cs [] hcs (by simp) rfl hfuel
  intro fuel
  induction fuel with
  | zero => intro rest as _ _ _ h; omega
  | succ fuel ih =>
    intro rest as hrest heq hdir hfuel
    match rest with
    | c :: rest =>
      rw [resolveComps, joinChild_mkPath as c
        (validComps_of_append_left (d := c :: rest)
          (by rw [heq] at *; exact hv))]
      match hl1 : lookupFS fs (mkPath (as ++ [c])) with
      | none => rfl
      | some (.symlink t) =>
        exact absurd hl1 (fun hll => not_symlink_of_noSymlinks hwf hns hll)
      | some (.file bs) =>
        by_cases hrnil : rest = []
        · subst hrnil
          rw [show as ++ [c] = cs from by simpa using heq] at hl1
          rw [hl1] at hl
          cases hl
        · exfalso
          have hrpos : 0 < rest.length := List.length_pos.mpr hrnil
          have huslen : (as ++ [c]).length < cs.length := by
            rw [← heq]; simp; omega
          have htake : as ++ [c] = cs.take (as ++ [c]).length := by
            rw [← heq, show as ++ c :: rest = (as ++ [c]) ++ rest from
              by simp, List.take_left]
          have hdd := hnofile (as ++ [c]) (by simp) huslen htake
            (by rw [hl1]; simp)
          rw [hl1] at hdd
          cases hdd
      | some .dir =>
        by_cases hrnil : rest = []
        · subst hrnil
          rw [show as ++ [c] = cs from by simpa using heq] at hl1
          rw [hl1] at hl
          cases hl
        · show resolveComps fs fuel (mkPath (as ++ [c])) rest =
            .error .enoent
          refine ih rest (as ++ [c]) hrnil (by simpa using heq) hl1
            (by simp at hfuel ⊢; omega)
    | [] => exact absurd rfl hrest

/-- Reassemble a non-root valid path from its directory and base. -/
theorem joinChild_dirP_splitFilePart (cs : List Comp) (c : Comp)
    (hv : validComps (cs ++ [c]) = true) :
    joinChild (dirP (mkPath (cs ++ [c]))) (splitFilePart (mkPath (cs ++ [c]))) =
      mkPath (cs ++ [c]) := by
  have hc : validComp c = true := by
    have := validComps_of_append_right hv
    simp [validComps] at this; exact this
  have hslash : '/' ∉ c := by
    simp [validComp, decide_eq_true_eq] at hc; exact hc.2.1
  rw [dirP_mkPath cs c hv, splitFilePart_mkPath cs c hslash,
    joinChild_mkPath cs c (validComps_of_append_left hv)]

/-- `os.Lstat` on a symlink-free well-formed filesystem agrees with the
lookup. -/
theorem lstatNode_nosym {fs : FS} (hwf : wfFS fs) (hns : noSymlinks fs)
    {fuel : Nat} (cs : List Comp) (c : Comp) {n : Node}
    (hv : validComps (cs ++ [c]) = true)
    (hl : lookupFS fs (mkPath (cs ++ [c])) = some n)
    (hfuel : cs.length + 1 < fuel) :
    lstatNode fs fuel (mkPath (cs ++ [c])) = .ok n := by
  rw [lstatNode,
    if_neg (mkPath_ne_root (cs ++ [c]) hv (by simp))]
  have hdir : lookupFS fs (dirP (mkPath (cs ++ [c]))) = some .dir :=
    wf_parent_dir hwf (mkPath_ne_root (cs ++ [c]) hv (by simp)) hl
  rw [dirP_mkPath cs c hv] at hdir ⊢
  rw [resolvePath_nosym hwf hns cs fuel (validComps_of_append_left hv)
    ⟨.dir, hdir⟩ (by omega)]
  have hc : validComp c = true := by
    have := validComps_of_append_right hv
    simp [validComps] at this; exact this
  have hslash : '/' ∉ c := by
    simp [validComp, decide_eq_true_eq] at hc; exact hc.2.1
  have hgoal : (match lookupFS fs (joinChild (mkPath cs)
      (splitFilePart (mkPath (cs ++ [c])))) with
      | some m => Except.ok m
      | none => (Except.error Err.enoent : Except Err Node)) =
      Except.ok n := by
    rw [splitFilePart_mkPath cs c hslash,
      joinChild_mkPath cs c (validComps_of_append_left hv), hl]
  exact hgoal

/-- Without fuel assumptions, resolution of an existing path can only
succeed or run out of fuel. -/
theorem resolveComps_nosym_weak {fs : FS} (hwf : wfFS fs)
    (hns : noSymlinks fs) :
    ∀ (fuel : Nat) (rest : List Comp) (as : List Comp),
      validComps (as ++ rest) = true →
      (∃ n, lookupFS fs (mkPath (as ++ rest)) = some n) →
      resolveComps fs fuel (mkPath as) rest = .ok (mkPath (as ++ rest)) ∨
      resolveComps fs fuel (mkPath as) rest = .error .fuelOut := by
  intro fuel
  induction fuel with
  | zero => intro rest as _ _; right; rfl
  | succ fuel ih =>
    intro rest as hv hex
    match rest with
    | [] => left; simp [resolveComps]
    | c :: rest =>
      rw [resolveComps, joinChild_mkPath as c
        (validComps_of_append_left (d := c :: rest) (by simpa using hv))]
      have hassoc : as ++ c :: rest = (as ++ [c]) ++ rest := by simp
      by_cases hrest : rest = []
      · subst hrest
        obtain ⟨n, hn⟩ := hex
        match n, hn with
        | .dir, hn =>
          rw [hn]
          have := ih [] (as ++ [c]) (by simpa using hv)
            ⟨.dir, by simpa using hn⟩
          simpa using this
        | .file bs, hn => rw [hn]; left; simp
        | .symlink t, hn =>
          exact absurd hn (fun h => not_symlink_of_noSymlinks hwf hns h)
      · have hv2 : validComps ((as ++ [c]) ++ rest) = true := by
          rwa [← hassoc]
        have hex2 : ∃ n, lookupFS fs (mkPath ((as ++ [c]) ++ rest)) =
            some n := by rwa [← hassoc]
        have hdir : lookupFS fs (mkPath (as ++ [c])) = some .dir :=
          wf_prefix_dir hwf (as ++ [c]) (by simp) rest hrest hv2 hex2
        rw [hdir, hassoc]
        exact ih rest (as ++ [c]) hv2 hex2

/-- `os.Stat` can report `ENOENT` only for a missing path. -/
theorem statNode_enoent_inv {fs : FS} (hwf : wfFS fs)
    (hns : noSymlinks fs) {fuel : Nat} {cs : List Comp}
    (hv : validComps cs = true)
    (h : statNode fs fuel (mkPath cs) = .error .enoent) :
    lookupFS fs (mkPath cs) = none := by
  match hl : lookupFS fs (mkPath cs) with
  | none => rfl
  | some n =>
    exfalso
    rw [statNode, resolvePath, comps_mkPath cs hv,
      show root = mkPath [] from rfl] at h
    have hw := resolveComps_nosym_weak hwf hns fuel cs []
      (by simpa using hv) (by simpa using (⟨n, hl⟩ : ∃ m,
        lookupFS fs (mkPath cs) = some m))
    rcases hw with hok | hfo
    · rw [hok] at h
      have h' : (match lookupFS fs (mkPath ([] ++ cs)) with
          | some m => Except.ok m
          | none => (Except.error Err.enoent : Except Err Node)) =
          Except.error Err.enoent := h
      rw [List.nil_append, hl] at h'
      exact absurd h' (by simp)
    · rw [hfo] at h
      have h' : (Except.error Err.fuelOut : Except Err Node) =
          Except.error Err.enoent := h
      simp at h'

/-- `os.Lstat` success on a symlink-free filesystem means the path
itself carries the returned node. -/
theorem lstatNode_nosym_inv {fs : FS} (hwf : wfFS fs)
    (hns : noSymlinks fs) {fuel : Nat} (cs : List Comp) (c : Comp)
    {m : Node} (hv : validComps (cs ++ [c]) = true)
    (h : lstatNode fs fuel (mkPath (cs ++ [c])) = .ok m) :
    lookupFS fs (mkPath (cs ++ [c])) = some m := by
  rw [lstatNode, if_neg (mkPath_ne_root _ hv (by simp)),
    dirP_mkPath cs c hv] at h
  match hres : resolvePath fs fuel (mkPath cs) with
  | .error e =>
    rw [hres] at h
    have h' : (Except.error e : Except Err Node) = Except.ok m := h
    exact absurd h' (by simp)
  | .ok d =>
    rw [hres] at h
    obtain ⟨hd, -⟩ := resolvePath_nosym_inv hwf hns
      (validComps_of_append_left hv) hres
    subst hd
    have h' : (match lookupFS fs (joinChild (mkPath cs)
        (splitFilePart (mkPath (cs ++ [c])))) with
        | some k => Except.ok k
        | none => (Except.error Err.enoent : Except Err Node)) =
        Except.ok m := h
    have hc : validComp c = true := by
      have := validComps_of_append_right hv
      simp [validComps] at this; exact this
    have hslash : '/' ∉ c := by
      simp [validComp, decide_eq_true_eq] at hc; exact hc.2.1
    rw [splitFilePart_mkPath cs c hslash,
      joinChild_mkPath cs c (validComps_of_append_left hv)] at h'
    match hl : lookupFS fs (mkPath (cs ++ [c])) with
    | none => rw [hl] at h'; exact absurd h' (by simp)
    | some k =>
      rw [hl] at h'
      injection h' with h'
      rw [h']

/-! ## Lemmas: filesystem updates preserve well-formedness -/

theorem dirP_ne_self (cs : List Comp) (hv : validComps cs = true)
    (hne : cs ≠ []) : dirP (mkPath cs) ≠ mkPath cs := by
  have hdecomp := List.dropLast_append_getLast hne
  rw [← hdecomp, dirP_mkPath cs.dropLast (cs.getLast hne)
    (by rwa [hdecomp])]
  intro heq
  have hvd : validComps cs.dropLast = true := by
    refine validComps_of_append_left (d := [cs.getLast hne]) ?_
    rwa [hdecomp]
  have hdl := mkPath_injective hvd (by rwa [hdecomp]) heq
  have hlen := congrArg List.length hdecomp
  rw [hdl] at hlen
  simp at hlen
  omega

theorem nodup_keys_insert {fs : FS} (hwf : wfFS fs) (p : Path) (n : Node) :
    ((fsInsert fs p n).map (fun e => e.1)).Nodup := by
  rw [fsInsert, List.map_cons, List.nodup_cons]
  constructor
  · intro hmem
    rw [List.mem_map] at hmem
    obtain ⟨e, he, hkey⟩ := hmem
    rw [List.mem_filter] at he
    have := he.2
    simp at this
    exact this hkey
  · refine hwf.1.sublist ?_
    exact (List.filter_sublist fs).map _

theorem wf_insert {fs : FS} (hwf : wfFS fs) (cs : List Comp) (n : Node)
    (hv : validComps cs = true) (hne : cs ≠ [])
    (hparent : lookupFS fs (dirP (mkPath cs)) = some .dir)
    (hold : lookupFS fs (mkPath cs) = none ∨
      (∃ bs, lookupFS fs (mkPath cs) = some (.file bs)) ∨ n = .dir) :
    wfFS (fsInsert fs (mkPath cs) n) := by
  constructor
  · exact nodup_keys_insert hwf _ _
  · intro e he
    rw [fsInsert, List.mem_cons] at he
    rcases he with he | he
    · subst he
      refine ⟨⟨?_, ?_, ?_⟩, ?_⟩
      · simp only; rw [comps_mkPath cs hv]; exact hv
      · simp only; rw [comps_mkPath cs hv]; exact hne
      · simp only; rw [comps_mkPath cs hv]
      · simp only
        rw [lookupFS_insert_ne _ _ _ _ (dirP_ne_self cs hv hne)]
        exact hparent
    · rw [List.mem_filter] at he
      obtain ⟨hef, hene⟩ := he
      obtain ⟨⟨hes, hesne, hekey⟩, heparent⟩ := hwf.2 e hef
      refine ⟨⟨hes, hesne, hekey⟩, ?_⟩
      set es := comps e.1 with hesdef
      by_cases hpar : dirP e.1 = mkPath cs
      · rw [hpar]
        have hn : n = .dir := by
          rcases hold with hnone | ⟨bs, hfile⟩ | hdir
          · exfalso
            rw [hekey] at hpar
            have hdecomp := List.dropLast_append_getLast hesne
            rw [← hdecomp, dirP_mkPath es.dropLast (es.getLast hesne)
              (by rwa [hdecomp])] at hpar
            have hvd : validComps es.dropLast = true := by
              refine validComps_of_append_left (d := [es.getLast hesne]) ?_
              rwa [hdecomp]
            have hdl := mkPath_injective hvd hv hpar
            have hbelow : lookupFS fs (mkPath (cs ++ [es.getLast hesne])) =
                none := by
              refine wf_missing_below hwf cs [es.getLast hesne] hne
                (by simp) ?_ hnone
              rw [← hdl]
              rwa [hdecomp]
            rw [← hdl, hdecomp, ← hekey] at hbelow
            rw [lookupFS_of_mem hwf (by exact hef :
              (e.1, e.2) ∈ fs)] at hbelow
            cases hbelow
          · exfalso
            rw [hekey] at hpar
            have hdecomp := List.dropLast_append_getLast hesne
            rw [← hdecomp, dirP_mkPath es.dropLast (es.getLast hesne)
              (by rwa [hdecomp])] at hpar
            have hvd : validComps es.dropLast = true := by
              refine validComps_of_append_left (d := [es.getLast hesne]) ?_
              rwa [hdecomp]
            have hdl := mkPath_injective hvd hv hpar
            have hbelow : lookupFS fs (mkPath (cs ++ [es.getLast hesne])) =
                none := by
              refine wf_file_below hwf cs [es.getLast hesne] hne
                (by simp) ?_ hfile
              rw [← hdl]
              rwa [hdecomp]
            rw [← hdl, hdecomp, ← hekey] at hbelow
            rw [lookupFS_of_mem hwf (by exact hef :
              (e.1, e.2) ∈ fs)] at hbelow
            cases hbelow
          · exact hdir
        subst hn
        rw [lookupFS_insert_self _ _ _ (mkPath_ne_root cs hv hne)]
      · rw [lookupFS_insert_ne _ _ _ _ hpar]
        exact heparent

theorem noSymlinks_insert {fs : FS} (hns : noSymlinks fs) (p : Path)
    (n : Node) (hn : ¬ n.isLink = true) :
    noSymlinks (fsInsert fs p n) := by
  intro e he
  rw [fsInsert, List.mem_cons] at he
  rcases he with he | he
  · subst he; exact hn
  · exact hns e (List.mem_filter.mp he).1

theorem noStars_insert {fs : FS} (hst : noStars fs) (p : Path)
    (n : Node) (hp : '*' ∉ p) : noStars (fsInsert fs p n) := by
  intro e he
  rw [fsInsert, List.mem_cons] at he
  rcases he with he | he
  · subst he; exact hp
  · exact hst e (List.mem_filter.mp he).1

theorem validComps_take (cs : List Comp) (k : Nat)
    (hv : validComps cs = true) : validComps (cs.take k) = true := by
  refine validComps_of_append_left (d := cs.drop k) ?_
  rwa [List.take_append_drop]

/-- Existing strict ancestors of a path whose parent exists as a
directory are directories (the `hnofile` side condition of
`statNode_missing`). -/
theorem ancestors_dir_of_parent {fs : FS} (hwf : wfFS fs)
    (os : List Comp) (hne : os ≠ []) (hv : validComps os = true)
    (hparent : lookupFS fs (mkPath os.dropLast) = some .dir) :
    ∀ us, us ≠ [] → us.length < os.length →
      us = os.take us.length → lookupFS fs (mkPath us) ≠ none →
      lookupFS fs (mkPath us) = some .dir := by
  intro us husne huslen hustake husex
  have hle : us.length ≤ os.length - 1 := by omega
  have hustake' : us = os.dropLast.take us.length := by
    rw [List.dropLast_eq_take, List.take_take, min_eq_left hle]
    exact hustake
  by_cases husfull : us.length = os.dropLast.length
  · have heq : us = os.dropLast := by
      rw [hustake', husfull, List.take_length]
    rw [heq]
    exact hparent
  · have huslt : us.length < os.dropLast.length := by
      rw [List.length_dropLast] at husfull ⊢
      omega
    have hsplit : os.dropLast = us ++ os.dropLast.drop us.length := by
      conv_lhs => rw [← List.take_append_drop us.length os.dropLast]
      rw [← hustake']
    refine wf_prefix_dir hwf us husne (os.dropLast.drop us.length) ?_ ?_ ?_
    · intro hdnil
      rw [hdnil, List.append_nil] at hsplit
      have := congrArg List.length hsplit
      omega
    · rw [← hsplit]
      refine validComps_of_append_left (d := [os.getLast hne]) ?_
      rwa [List.dropLast_append_getLast hne]
    · rw [← hsplit]
      exact ⟨.dir, hparent⟩

/-- The stat loop returns its accumulator when the target is already a
directory. -/
theorem mkdirAllLoop_exists_dir {fs : FS} (hwf : wfFS fs)
    (hns : noSymlinks fs) (cs : List Comp) (fuel : Nat)
    (acc : Option Path) (hv : validComps cs = true)
    (hdir : lookupFS fs (mkPath cs) = some .dir)
    (hfuel : cs.length < fuel) :
    mkdirAllLoop fs fuel (mkPath cs) acc = .ok acc := by
  match fuel, hfuel with
  | fuel + 1, hfuel =>
    rw [mkdirAllLoop,
      statNode_nosym hwf hns hv hdir (by omega)]
    rfl

/-- The stat loop on a fresh leaf whose parent exists: the undo target
is the leaf itself. -/
theorem mkdirAllLoop_fresh {fs : FS} (hwf : wfFS fs)
    (hns : noSymlinks fs) (os : List Comp) (fuel : Nat)
    (acc : Option Path) (hne : os ≠ []) (hv : validComps os = true)
    (hmiss : lookupFS fs (mkPath os) = none)
    (hparent : lookupFS fs (mkPath os.dropLast) = some .dir)
    (hfuel : os.length + 1 < fuel) :
    mkdirAllLoop fs fuel (mkPath os) acc = .ok (some (mkPath os)) := by
  match fuel, hfuel with
  | fuel + 1, hfuel =>
    rw [mkdirAllLoop,
      statNode_missing hwf hns hv hne
        (ancestors_dir_of_parent hwf os hne hv hparent) hmiss (by omega)]
    have hdd : dirP (mkPath os) = mkPath os.dropLast := by
      conv_lhs => rw [← List.dropLast_append_getLast hne]
      exact dirP_mkPath os.dropLast (os.getLast hne)
        (by rwa [List.dropLast_append_getLast hne])
    rw [hdd]
    show mkdirAllLoop fs fuel (mkPath os.dropLast) (some (mkPath os)) =
      .ok (some (mkPath os))
    exact mkdirAllLoop_exists_dir hwf hns os.dropLast fuel _
      (validComps_of_append_left (d := [os.getLast hne])
        (by rwa [List.dropLast_append_getLast hne]))
      hparent (by rw [List.length_dropLast]; omega)

/-- `os.MkdirAll` on an existing directory changes nothing. -/
theorem mkdirAllOS_exists {fs : FS} (hwf : wfFS fs)
    (hns : noSymlinks fs) (cs : List Comp) (fuel : Nat)
    (hv : validComps cs = true)
    (hdir : lookupFS fs (mkPath cs) = some .dir)
    (hfuel : cs.length < fuel) :
    mkdirAllOS fs fuel (mkPath cs) = .ok fs := by
  match fuel, hfuel with
  | fuel + 1, hfuel =>
    rw [mkdirAllOS, statNode_nosym hwf hns hv hdir (by omega)]
    rfl

/-- `os.MkdirAll` on a fresh leaf whose parent exists creates exactly
the leaf directory. -/
theorem mkdirAllOS_fresh {fs : FS} (hwf : wfFS fs)
    (hns : noSymlinks fs) (os : List Comp) (fuel : Nat) (hne : os ≠ [])
    (hv : validComps os = true)
    (hmiss : lookupFS fs (mkPath os) = none)
    (hparent : lookupFS fs (mkPath os.dropLast) = some .dir)
    (hfuel : os.length + 1 < fuel) :
    mkdirAllOS fs fuel (mkPath os) = .ok (fsInsert fs (mkPath os) .dir) := by
  match fuel, hfuel with
  | fuel + 1, hfuel =>
    rw [mkdirAllOS,
      statNode_missing hwf hns hv hne
        (ancestors_dir_of_parent hwf os hne hv hparent) hmiss (by omega)]
    have hdd : dirP (mkPath os) = mkPath os.dropLast := by
      conv_lhs => rw [← List.dropLast_append_getLast hne]
      exact dirP_mkPath os.dropLast (os.getLast hne)
        (by rwa [List.dropLast_append_getLast hne])
    rw [hdd]
    show (do
      let fs₁ ← mkdirAllOS fs fuel (mkPath os.dropLast)
      Except.ok (fsInsert fs₁ (mkPath os) Node.dir)) =
      Except.ok (fsInsert fs (mkPath os) .dir)
    rw [mkdirAllOS_exists hwf hns os.dropLast fuel
      (validComps_of_append_left (d := [os.getLast hne])
        (by rwa [List.dropLast_append_getLast hne]))
      hparent (by rw [List.length_dropLast]; omega)]
    rfl

/-- `targz.mkdirAll` on an existing directory: no-op rollback, no
change. -/
theorem mkdirAll_noop {fs : FS} (hwf : wfFS fs) (hns : noSymlinks fs)
    (cs : List Comp) (fuel : Nat) (hv : validComps cs = true)
    (hdir : lookupFS fs (mkPath cs) = some .dir)
    (hfuel : cs.length < fuel) :
    mkdirAll fs fuel (mkPath cs) = .ok (none, fs) := by
  rw [mkdirAll, mkdirAllLoop_exists_dir hwf hns cs fuel none hv hdir hfuel]
  rfl

/-- `targz.mkdirAll` on a fresh leaf whose parent exists: creates the
leaf and records it as the undo target. -/
theorem mkdirAll_fresh {fs : FS} (hwf : wfFS fs) (hns : noSymlinks fs)
    (os : List Comp) (fuel : Nat) (hne : os ≠ [])
    (hv : validComps os = true)
    (hmiss : lookupFS fs (mkPath os) = none)
    (hparent : lookupFS fs (mkPath os.dropLast) = some .dir)
    (hfuel : os.length + 1 < fuel) :
    mkdirAll fs fuel (mkPath os) =
      .ok (some (mkPath os), fsInsert fs (mkPath os) .dir) := by
  rw [mkdirAll,
    mkdirAllLoop_fresh hwf hns os fuel none hne hv hmiss hparent hfuel,
    mkdirAllOS_fresh hwf hns os fuel hne hv hmiss hparent hfuel]
  rfl

theorem take_dropLast_eq (cs : List Comp) (k : Nat)
    (hk : k ≤ cs.length - 1) : cs.dropLast.take k = cs.take k := by
  rw [List.dropLast_eq_take, List.take_take, min_eq_left hk]

/-- Inversion of the stat loop: a successful run either broke at an
existing directory (returning the accumulator) or found the shallowest
missing ancestor. -/
theorem mkdirAllLoop_ok_inv {fs : FS} (hwf : wfFS fs)
    (hns : noSymlinks fs) :
    ∀ (fuel : Nat) (cs : List Comp) (acc res : Option Path),
      validComps cs = true →
      mkdirAllLoop fs fuel (mkPath cs) acc = .ok res →
      (res = acc ∧ lookupFS fs (mkPath cs) = some .dir) ∨
      (∃ us, res = some (mkPath us) ∧ validComps us = true ∧ us ≠ [] ∧
        us = cs.take us.length ∧ lookupFS fs (mkPath us) = none ∧
        lookupFS fs (mkPath us.dropLast) = some .dir) := by
  intro fuel
  induction fuel with
  | zero => intro cs acc res _ h; cases h
  | succ fuel ih =>
    intro cs acc res hv h
    rw [mkdirAllLoop] at h
    match hstat : statNode fs (fuel + 1) (mkPath cs) with
    | .ok finfo =>
      rw [hstat] at h
      have h' : (if finfo.isDir = true then Except.ok acc
          else match lstatNode fs (fuel + 1) (mkPath cs) with
            | Except.error e => Except.error e
            | Except.ok finfo2 => if finfo2.isDir = true then Except.ok acc
              else Except.error Err.enotdir) = Except.ok res := h
      clear h
      have hlook := statNode_nosym_inv hwf hns hv hstat
      by_cases hdir : finfo.isDir = true
      · rw [if_pos hdir] at h'
        injection h' with h'
        subst h'
        left
        refine ⟨rfl, ?_⟩
        match finfo, hdir with
        | .dir, _ => exact hlook
      · rw [if_neg hdir] at h'
        exfalso
        have hcsne : cs ≠ [] := by
          intro hnil
          subst hnil
          rw [show lookupFS fs (mkPath []) = some .dir from rfl] at hlook
          injection hlook with hlook
          rw [← hlook] at hdir
          exact hdir rfl
        match hls : lstatNode fs (fuel + 1) (mkPath cs) with
        | .error e => rw [hls] at h'; cases h'
        | .ok finfo2 =>
          rw [hls] at h'
          have h2 := lstatNode_nosym_inv hwf hns cs.dropLast
            (cs.getLast hcsne)
            (by rwa [List.dropLast_append_getLast hcsne])
            (by rw [List.dropLast_append_getLast hcsne]; exact hls)
          rw [List.dropLast_append_getLast hcsne, hlook] at h2
          injection h2 with h2
          have h'' : (if finfo2.isDir = true then Except.ok acc
              else Except.error Err.enotdir) = Except.ok res := h'
          rw [← h2, if_neg hdir] at h''
          cases h''
    | .error Err.enoent =>
      rw [hstat] at h
      have hmiss := statNode_enoent_inv hwf hns hv hstat
      have hcsne : cs ≠ [] := by
        intro hnil
        subst hnil
        rw [show lookupFS fs (mkPath []) = some .dir from rfl] at hmiss
        cases hmiss
      have hdd : dirP (mkPath cs) = mkPath cs.dropLast := by
        conv_lhs => rw [← List.dropLast_append_getLast hcsne]
        exact dirP_mkPath cs.dropLast (cs.getLast hcsne)
          (by rwa [List.dropLast_append_getLast hcsne])
      have h' : mkdirAllLoop fs fuel (dirP (mkPath cs))
          (some (mkPath cs)) = Except.ok res := h
      clear h
      rw [hdd] at h'
      have hvd : validComps cs.dropLast = true := by
        refine validComps_of_append_left (d := [cs.getLast hcsne]) ?_
        rwa [List.dropLast_append_getLast hcsne]
      rcases ih cs.dropLast (some (mkPath cs)) res hvd h' with
        ⟨hres, hdirp⟩ | ⟨us, hres, hvus, husne, hustake, husmiss, huspar⟩
      · right
        exact ⟨cs, hres, hv, hcsne, by rw [List.take_length], hmiss, hdirp⟩
      · right
        refine ⟨us, hres, hvus, husne, ?_, husmiss, huspar⟩
        have hlen : us.length ≤ cs.length - 1 := by
          have := congrArg List.length hustake
          rw [List.length_take] at this
          rw [List.length_dropLast] at this
          omega
        conv_lhs => rw [hustake, take_dropLast_eq cs us.length hlen]
    | .error Err.enotdir => rw [hstat] at h; cases h
    | .error Err.eisdir => rw [hstat] at h; cases h
    | .error Err.emptySource => rw [hstat] at h; cases h
    | .error Err.invalidWildcard => rw [hstat] at h; cases h
    | .error Err.absFail => rw [hstat] at h; cases h
    | .error Err.writeTooLong => rw [hstat] at h; cases h
    | .error Err.formatError => rw [hstat] at h; cases h
    | .error Err.fuelOut => rw [hstat] at h; cases h

theorem mkdirAllOS_root_inv (fs : FS) (fuel : Nat) {fs' : FS}
    (h : mkdirAllOS fs fuel root = .ok fs') : fs' = fs := by
  match fuel with
  | 0 => cases h
  | fuel + 1 =>
    have hstatroot : statNode fs (fuel + 1) root = .ok .dir := rfl
    rw [mkdirAllOS, hstatroot] at h
    have h' : Except.ok fs = Except.ok fs' := h
    injection h' with h'
    exact h'.symm

/-- Inversion of `os.MkdirAll`: on success it created exactly a set of
previously missing ancestor prefixes of the target, as directories. -/
theorem mkdirAllOS_ok_inv {fs : FS} (hwf : wfFS fs)
    (hns : noSymlinks fs) (hst : noStars fs) :
    ∀ (fuel : Nat) (cs : List Comp) (fs' : FS),
      validComps cs = true → cs ≠ [] → '*' ∉ mkPath cs →
      mkdirAllOS fs fuel (mkPath cs) = .ok fs' →
      wfFS fs' ∧ noSymlinks fs' ∧ noStars fs' ∧
      lookupFS fs' (mkPath cs) = some .dir ∧
      (∀ q, lookupFS fs' q = lookupFS fs q ∨
        (lookupFS fs q = none ∧ lookupFS fs' q = some .dir ∧
          ∃ us, us ≠ [] ∧ us = cs.take us.length ∧ q = mkPath us)) := by
  intro fuel
  induction fuel with
  | zero => intro cs fs' _ _ _ h; cases h
  | succ fuel ih =>
    intro cs fs' hv hcsne hstar h
    rw [mkdirAllOS] at h
    match hstat : statNode fs (fuel + 1) (mkPath cs) with
    | .ok finfo =>
      rw [hstat] at h
      have h' : (if finfo.isDir = true then Except.ok fs
          else Except.error Err.enotdir) = Except.ok fs' := h
      clear h
      have hlook := statNode_nosym_inv hwf hns hv hstat
      by_cases hdir : finfo.isDir = true
      · rw [if_pos hdir] at h'
        injection h' with h'
        subst h'
        have hfd : lookupFS fs (mkPath cs) = some .dir := by
          match finfo, hdir with
          | .dir, _ => exact hlook
        exact ⟨hwf, hns, hst, hfd, fun q => Or.inl rfl⟩
      · rw [if_neg hdir] at h'; cases h'
    | .error Err.enoent =>
      rw [hstat] at h
      have hmiss := statNode_enoent_inv hwf hns hv hstat
      have hdd : dirP (mkPath cs) = mkPath cs.dropLast := by
        conv_lhs => rw [← List.dropLast_append_getLast hcsne]
        exact dirP_mkPath cs.dropLast (cs.getLast hcsne)
          (by rwa [List.dropLast_append_getLast hcsne])
      have h0 : (do
          let fs₁ ← mkdirAllOS fs fuel (dirP (mkPath cs))
          Except.ok (fsInsert fs₁ (mkPath cs) Node.dir)) =
          Except.ok fs' := h
      clear h
      rw [hdd] at h0
      match hrec : mkdirAllOS fs fuel (mkPath cs.dropLast) with
      | .error e => rw [hrec] at h0; cases h0
      | .ok fs₁ =>
        rw [hrec] at h0
        have h' : Except.ok (fsInsert fs₁ (mkPath cs) Node.dir) =
            Except.ok fs' := h0
        injection h' with h'
        subst h'
        by_cases hdnil : cs.dropLast = []
        · -- parent is the root: the recursive call was a no-op
          rw [hdnil] at hrec
          have hfs1 : fs₁ = fs := mkdirAllOS_root_inv fs fuel
            (by simpa using hrec)
          rw [hfs1]
          have hparent : lookupFS fs (dirP (mkPath cs)) = some .dir := by
            rw [hdd, hdnil]
            rfl
          refine ⟨wf_insert hwf cs .dir hv hcsne hparent (by simp),
            noSymlinks_insert hns _ _ (by simp [Node.isLink]),
            noStars_insert hst _ _ hstar,
            lookupFS_insert_self _ _ _ (mkPath_ne_root cs hv hcsne), ?_⟩
          intro q
          by_cases hq : q = mkPath cs
          · subst hq
            right
            refine ⟨hmiss,
              lookupFS_insert_self _ _ _ (mkPath_ne_root cs hv hcsne),
              cs, hcsne, by rw [List.take_length], rfl⟩
          · left
            exact lookupFS_insert_ne _ _ _ _ hq
        · have hvd : validComps cs.dropLast = true := by
            refine validComps_of_append_left (d := [cs.getLast hcsne]) ?_
            rwa [List.dropLast_append_getLast hcsne]
          have hstard : '*' ∉ mkPath cs.dropLast := by
            intro hmem
            apply hstar
            have hsub : mkPath cs = mkPath cs.dropLast ++
                '/' :: (cs.getLast hcsne) := by
              conv_lhs => rw [← List.dropLast_append_getLast hcsne]
              exact mkPath_snoc cs.dropLast (cs.getLast hcsne) hdnil
            rw [hsub, List.mem_append]
            left
            exact hmem
          obtain ⟨hwf₁, hns₁, hst₁, hpar₁, hchar₁⟩ :=
            ih cs.dropLast fs₁ hvd hdnil hstard hrec
          have hparent : lookupFS fs₁ (dirP (mkPath cs)) = some .dir := by
            rw [hdd]; exact hpar₁
          have hold : lookupFS fs₁ (mkPath cs) = none ∨
              (∃ bs, lookupFS fs₁ (mkPath cs) = some (.file bs)) ∨
              (Node.dir = Node.dir) := by
            right; right; rfl
          refine ⟨wf_insert hwf₁ cs .dir hv hcsne hparent hold,
            noSymlinks_insert hns₁ _ _ (by simp [Node.isLink]),
            noStars_insert hst₁ _ _ hstar,
            lookupFS_insert_self _ _ _ (mkPath_ne_root cs hv hcsne), ?_⟩
          intro q
          by_cases hq : q = mkPath cs
          · subst hq
            right
            refine ⟨hmiss,
              lookupFS_insert_self _ _ _ (mkPath_ne_root cs hv hcsne),
              cs, hcsne, by rw [List.take_length], rfl⟩
          · rw [lookupFS_insert_ne _ _ _ _ hq]
            rcases hchar₁ q with hsame | ⟨hqn, hqd, us, husne, hustake, hq'⟩
            · left; exact hsame
            · right
              refine ⟨hqn, hqd, us, husne, ?_, hq'⟩
              have hlen : us.length ≤ cs.length - 1 := by
                have := congrArg List.length hustake
                rw [List.length_take, List.length_dropLast] at this
                omega
              conv_lhs => rw [hustake, take_dropLast_eq cs us.length hlen]
    | .error Err.enotdir => rw [hstat] at h; cases h
    | .error Err.eisdir => rw [hstat] at h; cases h
    | .error Err.emptySource => rw [hstat] at h; cases h
    | .error Err.invalidWildcard => rw [hstat] at h; cases h
    | .error Err.absFail => rw [hstat] at h; cases h
    | .error Err.writeTooLong => rw [hstat] at h; cases h
    | .error Err.formatError => rw [hstat] at h; cases h
    | .error Err.fuelOut => rw [hstat] at h; cases h

/-- `targz.mkdirAll` with a no-op rollback changed nothing. -/
theorem mkdirAll_none_inv {fs : FS} {fuel : Nat} {dp : Path} {fsP : FS}
    (h : mkdirAll fs fuel dp = .ok (none, fsP)) : fsP = fs := by
  rw [mkdirAll] at h
  match hloop : mkdirAllLoop fs fuel dp none with
  | .error e => rw [hloop] at h; cases h
  | .ok none =>
    rw [hloop] at h
    have h' : Except.ok ((none : Option Path), fs) =
        Except.ok ((none : Option Path), fsP) := h
    injection h' with h'
    injection h' with h1 h2
    exact h2.symm
  | .ok (some u) =>
    rw [hloop] at h
    match hos : mkdirAllOS fs fuel dp with
    | .error e =>
      rw [hos] at h
      have h' : (Except.error e : Except Err (Option Path × FS)) =
          Except.ok (none, fsP) := h
      cases h'
    | .ok fs₁ =>
      rw [hos] at h
      have h' : Except.ok (some u, fs₁) =
          Except.ok ((none : Option Path), fsP) := h
      injection h' with h'
      injection h' with h1 h2
      cases h1

/-- `targz.mkdirAll` with a live rollback: the undo target is the
shallowest previously missing ancestor, and every path outside its
subtree is untouched. -/
theorem mkdirAll_some_inv {fs : FS} (hwf : wfFS fs) (hns : noSymlinks fs)
    (hst : noStars fs) {fuel : Nat} {cs : List Comp} {u : Path} {fsP : FS}
    (hv : validComps cs = true) (hcs : cs ≠ []) (hstar : '*' ∉ mkPath cs)
    (h : mkdirAll fs fuel (mkPath cs) = .ok (some u, fsP)) :
    ∃ us, u = mkPath us ∧ validComps us = true ∧ us ≠ [] ∧
      us = cs.take us.length ∧ lookupFS fs (mkPath us) = none ∧
      lookupFS fs (mkPath us.dropLast) = some .dir ∧
      wfFS fsP ∧ noSymlinks fsP ∧ noStars fsP ∧
      lookupFS fsP (mkPath cs) = some .dir ∧
      (∀ q, ¬ pathUnder u q = true → lookupFS fsP q = lookupFS fs q) := by
  rw [mkdirAll] at h
  match hloop : mkdirAllLoop fs fuel (mkPath cs) none with
  | .error e => rw [hloop] at h; cases h
  | .ok none =>
    rw [hloop] at h
    have h' : Except.ok ((none : Option Path), fs) =
        Except.ok (some u, fsP) := h
    injection h' with h'
    injection h' with h1 h2
    cases h1
  | .ok (some u') =>
    rw [hloop] at h
    match hos : mkdirAllOS fs fuel (mkPath cs) with
    | .error e =>
      rw [hos] at h
      have h' : (Except.error e : Except Err (Option Path × FS)) =
          Except.ok (some u, fsP) := h
      cases h'
    | .ok fs₁ =>
      rw [hos] at h
      have h' : Except.ok (some u', fs₁) = Except.ok (some u, fsP) := h
      injection h' with h'
      injection h' with h1 h2
      injection h1 with h1
      subst h1
      subst h2
      rcases mkdirAllLoop_ok_inv hwf hns fuel cs none (some u') hv hloop
        with ⟨hacc, -⟩ | ⟨us, hres, hvus, husne, hustake, husmiss, huspar⟩
      · cases hacc
      · injection hres with hres
        subst hres
        obtain ⟨hwfP, hnsP, hstP, hdirP, hcharP⟩ :=
          mkdirAllOS_ok_inv hwf hns hst fuel cs fs₁ hv hcs hstar hos
        refine ⟨us, rfl, hvus, husne, hustake, husmiss, huspar,
          hwfP, hnsP, hstP, hdirP, ?_⟩
        intro q hq
        rcases hcharP q with hsame | ⟨hqn, hqd, us', husne', hustake', hq'⟩
        · exact hsame
        · exfalso
          apply hq
          subst hq'
          have hvus' : validComps us' = true := by
            rw [hustake']
            exact validComps_take cs us'.length hv
          -- us is a list prefix of us'
          have hki : us.length ≤ us'.length := by
            by_contra hki
            push_neg at hki
            -- otherwise us' would be a strict prefix of us, and the
            -- parent of us is a directory, making us' exist — absurd
            have hpre : us = us' ++ us.drop us'.length := by
              conv_lhs => rw [← List.take_append_drop us'.length us]
              congr 1
              rw [hustake, List.take_take,
                min_eq_left (le_of_lt hki), ← hustake']
            have htne : us.drop us'.length ≠ [] := by
              intro hnil
              rw [hnil, List.append_nil] at hpre
              have := congrArg List.length hpre
              omega
            have hdl : us.dropLast =
                us' ++ (us.drop us'.length).dropLast := by
              conv_lhs => rw [hpre]
              exact List.dropLast_append_of_ne_nil us' htne
            by_cases hdnil : (us.drop us'.length).dropLast = []
            · rw [hdnil, List.append_nil] at hdl
              rw [hdl] at huspar
              rw [huspar] at hqn
              cases hqn
            · have hvdl : validComps (us' ++
                  (us.drop us'.length).dropLast) = true := by
                rw [← hdl]
                refine validComps_of_append_left
                  (d := [us.getLast husne]) ?_
                rwa [List.dropLast_append_getLast husne]
              have hdir := wf_prefix_dir hwf us' husne'
                (us.drop us'.length).dropLast hdnil hvdl
                ⟨.dir, by rw [← hdl]; exact huspar⟩
              rw [hdir] at hqn
              cases hqn
          rw [pathUnder_mkPath_iff us us' hvus hvus']
          refine ⟨us'.drop us.length, ?_⟩
          conv_lhs => rw [← List.take_append_drop us.length us']
          congr 1
          rw [hustake', List.take_take, min_eq_left hki, ← hustake]

/-! ## Lemmas: `os.ReadDir` and `os.Create` -/

theorem readDirEx_nosym {fs : FS} (hwf : wfFS fs) (hns : noSymlinks fs)
    (cs : List Comp) (fuel : Nat) (hv : validComps cs = true)
    (hdir : lookupFS fs (mkPath cs) = some .dir)
    (hfuel : cs.length < fuel) :
    readDirEx fs fuel (mkPath cs) =
      .ok (mkPath cs, childrenNames fs (mkPath cs)) := by
  rw [readDirEx, resolvePath_nosym hwf hns cs fuel hv ⟨.dir, hdir⟩ hfuel]
  have hgoal : (match lookupFS fs (mkPath cs) with
      | some .dir => Except.ok (mkPath cs, childrenNames fs (mkPath cs))
      | some _ => Except.error Err.enotdir
      | none => (Except.error Err.enoent :
          Except Err (Path × List Comp))) =
      Except.ok (mkPath cs, childrenNames fs (mkPath cs)) := by
    rw [hdir]
  exact hgoal

theorem readDirEx_missing {fs : FS} (hwf : wfFS fs) (hns : noSymlinks fs)
    (cs : List Comp) (fuel : Nat) (hv : validComps cs = true)
    (hcs : cs ≠ [])
    (hnofile : ∀ us, us ≠ [] → us.length < cs.length →
      us = cs.take us.length → lookupFS fs (mkPath us) ≠ none →
      lookupFS fs (mkPath us) = some .dir)
    (hmiss : lookupFS fs (mkPath cs) = none)
    (hfuel : cs.length < fuel) :
    readDirEx fs fuel (mkPath cs) = .error .enoent := by
  rw [readDirEx]
  have hres : resolvePath fs fuel (mkPath cs) = .error .enoent := by
    have := statNode_missing hwf hns hv hcs hnofile hmiss hfuel
    rw [statNode] at this
    match hr : resolvePath fs fuel (mkPath cs) with
    | .error e =>
      rw [hr] at this
      have h' : (Except.error e : Except Err Node) =
          Except.error Err.enoent := this
      injection h' with h'
      rw [h']
    | .ok r =>
      rw [hr] at this
      exfalso
      have h' : (match lookupFS fs r with
          | some m => Except.ok m
          | none => (Except.error Err.enoent : Except Err Node)) =
          Except.error Err.enoent := this
      obtain ⟨hreq, n, hn⟩ := resolvePath_nosym_inv hwf hns hv hr
      rw [hn] at h'
      cases h'
  rw [hres]
  rfl

theorem createFile_fresh {fs : FS} (hwf : wfFS fs) (hns : noSymlinks fs)
    (os : List Comp) (c : Comp) (fuel : Nat)
    (hv : validComps (os ++ [c]) = true)
    (hdir : lookupFS fs (mkPath os) = some .dir)
    (hnode : lookupFS fs (mkPath (os ++ [c])) = none ∨
      ∃ bs, lookupFS fs (mkPath (os ++ [c])) = some (.file bs))
    (hfuel : os.length < fuel) :
    createFile fs fuel (mkPath (os ++ [c])) =
      .ok (fsInsert fs (mkPath (os ++ [c])) (.file []),
        mkPath (os ++ [c])) := by
  have hc : validComp c = true := by
    have := validComps_of_append_right hv
    simp [validComps] at this; exact this
  have hslash : '/' ∉ c := by
    simp [validComp, decide_eq_true_eq] at hc; exact hc.2.1
  rw [createFile, dirP_mkPath os c hv,
    resolvePath_nosym hwf hns os fuel (validComps_of_append_left hv)
      ⟨.dir, hdir⟩ hfuel]
  have hgoal : (match lookupFS fs (mkPath os) with
      | some .dir =>
        (match lookupFS fs (joinChild (mkPath os)
            (splitFilePart (mkPath (os ++ [c])))) with
          | none => Except.ok (fsInsert fs (joinChild (mkPath os)
              (splitFilePart (mkPath (os ++ [c])))) (.file []),
              joinChild (mkPath os)
                (splitFilePart (mkPath (os ++ [c]))))
          | some (.file _) => Except.ok (fsInsert fs
              (joinChild (mkPath os)
                (splitFilePart (mkPath (os ++ [c])))) (.file []),
              joinChild (mkPath os)
                (splitFilePart (mkPath (os ++ [c]))))
          | some .dir => Except.error Err.eisdir
          | some (.symlink _) => do
            let r ← resolvePath fs fuel (joinChild (mkPath os)
              (splitFilePart (mkPath (os ++ [c]))))
            match lookupFS fs r with
            | some (.file _) =>
              Except.ok (fsInsert fs r (.file []), r)
            | some .dir => Except.error Err.eisdir
            | _ => Except.error Err.enoent)
      | some _ => Except.error Err.enotdir
      | none => Except.error Err.enoent) =
      .ok (fsInsert fs (mkPath (os ++ [c])) (.file []),
        mkPath (os ++ [c])) := by
    rw [hdir, splitFilePart_mkPath os c hslash,
      joinChild_mkPath os c (validComps_of_append_left hv)]
    rcases hnode with hnone | ⟨bs, hfile⟩
    · rw [hnone]
    · rw [hfile]
  exact hgoal

/-- Inversion of `os.Create` on a symlink-free filesystem. -/
theorem createFile_ok_inv {fs : FS} (hwf : wfFS fs) (hns : noSymlinks fs)
    (os : List Comp) (c : Comp) (fuel : Nat) {fs₂ : FS} {handle : Path}
    (hv : validComps (os ++ [c]) = true)
    (h : createFile fs fuel (mkPath (os ++ [c])) = .ok (fs₂, handle)) :
    fs₂ = fsInsert fs (mkPath (os ++ [c])) (.file []) ∧
      handle = mkPath (os ++ [c]) ∧
      lookupFS fs (mkPath os) = some .dir ∧
      (lookupFS fs (mkPath (os ++ [c])) = none ∨
        ∃ bs, lookupFS fs (mkPath (os ++ [c])) = some (.file bs)) := by
  have hc : validComp c = true := by
    have := validComps_of_append_right hv
    simp [validComps] at this; exact this
  have hslash : '/' ∉ c := by
    simp [validComp, decide_eq_true_eq] at hc; exact hc.2.1
  rw [createFile, dirP_mkPath os c hv] at h
  match hres : resolvePath fs fuel (mkPath os) with
  | .error e =>
    rw [hres] at h
    have h' : (Except.error e : Except Err (FS × Path)) =
        .ok (fs₂, handle) := h
    cases h'
  | .ok d =>
    rw [hres] at h
    obtain ⟨hd, n, hn⟩ := resolvePath_nosym_inv hwf hns
      (validComps_of_append_left hv) hres
    subst hd
    have h' : (match lookupFS fs (mkPath os) with
        | some .dir =>
          (match lookupFS fs (joinChild (mkPath os)
              (splitFilePart (mkPath (os ++ [c])))) with
            | none => Except.ok (fsInsert fs (joinChild (mkPath os)
                (splitFilePart (mkPath (os ++ [c])))) (.file []),
                joinChild (mkPath os)
                  (splitFilePart (mkPath (os ++ [c]))))
            | some (.file _) => Except.ok (fsInsert fs
                (joinChild (mkPath os)
                  (splitFilePart (mkPath (os ++ [c])))) (.file []),
                joinChild (mkPath os)
                  (splitFilePart (mkPath (os ++ [c]))))
            | some .dir => Except.error Err.eisdir
            | some (.symlink _) => do
              let r ← resolvePath fs fuel (joinChild (mkPath os)
                (splitFilePart (mkPath (os ++ [c]))))
              match lookupFS fs r with
              | some (.file _) =>
                Except.ok (fsInsert fs r (.file []), r)
              | some .dir => Except.error Err.eisdir
              | _ => Except.error Err.enoent)
        | some _ => Except.error Err.enotdir
        | none => Except.error Err.enoent) = .ok (fs₂, handle) := h
    rw [splitFilePart_mkPath os c hslash,
      joinChild_mkPath os c (validComps_of_append_left hv)] at h'
    match hl : lookupFS fs (mkPath os) with
    | none => rw [hl] at h'; cases h'
    | some (.file bs) => rw [hl] at h'; cases h'
    | some (.symlink t) =>
      exact absurd hl (fun hh => not_symlink_of_noSymlinks hwf hns hh)
    | some .dir =>
      rw [hl] at h'
      match hl2 : lookupFS fs (mkPath (os ++ [c])) with
      | none =>
        rw [hl2] at h'
        injection h' with h'
        injection h' with h1 h2
        exact ⟨h1.symm, h2.symm, rfl, Or.inl rfl⟩
      | some (.file bs) =>
        rw [hl2] at h'
        injection h' with h'
        injection h' with h1 h2
        exact ⟨h1.symm, h2.symm, rfl, Or.inr ⟨bs, rfl⟩⟩
      | some .dir => rw [hl2] at h'; cases h'
      | some (.symlink t) =>
        exact absurd hl2 (fun hh => not_symlink_of_noSymlinks hwf hns hh)

/-! ## Lemmas: the archive writer -/

/-- The maximal component depth of any key in the filesystem. -/
def maxDepth (fs : FS) : Nat :=
  (fs.map (fun e => (comps e.1).length)).foldr max 0

theorem le_foldr_max (l : List Nat) (x : Nat) (h : x ∈ l) :
    x ≤ l.foldr max 0 := by
  induction l with
  | nil => cases h
  | cons a l ih =>
    rw [List.foldr_cons]
    rcases List.mem_cons.mp h with h | h
    · subst h; exact le_max_left _ _
    · exact le_trans (ih h) (le_max_right _ _)

theorem depth_le_maxDepth {fs : FS} (hwf : wfFS fs) {cs : List Comp}
    {n : Node} (hv : validComps cs = true) (hne : cs ≠ [])
    (h : lookupFS fs (mkPath cs) = some n) :
    cs.length ≤ maxDepth fs := by
  have hmem := mem_of_lookupFS (mkPath_ne_root cs hv hne) h
  have : (comps (mkPath cs, n).1).length ∈
      fs.map (fun e => (comps e.1).length) :=
    List.mem_map_of_mem _ hmem
  have hle := le_foldr_max _ _ this
  simpa [comps_mkPath cs hv] using hle

theorem star_free_key {fs : FS} (hst : noStars fs) {p : Path} {n : Node}
    (hp : p ≠ root) (h : lookupFS fs p = some n) : '*' ∉ p := by
  exact hst _ (mem_of_lookupFS hp h)

/-- The tar entry the writer produces for a regular file. -/
def entryOf (sp : Path) (pr : Path × List Nat) : Entry :=
  { name := pr.1.drop sp.length, isLink := false, linkname := [],
    content := pr.2 }

/-- `writeTarGz` on a regular file of a symlink-free filesystem. -/
theorem writeTarGz_nosym {fs : FS} (hwf : wfFS fs) (hns : noSymlinks fs)
    (ps sp : List Comp) (bs : List Nat) (fuel : Nat)
    (hvp : validComps ps = true) (hvs : validComps sp = true)
    (hfile : lookupFS fs (mkPath ps) = some (.file bs))
    (hspex : ∃ n, lookupFS fs (mkPath sp) = some n)
    (hfp : ps.length < fuel) (hfs : sp.length < fuel) :
    writeTarGz fs fuel (mkPath ps) (.file bs) (mkPath sp) =
      .ok (entryOf (mkPath sp) (mkPath ps, bs)) := by
  rw [writeTarGz,
    resolvePath_nosym hwf hns ps fuel hvp ⟨.file bs, hfile⟩ hfp,
    resolvePath_nosym hwf hns sp fuel hvs hspex hfs]
  simp only [bind, Except.bind]
  rw [hfile]
  simp [entryOf, Node.isLink]

theorem foldlM_ok {α β : Type} (l : List α)
    (b : List β → α → Except Err (List β)) (g : α → List β)
    (hbody : ∀ n ∈ l, ∀ acc, b acc n = .ok (acc ++ g n)) :
    ∀ acc, l.foldlM b acc = .ok (acc ++ l.flatMap g) := by
  induction l with
  | nil =>
    intro acc
    simp only [List.foldlM_nil, List.flatMap_nil, List.append_nil]
    rfl
  | cons a l ih =>
    intro acc
    rw [List.foldlM_cons, hbody a (by simp) acc]
    have hb : (Except.ok (acc ++ g a) >>= fun acc' =>
        l.foldlM b acc') = l.foldlM b (acc ++ g a) := rfl
    rw [hb, ih (fun n hn acc => hbody n (by simp [hn]) acc)]
    simp

/-- The archive writer on a symlink-free, star-free filesystem produces
exactly the depth-first file enumeration, named relative to the strip
prefix. -/
theorem writeDirectory_nosym {fs : FS} (hwf : wfFS fs)
    (hns : noSymlinks fs) (hst : noStars fs) (scs : List Comp)
    (hvs : validComps scs = true)
    (hspex : ∃ n, lookupFS fs (mkPath scs) = some n) :
    ∀ (fuel : Nat) (dcs : List Comp),
      validComps dcs = true →
      lookupFS fs (mkPath dcs) = some .dir →
      2 * maxDepth fs + 3 ≤ fuel + dcs.length →
      dcs.length ≤ maxDepth fs + 1 →
      writeDirectory fs fuel (mkPath dcs) (mkPath scs) =
        .ok ((dfsFiles fs fuel (mkPath dcs)).map (entryOf (mkPath scs))) := by
  have hsplen : scs.length ≤ maxDepth fs := by
    obtain ⟨n, hn⟩ := hspex
    by_cases hnil : scs = []
    · subst hnil; simp
    · exact depth_le_maxDepth hwf hvs hnil hn
  intro fuel
  induction fuel with
  | zero =>
    intro dcs _ _ hb hlen
    omega
  | succ fuel ih =>
    intro dcs hv hdir hb hlen
    have hstar : '*' ∉ mkPath dcs := by
      by_cases hnil : dcs = []
      · subst hnil; simp [mkPath, joinComps, root]
      · exact star_free_key hst (mkPath_ne_root dcs hv hnil) hdir
    have hunfold : writeDirectory fs (fuel + 1) (mkPath dcs)
        (mkPath scs) =
        (childrenNames fs (mkPath dcs)).foldlM
          (fun acc n =>
            match lookupFS fs (joinChild (mkPath dcs) n) with
            | some .dir => do
              let es ← writeDirectory fs fuel (join2 (mkPath dcs) n)
                (mkPath scs)
              pure (acc ++ es)
            | some info => do
              let e ← writeTarGz fs (fuel + 1) (join2 (mkPath dcs) n)
                info (mkPath scs)
              pure (acc ++ [e])
            | none => Except.error Err.enoent)
          [] := by
      rw [writeDirectory, if_neg (by simpa using hstar),
        readDirEx_nosym hwf hns dcs (fuel + 1) hv hdir (by omega)]
      rfl
    have hbody : ∀ n ∈ childrenNames fs (mkPath dcs), ∀ acc : List Entry,
        (match lookupFS fs (joinChild (mkPath dcs) n) with
          | some .dir => do
            let es ← writeDirectory fs fuel (join2 (mkPath dcs) n)
              (mkPath scs)
            pure (acc ++ es)
          | some info => do
            let e ← writeTarGz fs (fuel + 1) (join2 (mkPath dcs) n)
              info (mkPath scs)
            pure (acc ++ [e])
          | none => Except.error Err.enoent) =
        .ok (acc ++ (match lookupFS fs (joinChild (mkPath dcs) n) with
          | some .dir => dfsFiles fs fuel (joinChild (mkPath dcs) n)
          | some (.file bs) => [(joinChild (mkPath dcs) n, bs)]
          | _ => ([] : List (Path × List Nat))).map
            (entryOf (mkPath scs))) := by
      intro n hn acc
      obtain ⟨hvn, nd, hnode⟩ :=
        (mem_childrenNames_iff hwf dcs hv n).mp hn
      have hvfull : validComps (dcs ++ [n]) = true :=
        validComps_append hv (by simp [validComps, hvn])
      have hjc : joinChild (mkPath dcs) n = mkPath (dcs ++ [n]) :=
        joinChild_mkPath dcs n hv
      have hj2 : join2 (mkPath dcs) n = mkPath (dcs ++ [n]) :=
        join2_child dcs n hv hvn
      have hchildlen : (dcs ++ [n]).length ≤ maxDepth fs :=
        depth_le_maxDepth hwf hvfull (by simp) hnode
      have hdlen : dcs.length + 1 ≤ maxDepth fs := by
        simpa using hchildlen
      rw [hjc]
      match nd, hnode with
      | .dir, hnode =>
        rw [hnode, hj2]
        rw [ih (dcs ++ [n]) hvfull hnode (by simp; omega)
          (by simp; omega)]
        rfl
      | .file bs, hnode =>
        rw [hnode, hj2]
        show (do
            let e ← writeTarGz fs (fuel + 1) (mkPath (dcs ++ [n]))
              (Node.file bs) (mkPath scs)
            pure (acc ++ [e])) =
          .ok (acc ++ ([(mkPath (dcs ++ [n]), bs)]).map
            (entryOf (mkPath scs)))
        rw [writeTarGz_nosym hwf hns (dcs ++ [n]) scs bs (fuel + 1)
          hvfull hvs hnode hspex (by simp; omega) (by omega)]
        rfl
      | .symlink t, hnode =>
        exact absurd hnode
          (fun hh => not_symlink_of_noSymlinks hwf hns hh)
    rw [hunfold, foldlM_ok _ _ _ hbody []]
    rw [List.nil_append]
    conv_rhs => rw [dfsFiles]
    rw [List.map_flatMap]

/-- Every prefix of an existing directory path is a directory. -/
theorem prefix_dirs_of_dir {fs : FS} (hwf : wfFS fs) (cs : List Comp)
    (hv : validComps cs = true)
    (hdir : lookupFS fs (mkPath cs) = some .dir) :
    ∀ k, k ≤ cs.length → lookupFS fs (mkPath (cs.take k)) = some .dir := by
  intro k hk
  by_cases hk0 : k = 0
  · subst hk0; simp [lookupFS]
  by_cases hkl : k = cs.length
  · subst hkl; simpa using hdir
  have hsplit : cs.take k ++ cs.drop k = cs := List.take_append_drop k cs
  have hdne : cs.drop k ≠ [] := by
    intro hd
    have := List.length_drop k cs ▸ congrArg List.length hd
    simp at this
    omega
  have htne : cs.take k ≠ [] := by
    intro ht
    have := congrArg List.length ht
    simp [min_eq_left (le_of_lt (lt_of_le_of_ne hk hkl))] at this
    omega
  refine wf_prefix_dir hwf (cs.take k) htne (cs.drop k) hdne ?_ ?_
  · rwa [hsplit]
  · rw [hsplit]; exact ⟨_, hdir⟩

/-- `os.MkdirAll` on a chain whose every prefix is a directory or
missing: it succeeds, every prefix is a directory afterwards, and no
other path changes. -/
theorem mkdirAllOS_chain {fs : FS} (hwf : wfFS fs) (hns : noSymlinks fs)
    (hst : noStars fs) :
    ∀ (fuel : Nat) (cs : List Comp), validComps cs = true →
      '*' ∉ mkPath cs →
      (∀ k, k ≤ cs.length →
        lookupFS fs (mkPath (cs.take k)) = some .dir ∨
        lookupFS fs (mkPath (cs.take k)) = none) →
      cs.length + 1 ≤ fuel →
      ∃ fs', mkdirAllOS fs fuel (mkPath cs) = .ok fs' ∧
        wfFS fs' ∧ noSymlinks fs' ∧ noStars fs' ∧
        (∀ k, k ≤ cs.length →
          lookupFS fs' (mkPath (cs.take k)) = some .dir) ∧
        (∀ q, (∀ k, k ≤ cs.length → q ≠ mkPath (cs.take k)) →
          lookupFS fs' q = lookupFS fs q) := by
  intro fuel
  induction fuel with
  | zero => intro cs _ _ _ hfuel; omega
  | succ fuel ih =>
    intro cs hv hstar hchain hfuel
    by_cases hcs : cs = []
    · subst hcs
      refine ⟨fs, ?_, hwf, hns, hst, ?_, fun q _ => rfl⟩
      · have hstat : statNode fs (fuel + 1) (mkPath []) = .ok .dir :=
          statNode_nosym hwf hns (c := []) rfl (by simp [lookupFS])
            (by omega)
        have hrw : mkdirAllOS fs (fuel + 1) (mkPath []) =
            (match statNode fs (fuel + 1) (mkPath []) with
             | .ok n => if n.isDir then .ok fs else .error .enotdir
             | .error .enoent => do
               let fs₁ ← mkdirAllOS fs fuel (dirP (mkPath []))
               .ok (fsInsert fs₁ (mkPath []) .dir)
             | .error e => .error e) := rfl
        rw [hrw, hstat]
        rfl
      · intro k hk
        simp at hk
        subst hk
        simp [lookupFS]
    · rcases hchain cs.length (le_refl _) with hdir | hmiss
      · rw [List.take_length] at hdir
        have hstat : statNode fs (fuel + 1) (mkPath cs) = .ok .dir :=
          statNode_nosym hwf hns hv hdir (by omega)
        have hrw : mkdirAllOS fs (fuel + 1) (mkPath cs) =
            (match statNode fs (fuel + 1) (mkPath cs) with
             | .ok n => if n.isDir then .ok fs else .error .enotdir
             | .error .enoent => do
               let fs₁ ← mkdirAllOS fs fuel (dirP (mkPath cs))
               .ok (fsInsert fs₁ (mkPath cs) .dir)
             | .error e => .error e) := rfl
        refine ⟨fs, ?_, hwf, hns, hst, ?_, fun q _ => rfl⟩
        · rw [hrw, hstat]
          rfl
        · exact prefix_dirs_of_dir hwf cs hv hdir
      · rw [List.take_length] at hmiss
        have hnofile : ∀ us, us ≠ [] → us.length < cs.length →
            us = cs.take us.length → lookupFS fs (mkPath us) ≠ none →
            lookupFS fs (mkPath us) = some .dir := by
          intro us hune hul hupre hnn
          rcases hchain us.length (by omega) with h | h
          · rwa [← hupre] at h
          · rw [← hupre] at h; exact absurd h hnn
        have hstat : statNode fs (fuel + 1) (mkPath cs) = .error .enoent :=
          statNode_missing hwf hns hv hcs hnofile hmiss (by omega)
        have hrw : mkdirAllOS fs (fuel + 1) (mkPath cs) =
            (match statNode fs (fuel + 1) (mkPath cs) with
             | .ok n => if n.isDir then .ok fs else .error .enotdir
             | .error .enoent => do
               let fs₁ ← mkdirAllOS fs fuel (dirP (mkPath cs))
               .ok (fsInsert fs₁ (mkPath cs) .dir)
             | .error e => .error e) := rfl
        have hsnoc : cs.dropLast ++ [cs.getLast hcs] = cs :=
          List.dropLast_append_getLast hcs
        have hvd : validComps cs.dropLast = true := by
          rw [List.dropLast_eq_take]; exact validComps_take cs _ hv
        have hdirp : dirP (mkPath cs) = mkPath cs.dropLast := by
          conv_lhs => rw [← hsnoc]
          rw [dirP_mkPath cs.dropLast (cs.getLast hcs) (by rw [hsnoc]; exact hv)]
        have hstard : '*' ∉ mkPath cs.dropLast := by
          intro hmem
          apply hstar
          by_cases hdl : cs.dropLast = []
          · rw [hdl] at hmem
            simp [mkPath, joinComps] at hmem
          · rw [← hsnoc, mkPath]
            rw [mkPath] at hmem
            rcases List.mem_cons.mp hmem with h | h
            · exact List.mem_cons.mpr (Or.inl h)
            · refine List.mem_cons.mpr (Or.inr ?_)
              rw [joinComps_append cs.dropLast [cs.getLast hcs] hdl
                (by simp)]
              exact List.mem_append_left _ h
        have hchaind : ∀ k, k ≤ cs.dropLast.length →
            lookupFS fs (mkPath (cs.dropLast.take k)) = some .dir ∨
            lookupFS fs (mkPath (cs.dropLast.take k)) = none := by
          intro k hk
          rw [List.length_dropLast] at hk
          rw [take_dropLast_eq cs k hk]
          exact hchain k (by omega)
        obtain ⟨fs₁, hrun, hwf₁, hns₁, hst₁, hpref₁, hout₁⟩ :=
          ih cs.dropLast hvd hstard hchaind
            (by
              rw [List.length_dropLast]
              have hlcs : cs.length ≠ 0 := fun h =>
                hcs (List.length_eq_zero.mp h)
              omega)
        refine ⟨fsInsert fs₁ (mkPath cs) .dir, ?_, ?_, ?_, ?_, ?_, ?_⟩
        · rw [hrw, hstat]
          show (do
            let fs₂ ← mkdirAllOS fs fuel (dirP (mkPath cs))
            Except.ok (fsInsert fs₂ (mkPath cs) .dir)) = _
          rw [hdirp, hrun]
          rfl
        · refine wf_insert hwf₁ cs .dir hv hcs ?_
            (Or.inr (Or.inr rfl))
          rw [hdirp]
          have := hpref₁ cs.dropLast.length (le_refl _)
          rwa [List.take_length] at this
        · exact noSymlinks_insert hns₁ _ _ (by simp [Node.isLink])
        · exact noStars_insert hst₁ _ _ hstar
        · intro k hk
          by_cases hkl : k = cs.length
          · subst hkl
            rw [List.take_length]
            exact lookupFS_insert_self fs₁ (mkPath cs) .dir
              (mkPath_ne_root cs hv hcs)
          · have hk1 : k ≤ cs.length - 1 := by omega
            rw [← take_dropLast_eq cs k hk1,
              lookupFS_insert_ne fs₁ (mkPath cs) .dir _ ?_]
            · exact hpref₁ k (by rw [List.length_dropLast]; omega)
            · rw [take_dropLast_eq cs k hk1]
              intro heq
              have := congrArg comps heq
              rw [comps_mkPath _ (validComps_take cs k hv),
                comps_mkPath _ hv] at this
              have hlen := congrArg List.length this
              simp at hlen
              omega
        · intro q hq
          rw [lookupFS_insert_ne fs₁ (mkPath cs) .dir q ?_]
          · refine hout₁ q ?_
            intro k hk
            rw [List.length_dropLast] at hk
            rw [take_dropLast_eq cs k hk]
            exact hq k (by omega)
          · have := hq cs.length (le_refl _)
            rwa [List.take_length] at this


/-- `find?` skips a block in which nothing matches. -/
theorem find?_append_none {α : Type} (p : α → Bool) (l₁ l₂ : List α)
    (h : l₁.find? p = none) : (l₁ ++ l₂).find? p = l₂.find? p := by
  induction l₁ with
  | nil => rfl
  | cons a l ih =>
    by_cases hpa : p a = true
    · rw [List.find?_cons_of_pos _ hpa] at h; cases h
    · rw [List.find?_cons_of_neg _ hpa] at h
      rw [List.cons_append, List.find?_cons_of_neg _ hpa]
      exact ih h

/-- `find?` keeps its first hit across an append. -/
theorem find?_append_some {α : Type} (p : α → Bool) (l₁ l₂ : List α)
    {a : α} (h : l₁.find? p = some a) : (l₁ ++ l₂).find? p = some a := by
  induction l₁ with
  | nil => cases h
  | cons b l ih =>
    by_cases hpb : p b = true
    · rw [List.find?_cons_of_pos _ hpb] at h
      rw [List.cons_append, List.find?_cons_of_pos _ hpb]
      exact h
    · rw [List.find?_cons_of_neg _ hpb] at h
      rw [List.cons_append, List.find?_cons_of_neg _ hpb]
      exact ih h

/-- A character missing from two absolute paths is missing from their
join. -/
theorem star_mkPath_append (as bs : List Comp)
    (ha : '*' ∉ mkPath as) (hb : '*' ∉ mkPath bs) :
    '*' ∉ mkPath (as ++ bs) := by
  by_cases hane : as = []
  · subst hane; simpa using hb
  by_cases hbne : bs = []
  · subst hbne; simpa using ha
  intro hmem
  rw [mkPath] at hmem
  rcases List.mem_cons.mp hmem with h | h
  · exact absurd h (by decide)
  · rw [joinComps_append as bs hane hbne] at h
    rcases List.mem_append.mp h with h | h
    · exact ha (List.mem_cons.mpr (Or.inr h))
    · rcases List.mem_cons.mp h with h | h
      · exact absurd h (by decide)
      · exact hb (List.mem_cons.mpr (Or.inr h))

/-- Dropping the last component keeps a path free of a character. -/
theorem star_mkPath_dropLast (cs : List Comp) (hcs : cs ≠ [])
    (h : '*' ∉ mkPath cs) : '*' ∉ mkPath cs.dropLast := by
  intro hmem
  apply h
  have hsnoc : cs.dropLast ++ [cs.getLast hcs] = cs :=
    List.dropLast_append_getLast hcs
  by_cases hdl : cs.dropLast = []
  · rw [hdl] at hmem
    simp [mkPath, joinComps] at hmem
  · rw [← hsnoc, mkPath]
    rw [mkPath] at hmem
    rcases List.mem_cons.mp hmem with hh | hh
    · exact List.mem_cons.mpr (Or.inl hh)
    · refine List.mem_cons.mpr (Or.inr ?_)
      rw [joinComps_append cs.dropLast [cs.getLast hcs] hdl (by simp)]
      exact List.mem_append_left _ hh

/-- Is `a` a strict component-wise prefix of `b`? -/
def compPrefix (a b : List Comp) : Bool :=
  a = b.take a.length && a.length < b.length

theorem compPrefix_iff (a b : List Comp) :
    compPrefix a b = true ↔
      a = b.take a.length ∧ a.length < b.length := by
  simp [compPrefix]

/-- The node found at `O ++ rest` after extracting the entries in `ps`
(entry name components paired with contents) into a fresh subtree: the
file content at an exact name, a directory strictly above a name,
nothing elsewhere. -/
def extNode (ps : List (List Comp × List Nat)) (rest : List Comp) :
    Option Node :=
  match ps.find? (fun pr => pr.1 = rest) with
  | some pr => some (.file pr.2)
  | none =>
    if ps.any (fun pr => compPrefix rest pr.1) then some .dir else none

theorem extNode_eval (ps : List (List Comp × List Nat))
    (rest : List Comp) (hf : ps.find? (fun pr => pr.1 = rest) = none) :
    extNode ps rest =
      (if ps.any (fun pr => compPrefix rest pr.1) then some .dir
       else none) := by
  rw [extNode, hf]

theorem extNode_eval_some (ps : List (List Comp × List Nat))
    (rest : List Comp) {pr : List Comp × List Nat}
    (hf : ps.find? (fun x => x.1 = rest) = some pr) :
    extNode ps rest = some (.file pr.2) := by
  rw [extNode, hf]

/-- The extraction loop of `targz.extract`, run on entries whose names
are valid pairwise-incomparable component lists, materializes exactly
the corresponding files (with their directory chains) under the output
directory and touches nothing else. -/
theorem extractEntries_ok {ocs : List Comp} (hocs : ocs ≠ [])
    (hov : validComps ocs = true) (host : '*' ∉ mkPath ocs) :
    ∀ (es : List Entry) (fs' : FS) (ps : List (List Comp × List Nat))
      (fuel : Nat),
      wfFS fs' → noSymlinks fs' → noStars fs' →
      (∀ e ∈ es, validComps (comps e.name) = true ∧ comps e.name ≠ [] ∧
        (e.name = mkPath (comps e.name) ∨
          e.name = joinComps (comps e.name)) ∧ '*' ∉ e.name ∧
        ocs.length + (comps e.name).length + 2 ≤ fuel) →
      (ps.map Prod.fst ++ es.map (fun e => comps e.name)).Pairwise
        (fun a b => compPrefix a b = false ∧ compPrefix b a = false ∧
          a ≠ b) →
      (∀ rest, validComps rest = true →
        lookupFS fs' (mkPath (ocs ++ rest)) =
          (if rest = [] then some .dir else extNode ps rest)) →
      ∃ fs'', extractEntries fs' fuel es (mkPath ocs) = (.ok (), fs'') ∧
        wfFS fs'' ∧ noSymlinks fs'' ∧ noStars fs'' ∧
        (∀ rest, validComps rest = true →
          lookupFS fs'' (mkPath (ocs ++ rest)) =
            (if rest = [] then some .dir
             else extNode
               (ps ++ es.map (fun e => (comps e.name, e.content)))
               rest)) ∧
        (∀ q, pathUnder (mkPath ocs) q = false →
          lookupFS fs'' q = lookupFS fs' q) := by
  intro es
  induction es with
  | nil =>
    intro fs' ps fuel hwf' hns' hst' hes hsep hho
    exact ⟨fs', rfl, hwf', hns', hst', by simpa using hho, fun q _ => rfl⟩
  | cons e restes ih =>
    intro fs' ps fuel hwf' hns' hst' hes hsep hho
    obtain ⟨hvns, hnsne, hname, hstarn, hfueln⟩ :=
      hes e (List.mem_cons_self _ _)
    have hns0 : (comps e.name).length ≠ 0 := fun h =>
      hnsne (List.length_eq_zero.mp h)
    have hsnoc : (comps e.name).dropLast ++
        [(comps e.name).getLast hnsne] = comps e.name :=
      List.dropLast_append_getLast hnsne
    have hvdl : validComps (comps e.name).dropLast = true := by
      rw [List.dropLast_eq_take]; exact validComps_take _ _ hvns
    have hvlast : validComp ((comps e.name).getLast hnsne) = true := by
      have := List.all_eq_true.mp hvns _ (List.getLast_mem hnsne)
      simpa using this
    have hvod : validComps (ocs ++ (comps e.name).dropLast) = true :=
      validComps_append hov hvdl
    have hvon : validComps (ocs ++ comps e.name) = true :=
      validComps_append hov hvns
    have hlast2 : (comps e.name).getLast hnsne ≠ [] ∧
        '/' ∉ (comps e.name).getLast hnsne := by
      have h := hvlast
      simp [validComp, decide_eq_true_eq] at h
      exact ⟨h.1, h.2.1⟩
    have hstarns : '*' ∉ mkPath (comps e.name) := by
      rcases hname with hname | hname
      · rwa [← hname]
      · intro hmem
        rcases List.mem_cons.mp hmem with h | h
        · exact absurd h (by decide)
        · rw [← hname] at h; exact hstarn h
    have hstardl : '*' ∉ mkPath (comps e.name).dropLast :=
      star_mkPath_dropLast _ hnsne hstarns
    have hstarod : '*' ∉ mkPath (ocs ++ (comps e.name).dropLast) :=
      star_mkPath_append _ _ host hstardl
    have hbase : baseP e.name = (comps e.name).getLast hnsne := by
      rcases hname with hname | hname
      · conv_lhs => rw [hname, ← hsnoc]
        exact baseP_mkPath _ _ hvlast
      · by_cases hdl0 : (comps e.name).dropLast = []
        · conv_lhs => rw [hname, ← hsnoc, hdl0, List.nil_append]
          rw [show joinComps [(comps e.name).getLast hnsne] =
            (comps e.name).getLast hnsne from rfl]
          exact baseP_single _ hlast2.1 hlast2.2
        · conv_lhs => rw [hname, ← hsnoc]
          exact baseP_joinComps _ _ hvlast hdl0
    have hd : join2 (mkPath ocs) (dirP e.name) =
        mkPath (ocs ++ (comps e.name).dropLast) := by
      rcases hname with hname | hname
      · have hdirp : dirP e.name = mkPath (comps e.name).dropLast := by
          conv_lhs => rw [hname, ← hsnoc]
          exact dirP_mkPath _ _ (by rw [hsnoc]; exact hvns)
        rw [hdirp]; exact join2_abs ocs _ hov hvdl
      · by_cases hdl0 : (comps e.name).dropLast = []
        · have hdirp : dirP e.name = ['.'] := by
            conv_lhs => rw [hname, ← hsnoc, hdl0, List.nil_append]
            rw [show joinComps [(comps e.name).getLast hnsne] =
              (comps e.name).getLast hnsne from rfl]
            exact dirP_single _ hlast2.1 hlast2.2
          rw [hdirp, hdl0, List.append_nil]
          exact join2_dot ocs hov
        · have hdirp : dirP e.name =
              joinComps (comps e.name).dropLast := by
            conv_lhs => rw [hname, ← hsnoc]
            exact dirP_joinComps _ _ hvdl hvlast hdl0
          rw [hdirp]
          exact join2_rel ocs _ hov hvdl
    have hOdir : lookupFS fs' (mkPath ocs) = some .dir := by
      have := hho [] rfl
      simpa using this
    have hsepA := List.pairwise_append.mp hsep
    have hRpn : ∀ pr ∈ ps, compPrefix pr.1 (comps e.name) = false ∧
        compPrefix (comps e.name) pr.1 = false ∧
        pr.1 ≠ comps e.name := by
      intro pr hpr
      exact hsepA.2.2 pr.1 (List.mem_map_of_mem _ hpr) (comps e.name)
        (by simp)
    have hfind_ns : ps.find? (fun pr => pr.1 = comps e.name) = none := by
      cases hf : ps.find? (fun pr => pr.1 = comps e.name) with
      | none => rfl
      | some pr =>
        have hmem := List.mem_of_find?_eq_some hf
        have heq : pr.1 = comps e.name := by
          have := List.find?_some hf
          simpa using this
        exact absurd heq (hRpn pr hmem).2.2
    have hfind_pre : ∀ rest, compPrefix rest (comps e.name) = true →
        ps.find? (fun pr => pr.1 = rest) = none := by
      intro rest hcp
      cases hf : ps.find? (fun pr => pr.1 = rest) with
      | none => rfl
      | some pr =>
        have hmem := List.mem_of_find?_eq_some hf
        have heq : pr.1 = rest := by
          have := List.find?_some hf
          simpa using this
        have hfalse := (hRpn pr hmem).1
        rw [heq, hcp] at hfalse
        cases hfalse
    have hany_ns : ps.any (fun pr => compPrefix (comps e.name) pr.1)
        = false := by
      rw [Bool.eq_false_iff]
      intro ha
      obtain ⟨pr, hpr, hcp⟩ := List.any_eq_true.mp ha
      have h2 := (hRpn pr hpr).2.1
      rw [h2] at hcp
      cases hcp
    have hpre_dl : ∀ rest, compPrefix rest (comps e.name) = true →
        rest = (comps e.name).dropLast.take rest.length := by
      intro rest hcp
      obtain ⟨hre, hlt⟩ := (compPrefix_iff _ _).mp hcp
      rw [List.dropLast_eq_take, List.take_take,
        min_eq_left (by omega)]
      exact hre
    have hdl_pre : ∀ j, 1 ≤ j → j ≤ (comps e.name).dropLast.length →
        compPrefix ((comps e.name).dropLast.take j) (comps e.name)
          = true := by
      intro j h1 h2
      rw [List.length_dropLast] at h2
      rw [compPrefix_iff]
      have hlen : ((comps e.name).dropLast.take j).length = j := by
        rw [List.length_take, List.length_dropLast]
        omega
      constructor
      · rw [hlen, take_dropLast_eq _ _ (by omega)]
      · rw [hlen]; omega
    have hchaincond : ∀ k, k ≤ (ocs ++ (comps e.name).dropLast).length →
        lookupFS fs' (mkPath ((ocs ++ (comps e.name).dropLast).take k))
          = some .dir ∨
        lookupFS fs' (mkPath ((ocs ++ (comps e.name).dropLast).take k))
          = none := by
      intro k hk
      rw [List.length_append, List.length_dropLast] at hk
      by_cases hko : k ≤ ocs.length
      · left
        rw [List.take_append_eq_append_take,
          Nat.sub_eq_zero_of_le hko, List.take_zero, List.append_nil]
        exact prefix_dirs_of_dir hwf' ocs hov hOdir k hko
      · push_neg at hko
        have hj1 : 1 ≤ k - ocs.length := by omega
        have hj2 : k - ocs.length ≤ (comps e.name).dropLast.length := by
          rw [List.length_dropLast]; omega
        rw [List.take_append_eq_append_take,
          List.take_of_length_le (by omega)]
        have hcp := hdl_pre (k - ocs.length) hj1 hj2
        have hrv : validComps
            ((comps e.name).dropLast.take (k - ocs.length)) = true :=
          validComps_take _ _ hvdl
        have hrne : (comps e.name).dropLast.take (k - ocs.length)
            ≠ [] := by
          intro h
          have := congrArg List.length h
          rw [List.length_take, List.length_dropLast] at this
          simp at this
          omega
        have hval := hho _ hrv
        rw [if_neg hrne] at hval
        rw [hval, extNode_eval _ _ (hfind_pre _ hcp)]
        by_cases hany :
            ps.any (fun pr =>
              compPrefix ((comps e.name).dropLast.take (k - ocs.length))
                pr.1) = true
        · left; rw [if_pos hany]
        · right; rw [if_neg hany]
    obtain ⟨fs₁, hrun₁, hwf₁, hns₁, hst₁, hpref₁, hout₁⟩ :=
      mkdirAllOS_chain hwf' hns' hst' fuel
        (ocs ++ (comps e.name).dropLast) hvod hstarod hchaincond
        (by rw [List.length_append, List.length_dropLast]; omega)
    have hparent₁ : lookupFS fs₁
        (mkPath (ocs ++ (comps e.name).dropLast)) = some .dir := by
      have := hpref₁ (ocs ++ (comps e.name).dropLast).length (le_refl _)
      rwa [List.take_length] at this
    have hassoc : (ocs ++ (comps e.name).dropLast) ++
        [(comps e.name).getLast hnsne] = ocs ++ comps e.name := by
      rw [List.append_assoc, hsnoc]
    have hne_pref : ∀ k, k ≤ (ocs ++ (comps e.name).dropLast).length →
        mkPath (ocs ++ comps e.name) ≠
          mkPath ((ocs ++ (comps e.name).dropLast).take k) := by
      intro k hk heq
      have hlists := mkPath_injective hvon
        (validComps_take _ _ hvod) heq
      have hlen := congrArg List.length hlists
      rw [List.length_append, List.length_take, List.length_append,
        List.length_dropLast] at hlen
      omega
    have hlookupN : lookupFS fs₁ (mkPath (ocs ++ comps e.name))
        = none := by
      rw [hout₁ _ hne_pref]
      have hval := hho (comps e.name) hvns
      rw [if_neg hnsne] at hval
      rw [hval, extNode_eval _ _ hfind_ns,
        if_neg (by simp [hany_ns])]
    have hcreate : createFile fs₁ fuel (mkPath (ocs ++ comps e.name)) =
        .ok (fsInsert fs₁ (mkPath (ocs ++ comps e.name)) (.file []),
          mkPath (ocs ++ comps e.name)) := by
      have h0 := createFile_fresh hwf₁ hns₁
        (ocs ++ (comps e.name).dropLast)
        ((comps e.name).getLast hnsne) fuel
        (by rw [hassoc]; exact hvon)
        hparent₁
        (by rw [hassoc]; exact Or.inl hlookupN)
        (by rw [List.length_append, List.length_dropLast]; omega)
      rw [hassoc] at h0
      exact h0
    have hstep : extractEntries fs' fuel (e :: restes) (mkPath ocs) =
        extractEntries
          (setContent (fsInsert fs₁ (mkPath (ocs ++ comps e.name))
            (.file [])) (mkPath (ocs ++ comps e.name)) e.content)
          fuel restes (mkPath ocs) := by
      have h1 : extractEntries fs' fuel (e :: restes) (mkPath ocs) =
          (match mkdirAllOS fs' fuel
              (join2 (mkPath ocs) (dirP e.name)) with
           | .error err => ((.error err : Except Err Unit), fs')
           | .ok fs₁ =>
             match createFile fs₁ fuel
                 (join2 (join2 (mkPath ocs) (dirP e.name))
                   (baseP e.name)) with
             | .error err => ((.error err : Except Err Unit), fs₁)
             | .ok (fs₂, handle) =>
               extractEntries (setContent fs₂ handle e.content) fuel
                 restes (mkPath ocs)) := rfl
      rw [h1, hd, hrun₁]
      show (match createFile fs₁ fuel
          (join2 (mkPath (ocs ++ (comps e.name).dropLast))
            (baseP e.name)) with
        | .error err => ((.error err : Except Err Unit), fs₁)
        | .ok (fs₂, handle) =>
          extractEntries (setContent fs₂ handle e.content) fuel
            restes (mkPath ocs)) = _
      have hfn : join2 (mkPath (ocs ++ (comps e.name).dropLast))
          (baseP e.name) = mkPath (ocs ++ comps e.name) := by
        rw [hbase, join2_child _ _ hvod hvlast, hassoc]
      rw [hfn, hcreate]
    have hfname_ne_root : mkPath (ocs ++ comps e.name) ≠ root :=
      mkPath_ne_root _ hvon (by simp [hocs])
    have hdirpN : dirP (mkPath (ocs ++ comps e.name)) =
        mkPath (ocs ++ (comps e.name).dropLast) := by
      conv_lhs => rw [← hassoc]
      exact dirP_mkPath _ _ (by rw [hassoc]; exact hvon)
    have honne : ocs ++ comps e.name ≠ [] := by simp [hocs]
    have hdl_ne_full : mkPath (ocs ++ (comps e.name).dropLast) ≠
        mkPath (ocs ++ comps e.name) := by
      intro heq
      have := mkPath_injective hvod hvon heq
      have hlen := congrArg List.length this
      rw [List.length_append, List.length_append,
        List.length_dropLast] at hlen
      omega
    have hwfI : wfFS (fsInsert fs₁ (mkPath (ocs ++ comps e.name))
        (.file [])) :=
      wf_insert hwf₁ _ (.file []) hvon honne
        (by rw [hdirpN]; exact hparent₁) (Or.inl hlookupN)
    have hwf₃ : wfFS (fsInsert
        (fsInsert fs₁ (mkPath (ocs ++ comps e.name)) (.file []))
        (mkPath (ocs ++ comps e.name)) (.file e.content)) :=
      wf_insert hwfI _ (.file e.content) hvon honne
        (by
          rw [hdirpN, lookupFS_insert_ne _ _ _ _ hdl_ne_full]
          exact hparent₁)
        (Or.inr (Or.inl ⟨[], lookupFS_insert_self _ _ _
          hfname_ne_root⟩))
    have hstarfname : '*' ∉ mkPath (ocs ++ comps e.name) :=
      star_mkPath_append _ _ host hstarns
    have hns₃ : noSymlinks (fsInsert
        (fsInsert fs₁ (mkPath (ocs ++ comps e.name)) (.file []))
        (mkPath (ocs ++ comps e.name)) (.file e.content)) :=
      noSymlinks_insert
        (noSymlinks_insert hns₁ _ _ (by simp [Node.isLink])) _ _
        (by simp [Node.isLink])
    have hst₃ : noStars (fsInsert
        (fsInsert fs₁ (mkPath (ocs ++ comps e.name)) (.file []))
        (mkPath (ocs ++ comps e.name)) (.file e.content)) :=
      noStars_insert (noStars_insert hst₁ _ _ hstarfname) _ _
        hstarfname
    have hho' : ∀ rest, validComps rest = true →
        lookupFS (fsInsert
          (fsInsert fs₁ (mkPath (ocs ++ comps e.name)) (.file []))
          (mkPath (ocs ++ comps e.name)) (.file e.content))
          (mkPath (ocs ++ rest)) =
          (if rest = [] then some .dir
           else extNode (ps ++ [(comps e.name, e.content)]) rest) := by
      intro rest hvrest
      by_cases hr0 : rest = []
      · subst hr0
        rw [if_pos rfl]
        have hne1 : mkPath (ocs ++ ([] : List Comp)) ≠
            mkPath (ocs ++ comps e.name) := by
          intro heq
          have h2 := mkPath_injective (by simpa using hov) hvon heq
          exact hnsne (List.append_cancel_left h2).symm
        rw [lookupFS_insert_ne _ _ _ _ hne1,
          lookupFS_insert_ne _ _ _ _ hne1]
        have h2 := hpref₁ ocs.length
          (by rw [List.length_append]; omega)
        rw [List.take_append_eq_append_take, Nat.sub_self,
          List.take_zero, List.append_nil, List.take_length] at h2
        simpa using h2
      · rw [if_neg hr0]
        by_cases hrn : rest = comps e.name
        · subst hrn
          rw [lookupFS_insert_self _ _ _ hfname_ne_root]
          rw [extNode, find?_append_none _ _ _ hfind_ns,
            List.find?_cons_of_pos _ (by simp)]
        · have hqne : mkPath (ocs ++ rest) ≠
              mkPath (ocs ++ comps e.name) := by
            intro heq
            have h2 := mkPath_injective
              (validComps_append hov hvrest) hvon heq
            exact hrn (List.append_cancel_left h2)
          rw [lookupFS_insert_ne _ _ _ _ hqne,
            lookupFS_insert_ne _ _ _ _ hqne]
          have hfind_single : ([(comps e.name, e.content)] :
              List (List Comp × List Nat)).find?
                (fun pr => pr.1 = rest) = none := by
            rw [List.find?_cons_of_neg]
            · rfl
            · simp only [decide_eq_true_eq]
              exact fun h => hrn h.symm
          by_cases hcp : compPrefix rest (comps e.name) = true
          · have hr1 : rest.length ≠ 0 := fun h =>
              hr0 (List.length_eq_zero.mp h)
            obtain ⟨hre, hlt⟩ := (compPrefix_iff _ _).mp hcp
            have h2 := hpref₁ (ocs.length + rest.length)
              (by rw [List.length_append, List.length_dropLast]; omega)
            rw [List.take_append_eq_append_take,
              List.take_of_length_le (by omega),
              Nat.add_sub_cancel_left, ← hpre_dl rest hcp] at h2
            rw [h2]
            have hfind' : (ps ++ [(comps e.name, e.content)]).find?
                (fun pr => pr.1 = rest) = none := by
              rw [find?_append_none _ _ _ (hfind_pre rest hcp)]
              exact hfind_single
            rw [extNode_eval _ _ hfind',
              if_pos (by rw [List.any_append]; simp [hcp])]
          · have hnp : ∀ k,
                k ≤ (ocs ++ (comps e.name).dropLast).length →
                mkPath (ocs ++ rest) ≠
                  mkPath ((ocs ++ (comps e.name).dropLast).take k) := by
              intro k hk heq
              have hlists := mkPath_injective
                (validComps_append hov hvrest)
                (validComps_take _ _ hvod) heq
              rw [List.length_append, List.length_dropLast] at hk
              by_cases hko : k ≤ ocs.length
              · have hlen := congrArg List.length hlists
                rw [List.length_append, List.length_take,
                  List.length_append, List.length_dropLast] at hlen
                have hr1 : rest.length ≠ 0 := fun h =>
                  hr0 (List.length_eq_zero.mp h)
                omega
              · push_neg at hko
                rw [List.take_append_eq_append_take,
                  List.take_of_length_le (by omega)] at hlists
                have hrdl := List.append_cancel_left hlists
                have hcp' := hdl_pre (k - ocs.length) (by omega)
                  (by rw [List.length_dropLast]; omega)
                rw [← hrdl] at hcp'
                exact hcp hcp'
            rw [hout₁ _ hnp]
            have hval := hho rest hvrest
            rw [if_neg hr0] at hval
            rw [hval]
            cases hf : ps.find? (fun pr => pr.1 = rest) with
            | some pr =>
              rw [extNode_eval_some _ _ hf,
                extNode_eval_some _ _ (find?_append_some _ _ _ hf)]
            | none =>
              have hfind' : (ps ++ [(comps e.name, e.content)]).find?
                  (fun pr => pr.1 = rest) = none := by
                rw [find?_append_none _ _ _ hf]
                exact hfind_single
              have hcpf : compPrefix rest (comps e.name) = false :=
                Bool.eq_false_iff.mpr hcp
              rw [extNode_eval _ _ hf, extNode_eval _ _ hfind',
                List.any_append, List.any_cons, List.any_nil, hcpf,
                Bool.or_false, Bool.or_false]
    have hes' : ∀ e' ∈ restes, validComps (comps e'.name) = true ∧
        comps e'.name ≠ [] ∧ (e'.name = mkPath (comps e'.name) ∨
          e'.name = joinComps (comps e'.name)) ∧
        '*' ∉ e'.name ∧
        ocs.length + (comps e'.name).length + 2 ≤ fuel :=
      fun e' he' => hes e' (List.mem_cons_of_mem _ he')
    have hsep' : ((ps ++ [(comps e.name, e.content)]).map Prod.fst ++
        restes.map (fun e => comps e.name)).Pairwise
        (fun a b => compPrefix a b = false ∧ compPrefix b a = false ∧
          a ≠ b) := by
      simpa using hsep
    obtain ⟨fs'', hrun'', hwf'', hns'', hst'', hho'', hout''⟩ :=
      ih (fsInsert
          (fsInsert fs₁ (mkPath (ocs ++ comps e.name)) (.file []))
          (mkPath (ocs ++ comps e.name)) (.file e.content))
        (ps ++ [(comps e.name, e.content)]) fuel hwf₃ hns₃ hst₃
        hes' hsep' hho'
    refine ⟨fs'', ?_, hwf'', hns'', hst'', ?_, ?_⟩
    · rw [hstep]
      exact hrun''
    · intro rest hvrest
      rw [hho'' rest hvrest]
      by_cases h0 : rest = []
      · rw [if_pos h0, if_pos h0]
      · rw [if_neg h0, if_neg h0]
        have harr : (ps ++ [(comps e.name, e.content)]) ++
            restes.map (fun e => (comps e.name, e.content)) =
            ps ++ (e :: restes).map
              (fun e => (comps e.name, e.content)) := by
          simp
        rw [harr]
    · intro q hq
      rw [hout'' q hq]
      have hqfn : q ≠ mkPath (ocs ++ comps e.name) := by
        intro h
        subst h
        have := (pathUnder_mkPath_iff ocs (ocs ++ comps e.name)
          hov hvon).mpr ⟨comps e.name, rfl⟩
        rw [this] at hq
        cases hq
      rw [lookupFS_insert_ne _ _ _ _ hqfn,
        lookupFS_insert_ne _ _ _ _ hqfn]
      by_cases hanc : ∃ k, k ≤ ocs.length ∧
          q = mkPath ((ocs ++ (comps e.name).dropLast).take k)
      · obtain ⟨k, hko, rfl⟩ := hanc
        rw [hpref₁ k (by rw [List.length_append]; omega)]
        have h2 : (ocs ++ (comps e.name).dropLast).take k =
            ocs.take k := by
          rw [List.take_append_eq_append_take,
            Nat.sub_eq_zero_of_le hko, List.take_zero, List.append_nil]
        rw [h2]
        exact (prefix_dirs_of_dir hwf' ocs hov hOdir k hko).symm
      · refine hout₁ q ?_
        intro k hk heq
        by_cases hko : k ≤ ocs.length
        · exact hanc ⟨k, hko, heq⟩
        · push_neg at hko
          rw [List.length_append, List.length_dropLast] at hk
          have h2 : (ocs ++ (comps e.name).dropLast).take k =
              ocs ++ (comps e.name).dropLast.take (k - ocs.length) := by
            rw [List.take_append_eq_append_take,
              List.take_of_length_le (by omega)]
          rw [h2] at heq
          have hpu : pathUnder (mkPath ocs) q = true := by
            rw [heq]
            exact (pathUnder_mkPath_iff ocs _ hov
              (validComps_append hov (validComps_take _ _ hvdl))).mpr
              ⟨_, rfl⟩
          rw [hpu] at hq
          cases hq

/-! ## Lemmas: the archive codec inverts itself -/

theorem decPath_enc (p : Path) (r : List Nat) :
    decPath (encPath p ++ r) = some (p, r) := by
  show (if p.length ≤ (p.map Char.toNat ++ r).length then
      some (((p.map Char.toNat ++ r).take p.length).map Char.ofNat,
        (p.map Char.toNat ++ r).drop p.length)
    else none) = some (p, r)
  rw [if_pos (by simp)]
  rw [List.take_left' (by simp), List.drop_left' (by simp)]
  rw [List.map_map]
  have hmap : p.map (Char.ofNat ∘ Char.toNat) = p := by
    rw [show Char.ofNat ∘ Char.toNat = id from ?_, List.map_id]
    funext c
    exact Char.ofNat_toNat c
  rw [hmap]

theorem decBytes_enc (bs r : List Nat) :
    decBytes (bs.length :: (bs ++ r)) = some (bs, r) := by
  show (if bs.length ≤ (bs ++ r).length then
      some ((bs ++ r).take bs.length, (bs ++ r).drop bs.length)
    else none) = some (bs, r)
  rw [if_pos (by simp)]
  rw [List.take_left' rfl, List.drop_left' rfl]

theorem decEntry_enc (e : Entry) (r : List Nat) :
    decEntry (encEntry e ++ r) = some (e, r) := by
  obtain ⟨nm, il, ln, ct⟩ := e
  have h1 : encEntry ⟨nm, il, ln, ct⟩ ++ r =
      encPath nm ++ ((if il then 1 else 0) ::
        (encPath ln ++ (ct.length :: (ct ++ r)))) := by
    rw [encEntry]
    simp [List.append_assoc]
  rw [h1, decEntry, decPath_enc]
  show (do
    let (linkname, bs) ← decPath (encPath ln ++
      (ct.length :: (ct ++ r)))
    let (content, bs) ← decBytes bs
    pure ((⟨nm, decide ((if il then 1 else 0) = 1),
      linkname, content⟩ : Entry), bs)) = some (⟨nm, il, ln, ct⟩, r)
  rw [decPath_enc]
  show (do
    let (content, bs) ← decBytes (ct.length :: (ct ++ r))
    pure ((⟨nm, decide ((if il then 1 else 0) = 1),
      ln, content⟩ : Entry), bs)) = some (⟨nm, il, ln, ct⟩, r)
  rw [decBytes_enc]
  show some ((⟨nm, decide ((if il then 1 else 0) = 1),
    ln, ct⟩ : Entry), r) = some (⟨nm, il, ln, ct⟩, r)
  cases il <;> rfl

theorem decEntries_enc (es : List Entry) :
    decEntries es.length (es.flatMap encEntry) = some es := by
  induction es with
  | nil => rfl
  | cons e es ih =>
    show (do
      let (e', bs) ← decEntry (encEntry e ++ es.flatMap encEntry)
      let es' ← decEntries es.length bs
      pure (e' :: es')) = some (e :: es)
    rw [decEntry_enc]
    show (do
      let es' ← decEntries es.length (es.flatMap encEntry)
      pure (e :: es')) = some (e :: es)
    rw [ih]
    rfl

theorem decode_encode (es : List Entry) :
    decode (encode es) = some es := by
  show decEntries es.length (es.flatMap encEntry) = some es
  exact decEntries_enc es

/-! ## Lemmas: stripping the sub-path prefix from an entry path -/

/-- Dropping an absolute prefix from a longer absolute path leaves the
absolute remainder (the `evaluatedPath[len(subPath):]` computation). -/
theorem drop_mkPath_append (as bs : List Comp) (ha : as ≠ [])
    (hb : bs ≠ []) :
    (mkPath (as ++ bs)).drop (mkPath as).length = mkPath bs := by
  simp only [mkPath]
  rw [joinComps_append as bs ha hb, List.length_cons,
    List.drop_succ_cons, List.drop_left]

/-- Dropping the root prefix leaves a relative remainder. -/
theorem drop_mkPath_root (bs : List Comp) :
    (mkPath bs).drop (mkPath []).length = joinComps bs := rfl

/-! ## Lemmas: inserting a fresh key -/

theorem fsInsert_fresh {fs : FS} {p : Path}
    (h : lookupFS fs p = none) (n : Node) :
    fsInsert fs p n = (p, n) :: fs := by
  rw [fsInsert]
  congr 1
  rw [List.filter_eq_self]
  intro e he
  rw [lookupFS] at h
  by_cases hr : p = root
  · rw [if_pos hr] at h; cases h
  · rw [if_neg hr, Option.map_eq_none'] at h
    have := List.find?_eq_none.mp h e he
    simpa using this

theorem maxDepth_cons (p : Path) (n : Node) (fs : FS) :
    maxDepth ((p, n) :: fs) = max (comps p).length (maxDepth fs) := by
  rw [maxDepth, maxDepth]
  rfl

/-! ## Lemmas: the depth-first file enumeration -/

/-- Every element of `dfsFiles` is an existing regular file strictly
below the start directory. -/
theorem dfsFiles_shape {fs : FS} (hwf : wfFS fs) (hns : noSymlinks fs) :
    ∀ (fuel : Nat) (dcs : List Comp), validComps dcs = true →
      ∀ pr ∈ dfsFiles fs fuel (mkPath dcs),
        ∃ ps, ps ≠ [] ∧ pr.1 = mkPath (dcs ++ ps) ∧
          validComps (dcs ++ ps) = true ∧
          lookupFS fs (mkPath (dcs ++ ps)) = some (.file pr.2) := by
  intro fuel
  induction fuel with
  | zero => intro dcs _ pr hpr; cases hpr
  | succ fuel ih =>
    intro dcs hv pr hpr
    rw [dfsFiles, List.mem_flatMap] at hpr
    obtain ⟨c, hc, hmem⟩ := hpr
    obtain ⟨hvc, nd, hnode⟩ := (mem_childrenNames_iff hwf dcs hv c).mp hc
    have hjc : joinChild (mkPath dcs) c = mkPath (dcs ++ [c]) :=
      joinChild_mkPath dcs c hv
    have hmem' : pr ∈
        (match lookupFS fs (joinChild (mkPath dcs) c) with
         | some .dir => dfsFiles fs fuel (joinChild (mkPath dcs) c)
         | some (.file bs) => [(joinChild (mkPath dcs) c, bs)]
         | _ => ([] : List (Path × List Nat))) := hmem
    rw [hjc, hnode] at hmem'
    have hvfull : validComps (dcs ++ [c]) = true :=
      validComps_append hv (by simp [validComps, hvc])
    match nd, hnode, hmem' with
    | .dir, hnode, hmem' =>
      obtain ⟨ps, hpsne, hp1, hpv, hpl⟩ :=
        ih (dcs ++ [c]) hvfull pr hmem'
      refine ⟨c :: ps, by simp, ?_, ?_, ?_⟩
      · rw [show dcs ++ c :: ps = (dcs ++ [c]) ++ ps by simp]
        exact hp1
      · rw [show dcs ++ c :: ps = (dcs ++ [c]) ++ ps by simp]
        exact hpv
      · rw [show dcs ++ c :: ps = (dcs ++ [c]) ++ ps by simp]
        exact hpl
    | .file bs, hnode, hmem' =>
      rw [List.mem_singleton] at hmem'
      subst hmem'
      exact ⟨[c], by simp, rfl, hvfull, hnode⟩
    | .symlink t, hnode, hmem' =>
      exact absurd hnode
        (fun hh => not_symlink_of_noSymlinks hwf hns hh)

/-- Every regular file strictly below the start directory appears in
`dfsFiles`, given sufficient fuel. -/
theorem dfsFiles_complete {fs : FS} (hwf : wfFS fs)
    (hns : noSymlinks fs) :
    ∀ (fuel : Nat) (dcs ps : List Comp) (bs : List Nat),
      validComps (dcs ++ ps) = true → ps ≠ [] →
      lookupFS fs (mkPath (dcs ++ ps)) = some (.file bs) →
      maxDepth fs ≤ fuel + dcs.length →
      (mkPath (dcs ++ ps), bs) ∈ dfsFiles fs fuel (mkPath dcs) := by
  intro fuel
  induction fuel with
  | zero =>
    intro dcs ps bs hv hps hl hfuel
    have hlen := depth_le_maxDepth hwf hv (by simp [hps]) hl
    rw [List.length_append] at hlen
    have : ps.length ≠ 0 := fun h => hps (List.length_eq_zero.mp h)
    omega
  | succ fuel ih =>
    intro dcs ps bs hv hps hl hfuel
    match ps, hps with
    | c :: ps', _ =>
      have hvdcs : validComps dcs = true := validComps_of_append_left hv
      have hvc : validComp c = true := by
        have := validComps_of_append_right hv
        simp [validComps] at this
        exact this.1
      have hvfull : validComps (dcs ++ [c]) = true :=
        validComps_append hvdcs (by simp [validComps, hvc])
      have hassoc : dcs ++ c :: ps' = (dcs ++ [c]) ++ ps' := by
        simp
      have hex : ∃ n, lookupFS fs (mkPath (dcs ++ [c])) = some n := by
        by_cases hps' : ps' = []
        · subst hps'
          exact ⟨_, hl⟩
        · exact ⟨.dir, wf_prefix_dir hwf (dcs ++ [c]) (by simp) ps'
            hps' (by rwa [← hassoc])
            ⟨_, by rw [← hassoc]; exact hl⟩⟩
      have hc : c ∈ childrenNames fs (mkPath dcs) :=
        (mem_childrenNames_iff hwf dcs hvdcs c).mpr ⟨hvc, hex⟩
      rw [dfsFiles, List.mem_flatMap]
      refine ⟨c, hc, ?_⟩
      have hjc : joinChild (mkPath dcs) c = mkPath (dcs ++ [c]) :=
        joinChild_mkPath dcs c hvdcs
      show (mkPath (dcs ++ c :: ps'), bs) ∈
        (match lookupFS fs (joinChild (mkPath dcs) c) with
         | some .dir => dfsFiles fs fuel (joinChild (mkPath dcs) c)
         | some (.file bs) => [(joinChild (mkPath dcs) c, bs)]
         | _ => ([] : List (Path × List Nat)))
      rw [hjc]
      by_cases hps' : ps' = []
      · subst hps'
        rw [hl]
        simp
      · have hdir : lookupFS fs (mkPath (dcs ++ [c])) = some .dir :=
          wf_prefix_dir hwf (dcs ++ [c]) (by simp) ps' hps'
            (by rwa [← hassoc]) ⟨_, by rw [← hassoc]; exact hl⟩
        rw [hdir]
        have hres := ih (dcs ++ [c]) ps' bs (by rwa [← hassoc]) hps'
          (by rw [← hassoc]; exact hl)
          (by simp [List.length_append]; omega)
        rw [← hassoc] at hres
        exact hres

/-- The paths listed by `dfsFiles` are pairwise distinct. -/
theorem dfsFiles_nodup {fs : FS} (hwf : wfFS fs) (hns : noSymlinks fs) :
    ∀ (fuel : Nat) (dcs : List Comp), validComps dcs = true →
      (dfsFiles fs fuel (mkPath dcs)).Pairwise
        (fun a b => a.1 ≠ b.1) := by
  intro fuel
  induction fuel with
  | zero => intro dcs _; exact List.Pairwise.nil
  | succ fuel ih =>
    intro dcs hv
    rw [dfsFiles, List.pairwise_flatMap]
    have hshape : ∀ c ∈ childrenNames fs (mkPath dcs),
        ∀ x ∈ (match lookupFS fs (joinChild (mkPath dcs) c) with
          | some .dir => dfsFiles fs fuel (joinChild (mkPath dcs) c)
          | some (.file bs) => [(joinChild (mkPath dcs) c, bs)]
          | _ => ([] : List (Path × List Nat))),
        ∃ u, x.1 = mkPath ((dcs ++ [c]) ++ u) ∧
          validComps ((dcs ++ [c]) ++ u) = true := by
      intro c hc x hx
      obtain ⟨hvc, nd, hnode⟩ :=
        (mem_childrenNames_iff hwf dcs hv c).mp hc
      have hjc : joinChild (mkPath dcs) c = mkPath (dcs ++ [c]) :=
        joinChild_mkPath dcs c hv
      have hvfull : validComps (dcs ++ [c]) = true :=
        validComps_append hv (by simp [validComps, hvc])
      rw [hjc, hnode] at hx
      match nd, hnode, hx with
      | .dir, hnode, hx =>
        obtain ⟨ps, hpsne, hp1, hpv, hpl⟩ :=
          dfsFiles_shape hwf hns fuel (dcs ++ [c]) hvfull x hx
        exact ⟨ps, hp1, hpv⟩
      | .file bs, hnode, hx =>
        rw [List.mem_singleton] at hx
        subst hx
        exact ⟨[], by simp, by simpa using hvfull⟩
      | .symlink t, hnode, hx =>
        exact absurd hnode
          (fun hh => not_symlink_of_noSymlinks hwf hns hh)
    constructor
    · intro c hc
      obtain ⟨hvc, nd, hnode⟩ :=
        (mem_childrenNames_iff hwf dcs hv c).mp hc
      have hjc : joinChild (mkPath dcs) c = mkPath (dcs ++ [c]) :=
        joinChild_mkPath dcs c hv
      have hvfull : validComps (dcs ++ [c]) = true :=
        validComps_append hv (by simp [validComps, hvc])
      show ((match lookupFS fs (joinChild (mkPath dcs) c) with
        | some .dir => dfsFiles fs fuel (joinChild (mkPath dcs) c)
        | some (.file bs) => [(joinChild (mkPath dcs) c, bs)]
        | _ => ([] : List (Path × List Nat)))).Pairwise
          (fun (a b : Path × List Nat) => a.1 ≠ b.1)
      rw [hjc, hnode]
      match nd, hnode with
      | .dir, hnode => exact ih (dcs ++ [c]) hvfull
      | .file bs, hnode => simp
      | .symlink t, hnode =>
        exact absurd hnode
          (fun hh => not_symlink_of_noSymlinks hwf hns hh)
    · have hnodup : (childrenNames fs (mkPath dcs)).Pairwise (· ≠ ·) :=
        nodup_childrenNames hwf (mkPath dcs)
      refine List.Pairwise.imp_of_mem ?_ hnodup
      intro c₁ c₂ hc₁ hc₂ hne x hx y hy
      obtain ⟨u, hxu, hxv⟩ := hshape c₁ hc₁ x hx
      obtain ⟨v, hyu, hyv⟩ := hshape c₂ hc₂ y hy
      rw [hxu, hyu]
      intro heq
      have hl := mkPath_injective hxv hyv heq
      rw [List.append_assoc, List.append_assoc] at hl
      have hl₂ := List.append_cancel_left hl
      rw [List.singleton_append, List.singleton_append] at hl₂
      have : c₁ = c₂ := by injection hl₂
      exact hne this

/-! ## Lemmas: the compression pipeline on a symlink-free tree -/

theorem splitDirPart_subset (p : Path) : ∀ x ∈ splitDirPart p, x ∈ p := by
  intro x hx
  rw [splitDirPart, List.mem_reverse] at hx
  have hsub : List.Sublist (p.reverse.dropWhile (fun c => c ≠ '/'))
      p.reverse :=
    List.dropWhile_sublist _
  have hx2 := hsub.subset hx
  rwa [List.mem_reverse] at hx2

theorem stripTrailingSlashes_valid (cs : List Comp) (hne : cs ≠ [])
    (hv : validComps cs = true) :
    stripTrailingSlashes (mkPath cs) = mkPath cs := by
  have hsnoc : cs.dropLast ++ [cs.getLast hne] = cs :=
    List.dropLast_append_getLast hne
  have hvlast : validComp (cs.getLast hne) = true := by
    have := List.all_eq_true.mp hv _ (List.getLast_mem hne)
    simpa using this
  conv_lhs => rw [← hsnoc]
  rw [stripTrailingSlashes_mkPath _ _ hvlast, hsnoc]

/-- `targz.compress` on a symlink-free star-free tree: reads the top
directory, creates the archive file, and stores the encoded entry
stream produced by the recursive writer. -/
theorem compressFn_ok {fs : FS} (hwf : wfFS fs) (hns : noSymlinks fs)
    (hst : noStars fs) (dcs acs scs : List Comp) (fuel : Nat)
    (hvd : validComps dcs = true) (hdne : dcs ≠ [])
    (hdir : lookupFS fs (mkPath dcs) = some .dir)
    (hva : validComps acs = true) (hane : acs ≠ [])
    (hstara : '*' ∉ mkPath acs)
    (hAfresh : lookupFS fs (mkPath acs) = none)
    (hApar : lookupFS fs (mkPath acs.dropLast) = some .dir)
    (hvs : validComps scs = true)
    (hspex : ∃ n, lookupFS fs (mkPath scs) = some n)
    (hchild : childrenNames fs (mkPath dcs) ≠ [])
    (hfuelD : dcs.length < fuel) (hfuelA : acs.length < fuel)
    (hfuelW : 2 * max acs.length (maxDepth fs) + 3 ≤
      fuel + dcs.length) :
    compressFn fs fuel (mkPath dcs) (mkPath acs) (mkPath scs) =
      (.ok (), setContent (fsInsert fs (mkPath acs) (.file []))
        (mkPath acs)
        (encode ((dfsFiles (fsInsert fs (mkPath acs) (.file []))
          fuel (mkPath dcs)).map (entryOf (mkPath scs))))) := by
  have hread := readDirEx_nosym hwf hns dcs fuel hvd hdir hfuelD
  have hDA : mkPath dcs ≠ mkPath acs := by
    intro h
    rw [h, hAfresh] at hdir
    cases hdir
  have hsnocA : acs.dropLast ++ [acs.getLast hane] = acs :=
    List.dropLast_append_getLast hane
  have hvalast : validComp (acs.getLast hane) = true := by
    have := List.all_eq_true.mp hva _ (List.getLast_mem hane)
    simpa using this
  have hvadl : validComps acs.dropLast = true := by
    rw [List.dropLast_eq_take]; exact validComps_take _ _ hva
  have hcreate : createFile fs fuel (mkPath acs) =
      .ok (fsInsert fs (mkPath acs) (.file []), mkPath acs) := by
    have h0 := createFile_fresh hwf hns acs.dropLast (acs.getLast hane)
      fuel (by rw [hsnocA]; exact hva) hApar
      (by rw [hsnocA]; exact Or.inl hAfresh)
      (by rw [List.length_dropLast]; omega)
    rw [hsnocA] at h0
    exact h0
  have hconsA : fsInsert fs (mkPath acs) (.file []) =
      (mkPath acs, Node.file []) :: fs := fsInsert_fresh hAfresh _
  have hAroot : mkPath acs ≠ root := mkPath_ne_root acs hva hane
  have hdpA : dirP (mkPath acs) = mkPath acs.dropLast := by
    conv_lhs => rw [← hsnocA]
    exact dirP_mkPath _ _ (by rw [hsnocA]; exact hva)
  have hwf₁ : wfFS (fsInsert fs (mkPath acs) (.file [])) :=
    wf_insert hwf acs (.file []) hva hane
      (by rw [hdpA]; exact hApar)
      (Or.inl hAfresh)
  have hns₁ : noSymlinks (fsInsert fs (mkPath acs) (.file [])) :=
    noSymlinks_insert hns _ _ (by simp [Node.isLink])
  have hst₁ : noStars (fsInsert fs (mkPath acs) (.file [])) :=
    noStars_insert hst _ _ hstara
  have hmax₁ : maxDepth (fsInsert fs (mkPath acs) (.file [])) =
      max acs.length (maxDepth fs) := by
    rw [hconsA, maxDepth_cons, comps_mkPath acs hva]
  have hdir₁ : lookupFS (fsInsert fs (mkPath acs) (.file []))
      (mkPath dcs) = some .dir := by
    rw [lookupFS_insert_ne _ _ _ _ hDA]
    exact hdir
  have hspex₁ : ∃ n, lookupFS (fsInsert fs (mkPath acs) (.file []))
      (mkPath scs) = some n := by
    by_cases h : mkPath scs = mkPath acs
    · refine ⟨.file [], ?_⟩
      rw [h]
      exact lookupFS_insert_self _ _ _ hAroot
    · obtain ⟨n, hn⟩ := hspex
      refine ⟨n, ?_⟩
      rw [lookupFS_insert_ne _ _ _ _ h]
      exact hn
  have hwrite := writeDirectory_nosym hwf₁ hns₁ hst₁ scs hvs hspex₁
    fuel dcs hvd hdir₁
    (by rw [hmax₁]; omega)
    (by
      have := depth_le_maxDepth hwf₁ hvd hdne hdir₁
      omega)
  have h1 : compressFn fs fuel (mkPath dcs) (mkPath acs)
      (mkPath scs) =
      (match readDirEx fs fuel (mkPath dcs) with
       | .error e => ((.error e : Except Err Unit), fs)
       | .ok (_, files) =>
         if files.length = 0 then (.error .emptySource, fs)
         else
           match createFile fs fuel (mkPath acs) with
           | .error e => (.error e, fs)
           | .ok (fs₁, handle) =>
             match writeDirectory fs₁ fuel (mkPath dcs)
                 (mkPath scs) with
             | .error e => (.error e, fsRemove fs₁ (mkPath acs))
             | .ok es => (.ok (), setContent fs₁ handle
                 (encode es))) := rfl
  rw [h1, hread]
  show (if (childrenNames fs (mkPath dcs)).length = 0 then
      ((.error .emptySource : Except Err Unit), fs)
    else
      match createFile fs fuel (mkPath acs) with
      | .error e => (.error e, fs)
      | .ok (fs₁, handle) =>
        match writeDirectory fs₁ fuel (mkPath dcs) (mkPath scs) with
        | .error e => (.error e, fsRemove fs₁ (mkPath acs))
        | .ok es => (.ok (), setContent fs₁ handle (encode es))) = _
  rw [if_neg (by
    intro h
    exact hchild (List.length_eq_zero.mp h))]
  rw [hcreate]
  show (match writeDirectory (fsInsert fs (mkPath acs) (.file []))
      fuel (mkPath dcs) (mkPath scs) with
    | .error e => ((.error e : Except Err Unit),
        fsRemove (fsInsert fs (mkPath acs) (.file [])) (mkPath acs))
    | .ok es => (.ok (), setContent
        (fsInsert fs (mkPath acs) (.file [])) (mkPath acs)
        (encode es))) = _
  rw [hwrite]

/-- `targz.Compress` on a symlink-free star-free tree with an archive
path in an existing directory outside the tree: succeeds and writes the
encoded archive of the recursively collected files, with entry names
relative to the parent of the source directory. -/
theorem Compress_ok {fs : FS} (hwf : wfFS fs) (hns : noSymlinks fs)
    (hst : noStars fs) (cwd : Option Path) (dcs acs : List Comp)
    (fuel : Nat)
    (hvd : validComps dcs = true) (hdne : dcs ≠ [])
    (hdir : lookupFS fs (mkPath dcs) = some .dir)
    (hva : validComps acs = true) (hane : acs ≠ [])
    (hstara : '*' ∉ mkPath acs)
    (hAfresh : lookupFS fs (mkPath acs) = none)
    (hApar : lookupFS fs (mkPath acs.dropLast) = some .dir)
    (hchild : childrenNames fs (mkPath dcs) ≠ [])
    (hfuelD : dcs.length < fuel) (hfuelA : acs.length < fuel)
    (hfuelW : 2 * max acs.length (maxDepth fs) + 3 ≤
      fuel + dcs.length) :
    Compress cwd fs fuel (mkPath dcs) (mkPath acs) =
      (.ok (), setContent (fsInsert fs (mkPath acs) (.file []))
        (mkPath acs)
        (encode ((dfsFiles (fsInsert fs (mkPath acs) (.file []))
          fuel (mkPath dcs)).map
            (entryOf (mkPath dcs.dropLast))))) := by
  have hstarD : '*' ∉ mkPath dcs :=
    star_free_key hst (mkPath_ne_root dcs hvd hdne) hdir
  have hstrip := stripTrailingSlashes_valid dcs hdne hvd
  have habs : ∀ cs, validComps cs = true →
      absPath cwd (mkPath cs) = .ok (mkPath cs) := by
    intro cs hv
    show (if isAbs (mkPath cs) then
        (.ok (clean (mkPath cs)) : Except Err Path)
      else
        match cwd with
        | some w => .ok (join2 w (mkPath cs))
        | none => .error .absFail) = _
    rw [if_pos (isAbs_mkPath cs), clean_mkPath cs hv]
  have hmkabs : makeAbsolute cwd (mkPath dcs) (mkPath acs) =
      .ok (mkPath dcs, mkPath acs) := by
    rw [makeAbsolute, habs dcs hvd]
    show (do
      let o ← absPath cwd (mkPath acs)
      pure (mkPath dcs, o) : Except Err (Path × Path)) = _
    rw [habs acs hva]
    rfl
  have hsnocD : dcs.dropLast ++ [dcs.getLast hdne] = dcs :=
    List.dropLast_append_getLast hdne
  have hsnocA : acs.dropLast ++ [acs.getLast hane] = acs :=
    List.dropLast_append_getLast hane
  have hdpD : dirP (mkPath dcs) = mkPath dcs.dropLast := by
    conv_lhs => rw [← hsnocD]
    exact dirP_mkPath _ _ (by rw [hsnocD]; exact hvd)
  have hdpA : dirP (mkPath acs) = mkPath acs.dropLast := by
    conv_lhs => rw [← hsnocA]
    exact dirP_mkPath _ _ (by rw [hsnocA]; exact hva)
  have hvddl : validComps dcs.dropLast = true := by
    rw [List.dropLast_eq_take]; exact validComps_take _ _ hvd
  have hvadl : validComps acs.dropLast = true := by
    rw [List.dropLast_eq_take]; exact validComps_take _ _ hva
  have hmkall : mkdirAll fs fuel (mkPath acs.dropLast) =
      .ok (none, fs) :=
    mkdirAll_noop hwf hns acs.dropLast fuel hvadl hApar
      (by rw [List.length_dropLast]; omega)
  have hstarDdir : ¬ '*' ∈ splitDirPart (mkPath dcs) :=
    fun h => hstarD (splitDirPart_subset _ _ h)
  have hspexS : ∃ n, lookupFS fs (mkPath dcs.dropLast) = some n := by
    by_cases h : dcs.dropLast = []
    · rw [h]
      exact ⟨.dir, by rw [show mkPath [] = root from rfl, lookupFS,
        if_pos rfl]⟩
    · refine ⟨.dir, ?_⟩
      have := wf_parent_dir hwf (mkPath_ne_root dcs hvd hdne) hdir
      rwa [hdpD] at this
  have hcfn := compressFn_ok hwf hns hst dcs acs dcs.dropLast fuel
    hvd hdne hdir hva hane hstara hAfresh hApar hvddl hspexS hchild
    hfuelD hfuelA hfuelW
  have h1 : Compress cwd fs fuel (mkPath dcs) (mkPath acs) =
      (match makeAbsolute cwd (stripTrailingSlashes (mkPath dcs))
          (mkPath acs) with
       | .error e => ((.error e : Except Err Unit), fs)
       | .ok (inputFilePath, outputFilePath) =>
         match mkdirAll fs fuel (dirP outputFilePath) with
         | .error e => (.error e, fs)
         | .ok (undoDir, fs₁) =>
           if '*' ∈ splitDirPart inputFilePath then
             (.error .invalidWildcard, applyUndo fs₁ undoDir)
           else
             let pair :=
               if '*' ∈ inputFilePath then
                 (inputFilePath.dropLast, inputFilePath.dropLast)
               else (inputFilePath, dirP inputFilePath)
             match compressFn fs₁ fuel pair.1 outputFilePath
                 pair.2 with
             | (.ok _, fs₂) => (.ok (), fs₂)
             | (.error e, fs₂) =>
               (.error e, applyUndo fs₂ undoDir)) := rfl
  rw [h1, hstrip, hmkabs]
  show (match mkdirAll fs fuel (dirP (mkPath acs)) with
    | .error e => ((.error e : Except Err Unit), fs)
    | .ok (undoDir, fs₁) =>
      if '*' ∈ splitDirPart (mkPath dcs) then
        (.error .invalidWildcard, applyUndo fs₁ undoDir)
      else
        let pair :=
          if '*' ∈ mkPath dcs then
            ((mkPath dcs).dropLast, (mkPath dcs).dropLast)
          else (mkPath dcs, dirP (mkPath dcs))
        match compressFn fs₁ fuel pair.1 (mkPath acs) pair.2 with
        | (.ok _, fs₂) => (.ok (), fs₂)
        | (.error e, fs₂) => (.error e, applyUndo fs₂ undoDir)) = _
  rw [hdpA, hmkall]
  show (if '*' ∈ splitDirPart (mkPath dcs) then
      ((.error .invalidWildcard : Except Err Unit), applyUndo fs none)
    else
      let pair :=
        if '*' ∈ mkPath dcs then
          ((mkPath dcs).dropLast, (mkPath dcs).dropLast)
        else (mkPath dcs, dirP (mkPath dcs))
      match compressFn fs fuel pair.1 (mkPath acs) pair.2 with
      | (.ok _, fs₂) => (.ok (), fs₂)
      | (.error e, fs₂) => (.error e, applyUndo fs₂ none)) = _
  rw [if_neg hstarDdir]
  show (match compressFn fs fuel
      ((if '*' ∈ mkPath dcs then
        ((mkPath dcs).dropLast, (mkPath dcs).dropLast)
      else (mkPath dcs, dirP (mkPath dcs)))).1 (mkPath acs)
      ((if '*' ∈ mkPath dcs then
        ((mkPath dcs).dropLast, (mkPath dcs).dropLast)
      else (mkPath dcs, dirP (mkPath dcs)))).2 with
    | (.ok _, fs₂) => ((.ok () : Except Err Unit), fs₂)
    | (.error e, fs₂) => (.error e, applyUndo fs₂ none)) = _
  rw [if_neg hstarD]
  show (match compressFn fs fuel (mkPath dcs) (mkPath acs)
      (dirP (mkPath dcs)) with
    | (.ok _, fs₂) => ((.ok () : Except Err Unit), fs₂)
    | (.error e, fs₂) => (.error e, applyUndo fs₂ none)) = _
  rw [hdpD, hcfn]

/-- `targz.Extract` into a fresh output directory (parent existing) of
an archive encoding a list of well-shaped entries: succeeds, creates
exactly the entry files and their directory chains under the output
directory, and touches nothing else. -/
theorem Extract_ok {fs : FS} (hwf : wfFS fs) (hns : noSymlinks fs)
    (hst : noStars fs) (cwd : Option Path) (acs ocs : List Comp)
    (es : List Entry) (fuel : Nat)
    (hva : validComps acs = true) (hane : acs ≠ [])
    (harch : lookupFS fs (mkPath acs) = some (.file (encode es)))
    (hvo : validComps ocs = true) (hone : ocs ≠ [])
    (hstaro : '*' ∉ mkPath ocs)
    (hOfresh : lookupFS fs (mkPath ocs) = none)
    (hOpar : lookupFS fs (mkPath ocs.dropLast) = some .dir)
    (hes : ∀ e ∈ es, validComps (comps e.name) = true ∧
      comps e.name ≠ [] ∧
      (e.name = mkPath (comps e.name) ∨
        e.name = joinComps (comps e.name)) ∧
      '*' ∉ e.name ∧ ocs.length + (comps e.name).length + 2 ≤ fuel)
    (hsep : (es.map (fun e => comps e.name)).Pairwise
      (fun a b => compPrefix a b = false ∧ compPrefix b a = false ∧
        a ≠ b))
    (hfuelO : ocs.length + 1 < fuel) (hfuelA : acs.length < fuel) :
    ∃ fs₂, Extract cwd fs fuel (mkPath acs) (mkPath ocs) =
        (.ok (), fs₂) ∧
      wfFS fs₂ ∧ noSymlinks fs₂ ∧ noStars fs₂ ∧
      (∀ rest, validComps rest = true →
        lookupFS fs₂ (mkPath (ocs ++ rest)) =
          (if rest = [] then some .dir
           else extNode (es.map (fun e => (comps e.name, e.content)))
             rest)) ∧
      (∀ q, pathUnder (mkPath ocs) q = false →
        lookupFS fs₂ q = lookupFS fs q) := by
  have hOroot : mkPath ocs ≠ root := mkPath_ne_root ocs hvo hone
  have hAO : mkPath acs ≠ mkPath ocs := by
    intro h
    rw [h, hOfresh] at harch
    cases harch
  have hstrip := stripTrailingSlashes_valid ocs hone hvo
  have habs : ∀ cs, validComps cs = true →
      absPath cwd (mkPath cs) = .ok (mkPath cs) := by
    intro cs hv
    show (if isAbs (mkPath cs) then
        (.ok (clean (mkPath cs)) : Except Err Path)
      else
        match cwd with
        | some w => .ok (join2 w (mkPath cs))
        | none => .error .absFail) = _
    rw [if_pos (isAbs_mkPath cs), clean_mkPath cs hv]
  have hmkabs : makeAbsolute cwd (mkPath acs) (mkPath ocs) =
      .ok (mkPath acs, mkPath ocs) := by
    rw [makeAbsolute, habs acs hva]
    show (do
      let o ← absPath cwd (mkPath ocs)
      pure (mkPath acs, o) : Except Err (Path × Path)) = _
    rw [habs ocs hvo]
    rfl
  have hmkall : mkdirAll fs fuel (mkPath ocs) =
      .ok (some (mkPath ocs), fsInsert fs (mkPath ocs) .dir) :=
    mkdirAll_fresh hwf hns ocs fuel hone hvo hOfresh hOpar hfuelO
  have hsnocO : ocs.dropLast ++ [ocs.getLast hone] = ocs :=
    List.dropLast_append_getLast hone
  have hdpO : dirP (mkPath ocs) = mkPath ocs.dropLast := by
    conv_lhs => rw [← hsnocO]
    exact dirP_mkPath _ _ (by rw [hsnocO]; exact hvo)
  have hwf₁ : wfFS (fsInsert fs (mkPath ocs) .dir) :=
    wf_insert hwf ocs .dir hvo hone (by rw [hdpO]; exact hOpar)
      (Or.inl hOfresh)
  have hns₁ : noSymlinks (fsInsert fs (mkPath ocs) .dir) :=
    noSymlinks_insert hns _ _ (by simp [Node.isLink])
  have hst₁ : noStars (fsInsert fs (mkPath ocs) .dir) :=
    noStars_insert hst _ _ hstaro
  have hA₁ : lookupFS (fsInsert fs (mkPath ocs) .dir) (mkPath acs) =
      some (.file (encode es)) := by
    rw [lookupFS_insert_ne _ _ _ _ hAO]
    exact harch
  have hres : resolvePath (fsInsert fs (mkPath ocs) .dir) fuel
      (mkPath acs) = .ok (mkPath acs) :=
    resolvePath_nosym hwf₁ hns₁ acs fuel hva ⟨_, hA₁⟩ hfuelA
  have hho : ∀ rest, validComps rest = true →
      lookupFS (fsInsert fs (mkPath ocs) .dir)
        (mkPath (ocs ++ rest)) =
        (if rest = [] then some .dir
         else extNode ([] : List (List Comp × List Nat)) rest) := by
    intro rest hvrest
    by_cases hr0 : rest = []
    · subst hr0
      rw [if_pos rfl]
      rw [show ocs ++ ([] : List Comp) = ocs by simp]
      exact lookupFS_insert_self _ _ _ hOroot
    · rw [if_neg hr0]
      have hne : mkPath (ocs ++ rest) ≠ mkPath ocs := by
        intro h
        have h2 := mkPath_injective (validComps_append hvo hvrest)
          hvo h
        have := congrArg List.length h2
        rw [List.length_append] at this
        have : rest.length ≠ 0 := fun hh =>
          hr0 (List.length_eq_zero.mp hh)
        omega
      rw [lookupFS_insert_ne _ _ _ _ hne]
      rw [wf_missing_below hwf ocs rest hone hr0
        (validComps_append hvo hvrest) hOfresh]
      rfl
  obtain ⟨fsE, hrunE, hwfE, hnsE, hstE, hhoE, houtE⟩ :=
    extractEntries_ok hone hvo hstaro es
      (fsInsert fs (mkPath ocs) .dir) [] fuel hwf₁ hns₁ hst₁ hes
      (by simpa using hsep) hho
  have hfn : extractFn (fsInsert fs (mkPath ocs) .dir) fuel
      (mkPath acs) (mkPath ocs) = (.ok (), fsE) := by
    show (match resolvePath (fsInsert fs (mkPath ocs) .dir) fuel
        (mkPath acs) with
      | .error e => ((.error e : Except Err Unit),
          fsInsert fs (mkPath ocs) .dir)
      | .ok r =>
        match lookupFS (fsInsert fs (mkPath ocs) .dir) r with
        | some (.file bs) =>
          match decode bs with
          | none => (.error .formatError,
              fsInsert fs (mkPath ocs) .dir)
          | some es₂ => extractEntries
              (fsInsert fs (mkPath ocs) .dir) fuel es₂ (mkPath ocs)
        | some .dir => (.error .eisdir, fsInsert fs (mkPath ocs) .dir)
        | _ => (.error .enoent, fsInsert fs (mkPath ocs) .dir)) =
      (.ok (), fsE)
    rw [hres]
    show (match lookupFS (fsInsert fs (mkPath ocs) .dir)
        (mkPath acs) with
      | some (.file bs) =>
        match decode bs with
        | none => ((.error .formatError : Except Err Unit),
            fsInsert fs (mkPath ocs) .dir)
        | some es₂ => extractEntries
            (fsInsert fs (mkPath ocs) .dir) fuel es₂ (mkPath ocs)
      | some .dir => (.error .eisdir, fsInsert fs (mkPath ocs) .dir)
      | _ => (.error .enoent, fsInsert fs (mkPath ocs) .dir)) =
      (.ok (), fsE)
    rw [hA₁]
    show (match decode (encode es) with
      | none => ((.error .formatError : Except Err Unit),
          fsInsert fs (mkPath ocs) .dir)
      | some es₂ => extractEntries
          (fsInsert fs (mkPath ocs) .dir) fuel es₂ (mkPath ocs)) =
      (.ok (), fsE)
    rw [decode_encode]
    exact hrunE
  refine ⟨fsE, ?_, hwfE, hnsE, hstE, hhoE, ?_⟩
  · have h1 : Extract cwd fs fuel (mkPath acs) (mkPath ocs) =
        (match makeAbsolute cwd (mkPath acs)
            (stripTrailingSlashes (mkPath ocs)) with
         | .error e => ((.error e : Except Err Unit), fs)
         | .ok (inputFilePath, outputFilePath) =>
           match mkdirAll fs fuel outputFilePath with
           | .error e => (.error e, fs)
           | .ok (undoDir, fs₁) =>
             match extractFn fs₁ fuel inputFilePath
                 outputFilePath with
             | (.ok _, fs₂) => (.ok (), fs₂)
             | (.error e, fs₂) =>
               (.error e, applyUndo fs₂ undoDir)) := rfl
    rw [h1, hstrip, hmkabs]
    show (match mkdirAll fs fuel (mkPath ocs) with
      | .error e => ((.error e : Except Err Unit), fs)
      | .ok (undoDir, fs₁) =>
        match extractFn fs₁ fuel (mkPath acs) (mkPath ocs) with
        | (.ok _, fs₂) => (.ok (), fs₂)
        | (.error e, fs₂) => (.error e, applyUndo fs₂ undoDir)) = _
    rw [hmkall]
    show (match extractFn (fsInsert fs (mkPath ocs) .dir) fuel
        (mkPath acs) (mkPath ocs) with
      | (.ok _, fs₂) => ((.ok () : Except Err Unit), fs₂)
      | (.error e, fs₂) =>
        (.error e, applyUndo fs₂ (some (mkPath ocs)))) = _
    rw [hfn]
  · intro q hq
    rw [houtE q hq]
    have hqO : q ≠ mkPath ocs := by
      intro h
      subst h
      rw [pathUnder_self] at hq
      cases hq
    exact lookupFS_insert_ne _ _ _ _ hqO

/-- A path free of a character has a free suffix. -/
theorem star_mkPath_suffix (as bs : List Comp)
    (h : '*' ∉ mkPath (as ++ bs)) : '*' ∉ mkPath bs := by
  by_cases hane : as = []
  · subst hane; simpa using h
  by_cases hbne : bs = []
  · subst hbne; decide
  · intro hmem
    apply h
    rw [mkPath] at hmem ⊢
    rcases List.mem_cons.mp hmem with hh | hh
    · exact List.mem_cons.mpr (Or.inl hh)
    · refine List.mem_cons.mpr (Or.inr ?_)
      rw [joinComps_append as bs hane hbne]
      exact List.mem_append_right _ (List.mem_cons.mpr (Or.inr hh))

/-- The name the archive writer gives a file under the source
directory: the path with the sub-path prefix (the parent of the source
directory) removed; its components are the source directory's basename
followed by the relative path, and it is the absolute rendering of
those components unless the source directory sits directly under the
root (in which case it is the relative rendering). -/
theorem entry_name_comps (dcs u : List Comp) (hdne : dcs ≠ [])
    (hv : validComps (dcs ++ u) = true) :
    comps ((mkPath (dcs ++ u)).drop (mkPath dcs.dropLast).length) =
      dcs.getLast hdne :: u ∧
    ((mkPath (dcs ++ u)).drop (mkPath dcs.dropLast).length =
        mkPath (dcs.getLast hdne :: u) ∨
      (mkPath (dcs ++ u)).drop (mkPath dcs.dropLast).length =
        joinComps (dcs.getLast hdne :: u)) := by
  have hsnoc : dcs.dropLast ++ [dcs.getLast hdne] = dcs :=
    List.dropLast_append_getLast hdne
  have hsplit : dcs ++ u = dcs.dropLast ++ (dcs.getLast hdne :: u) := by
    conv_lhs => rw [← hsnoc]
    rw [List.append_assoc]
    rfl
  have hvcu : validComps (dcs.getLast hdne :: u) = true := by
    rw [hsplit] at hv
    exact validComps_of_append_right hv
  by_cases hdl : dcs.dropLast = []
  · have hdrop : (mkPath (dcs ++ u)).drop
        (mkPath dcs.dropLast).length =
        joinComps (dcs.getLast hdne :: u) := by
      rw [hsplit, hdl, List.nil_append]
      exact drop_mkPath_root _
    rw [hdrop]
    exact ⟨comps_joinComps _ hvcu, Or.inr rfl⟩
  · have hdrop : (mkPath (dcs ++ u)).drop
        (mkPath dcs.dropLast).length =
        mkPath (dcs.getLast hdne :: u) := by
      rw [hsplit]
      exact drop_mkPath_append _ _ hdl (by simp)
    rw [hdrop]
    exact ⟨comps_mkPath _ hvcu, Or.inl rfl⟩

/-- C1 (amended): round-trip correctness on symlink-free star-free
trees.  Compressing a directory into a fresh archive outside the tree
and extracting the archive into a fresh output directory reproduces,
under `O/<basename(D)>`, exactly the files of `D` with their contents.
(The original claim quantifies over every directory containing a
regular file; a tree holding a symlink to a non-empty file refutes it,
so the symlink-free restriction is required.) -/
theorem roundtrip_files {fs : FS} (hwf : wfFS fs) (hns : noSymlinks fs)
    (hst : noStars fs) (cwd : Option Path)
    (dcs acs ocs ps₀ : List Comp) (bs₀ : List Nat) (fuel : Nat)
    (hvd : validComps dcs = true) (hdne : dcs ≠ [])
    (hdir : lookupFS fs (mkPath dcs) = some .dir)
    (hvps₀ : validComps (dcs ++ ps₀) = true) (hps₀ne : ps₀ ≠ [])
    (hlook₀ : lookupFS fs (mkPath (dcs ++ ps₀)) = some (.file bs₀))
    (hva : validComps acs = true) (hane : acs ≠ [])
    (hstara : '*' ∉ mkPath acs)
    (hAfresh : lookupFS fs (mkPath acs) = none)
    (hApar : lookupFS fs (mkPath acs.dropLast) = some .dir)
    (hADout : pathUnder (mkPath dcs) (mkPath acs) = false)
    (hvo : validComps ocs = true) (hone : ocs ≠ [])
    (hstaro : '*' ∉ mkPath ocs)
    (hOfresh : lookupFS fs (mkPath ocs) = none)
    (hOpar : lookupFS fs (mkPath ocs.dropLast) = some .dir)
    (hOA : ocs ≠ acs)
    (hfuelD : dcs.length < fuel) (hfuelA : acs.length < fuel)
    (hfuelW : 2 * max acs.length (maxDepth fs) + 3 ≤
      fuel + dcs.length)
    (hfuelO : ocs.length + 1 < fuel)
    (hfuelE : ocs.length + max acs.length (maxDepth fs) + 2 ≤ fuel) :
    ∃ fsC fsE,
      Compress cwd fs fuel (mkPath dcs) (mkPath acs) =
        (.ok (), fsC) ∧
      Extract cwd fsC fuel (mkPath acs) (mkPath ocs) =
        (.ok (), fsE) ∧
      ∀ rest, validComps rest = true →
        fileAt fsE (mkPath (ocs ++ dcs.getLast hdne :: rest)) =
          fileAt fs (mkPath (dcs ++ rest)) := by
  have hchild : childrenNames fs (mkPath dcs) ≠ [] := by
    match ps₀, hps₀ne, hvps₀, hlook₀ with
    | c₀ :: ps₀', _, hvps₀, hlook₀ =>
      have hvc₀ : validComp c₀ = true := by
        have := validComps_of_append_right hvps₀
        simp [validComps] at this
        exact this.1
      have hassoc : dcs ++ c₀ :: ps₀' = (dcs ++ [c₀]) ++ ps₀' := by
        simp
      have hex : ∃ n, lookupFS fs (mkPath (dcs ++ [c₀])) = some n := by
        by_cases hp : ps₀' = []
        · subst hp; exact ⟨_, hlook₀⟩
        · exact ⟨.dir, wf_prefix_dir hwf (dcs ++ [c₀]) (by simp) ps₀'
            hp (by rwa [← hassoc])
            ⟨_, by rw [← hassoc]; exact hlook₀⟩⟩
      exact List.ne_nil_of_mem
        ((mem_childrenNames_iff hwf dcs hvd c₀).mpr ⟨hvc₀, hex⟩)
  have hC := Compress_ok hwf hns hst cwd dcs acs fuel hvd hdne hdir
    hva hane hstara hAfresh hApar hchild hfuelD hfuelA hfuelW
  have hAroot : mkPath acs ≠ root := mkPath_ne_root acs hva hane
  have hDA : mkPath dcs ≠ mkPath acs := by
    intro h
    rw [h, hAfresh] at hdir
    cases hdir
  have hsnocA : acs.dropLast ++ [acs.getLast hane] = acs :=
    List.dropLast_append_getLast hane
  have hdpA : dirP (mkPath acs) = mkPath acs.dropLast := by
    conv_lhs => rw [← hsnocA]
    exact dirP_mkPath _ _ (by rw [hsnocA]; exact hva)
  have hwf₁ : wfFS (fsInsert fs (mkPath acs) (.file [])) :=
    wf_insert hwf acs (.file []) hva hane (by rw [hdpA]; exact hApar)
      (Or.inl hAfresh)
  have hns₁ : noSymlinks (fsInsert fs (mkPath acs) (.file [])) :=
    noSymlinks_insert hns _ _ (by simp [Node.isLink])
  have hst₁ : noStars (fsInsert fs (mkPath acs) (.file [])) :=
    noStars_insert hst _ _ hstara
  have hmax₁ : maxDepth (fsInsert fs (mkPath acs) (.file [])) =
      max acs.length (maxDepth fs) := by
    rw [fsInsert_fresh hAfresh _, maxDepth_cons, comps_mkPath acs hva]
  have hdpos : 0 < dcs.length := List.length_pos.mpr hdne
  have hesfacts : ∀ e ∈ (dfsFiles
      (fsInsert fs (mkPath acs) (.file [])) fuel
      (mkPath dcs)).map (entryOf (mkPath dcs.dropLast)),
      validComps (comps e.name) = true ∧ comps e.name ≠ [] ∧
      (e.name = mkPath (comps e.name) ∨
        e.name = joinComps (comps e.name)) ∧
      '*' ∉ e.name ∧
      ocs.length + (comps e.name).length + 2 ≤ fuel := by
    intro e he
    rw [List.mem_map] at he
    obtain ⟨pr, hpr, rfl⟩ := he
    obtain ⟨u, hune, hp1, hpv, hpl⟩ :=
      dfsFiles_shape hwf₁ hns₁ fuel dcs hvd pr hpr
    have hname : (entryOf (mkPath dcs.dropLast) pr).name =
        (mkPath (dcs ++ u)).drop (mkPath dcs.dropLast).length := by
      rw [entryOf, hp1]
    obtain ⟨hcomps, hform⟩ := entry_name_comps dcs u hdne hpv
    rw [hname, hcomps]
    have hvcu : validComps (dcs.getLast hdne :: u) = true := by
      have hsnoc : dcs.dropLast ++ [dcs.getLast hdne] = dcs :=
        List.dropLast_append_getLast hdne
      have hsplit : dcs ++ u =
          dcs.dropLast ++ (dcs.getLast hdne :: u) := by
        conv_lhs => rw [← hsnoc]
        rw [List.append_assoc]
        rfl
      rw [hsplit] at hpv
      exact validComps_of_append_right hpv
    have hdepth := depth_le_maxDepth hwf₁ hpv (by simp [hdne]) hpl
    rw [List.length_append] at hdepth
    refine ⟨hvcu, by simp, hform, ?_, ?_⟩
    · intro hmem
      exact star_free_key hst₁
        (mkPath_ne_root _ hpv (by simp [hdne])) hpl
        (List.mem_of_mem_drop hmem)
    · rw [List.length_cons]
      rw [hmax₁] at hdepth
      omega
  have hsep : (((dfsFiles (fsInsert fs (mkPath acs) (.file []))
      fuel (mkPath dcs)).map
        (entryOf (mkPath dcs.dropLast))).map
      (fun e => comps e.name)).Pairwise
      (fun a b => compPrefix a b = false ∧ compPrefix b a = false ∧
        a ≠ b) := by
    rw [List.map_map, List.pairwise_map]
    have hnd := dfsFiles_nodup hwf₁ hns₁ fuel dcs hvd
    refine List.Pairwise.imp_of_mem ?_ hnd
    intro pr₁ pr₂ h₁ h₂ hne
    obtain ⟨u₁, hu₁ne, hp₁, hv₁, hl₁⟩ :=
      dfsFiles_shape hwf₁ hns₁ fuel dcs hvd pr₁ h₁
    obtain ⟨u₂, hu₂ne, hp₂, hv₂, hl₂⟩ :=
      dfsFiles_shape hwf₁ hns₁ fuel dcs hvd pr₂ h₂
    have hn₁ : comps ((entryOf (mkPath dcs.dropLast) pr₁).name) =
        dcs.getLast hdne :: u₁ := by
      show comps (pr₁.1.drop (mkPath dcs.dropLast).length) = _
      rw [hp₁]
      exact (entry_name_comps dcs u₁ hdne hv₁).1
    have hn₂ : comps ((entryOf (mkPath dcs.dropLast) pr₂).name) =
        dcs.getLast hdne :: u₂ := by
      show comps (pr₂.1.drop (mkPath dcs.dropLast).length) = _
      rw [hp₂]
      exact (entry_name_comps dcs u₂ hdne hv₂).1
    have hgen : ∀ (u v : List Comp) (b₁ b₂ : List Nat),
        validComps (dcs ++ u) = true → validComps (dcs ++ v) = true →
        lookupFS (fsInsert fs (mkPath acs) (.file []))
          (mkPath (dcs ++ u)) = some (.file b₁) →
        lookupFS (fsInsert fs (mkPath acs) (.file []))
          (mkPath (dcs ++ v)) = some (.file b₂) →
        compPrefix (dcs.getLast hdne :: u)
          (dcs.getLast hdne :: v) = false := by
      intro u v b₁ b₂ hvu hvv hlu hlv
      rw [Bool.eq_false_iff]
      intro hcp
      obtain ⟨heq, hlt⟩ := (compPrefix_iff _ _).mp hcp
      rw [List.length_cons, List.take_succ_cons] at heq
      have huv : u = v.take u.length := by injection heq
      rw [List.length_cons, List.length_cons] at hlt
      have hw : dcs ++ v = (dcs ++ u) ++ v.drop u.length := by
        rw [List.append_assoc]
        congr 1
        conv_lhs => rw [← List.take_append_drop u.length v]
        rw [← huv]
      have hwne : v.drop u.length ≠ [] := by
        intro h
        have := congrArg List.length h
        rw [List.length_drop] at this
        simp at this
        omega
      have hnone := wf_file_below hwf₁ (dcs ++ u) (v.drop u.length)
        (by simp [hdne]) hwne (by rw [← hw]; exact hvv) hlu
      rw [← hw, hlv] at hnone
      cases hnone
    show compPrefix (comps ((entryOf (mkPath dcs.dropLast) pr₁).name))
      (comps ((entryOf (mkPath dcs.dropLast) pr₂).name)) = false ∧
      compPrefix (comps ((entryOf (mkPath dcs.dropLast) pr₂).name))
        (comps ((entryOf (mkPath dcs.dropLast) pr₁).name)) = false ∧
      comps ((entryOf (mkPath dcs.dropLast) pr₁).name) ≠
        comps ((entryOf (mkPath dcs.dropLast) pr₂).name)
    rw [hn₁, hn₂]
    refine ⟨hgen u₁ u₂ _ _ hv₁ hv₂ hl₁ hl₂,
      hgen u₂ u₁ _ _ hv₂ hv₁ hl₂ hl₁, ?_⟩
    intro h
    have hu : u₁ = u₂ := by injection h
    apply hne
    rw [hp₁, hp₂, hu]
  have hAparne : mkPath acs.dropLast ≠ mkPath acs := by
    intro h
    rw [h, hAfresh] at hApar
    cases hApar
  have hwfC : wfFS (setContent (fsInsert fs (mkPath acs) (.file []))
      (mkPath acs)
      (encode ((dfsFiles (fsInsert fs (mkPath acs) (.file []))
        fuel (mkPath dcs)).map (entryOf (mkPath dcs.dropLast))))) :=
    wf_insert hwf₁ acs _ hva hane
      (by
        rw [hdpA, lookupFS_insert_ne _ _ _ _ hAparne]
        exact hApar)
      (Or.inr (Or.inl ⟨[], lookupFS_insert_self _ _ _ hAroot⟩))
  have hnsC : noSymlinks (setContent
      (fsInsert fs (mkPath acs) (.file [])) (mkPath acs)
      (encode ((dfsFiles (fsInsert fs (mkPath acs) (.file []))
        fuel (mkPath dcs)).map (entryOf (mkPath dcs.dropLast))))) :=
    noSymlinks_insert hns₁ _ _ (by simp [Node.isLink])
  have hstC : noStars (setContent
      (fsInsert fs (mkPath acs) (.file [])) (mkPath acs)
      (encode ((dfsFiles (fsInsert fs (mkPath acs) (.file []))
        fuel (mkPath dcs)).map (entryOf (mkPath dcs.dropLast))))) :=
    noStars_insert hst₁ _ _ hstara
  have harchC : lookupFS (setContent
      (fsInsert fs (mkPath acs) (.file [])) (mkPath acs)
      (encode ((dfsFiles (fsInsert fs (mkPath acs) (.file []))
        fuel (mkPath dcs)).map (entryOf (mkPath dcs.dropLast)))))
      (mkPath acs) =
      some (.file (encode ((dfsFiles
        (fsInsert fs (mkPath acs) (.file [])) fuel
        (mkPath dcs)).map (entryOf (mkPath dcs.dropLast))))) :=
    lookupFS_insert_self _ _ _ hAroot
  have hOAne : mkPath ocs ≠ mkPath acs := by
    intro h
    exact hOA (mkPath_injective hvo hva h)
  have hOfreshC : lookupFS (setContent
      (fsInsert fs (mkPath acs) (.file [])) (mkPath acs)
      (encode ((dfsFiles (fsInsert fs (mkPath acs) (.file []))
        fuel (mkPath dcs)).map (entryOf (mkPath dcs.dropLast)))))
      (mkPath ocs) = none := by
    rw [setContent, lookupFS_insert_ne _ _ _ _ hOAne,
      lookupFS_insert_ne _ _ _ _ hOAne]
    exact hOfresh
  have hOparne : mkPath ocs.dropLast ≠ mkPath acs := by
    intro h
    rw [h, hAfresh] at hOpar
    cases hOpar
  have hOparC : lookupFS (setContent
      (fsInsert fs (mkPath acs) (.file [])) (mkPath acs)
      (encode ((dfsFiles (fsInsert fs (mkPath acs) (.file []))
        fuel (mkPath dcs)).map (entryOf (mkPath dcs.dropLast)))))
      (mkPath ocs.dropLast) = some .dir := by
    rw [setContent, lookupFS_insert_ne _ _ _ _ hOparne,
      lookupFS_insert_ne _ _ _ _ hOparne]
    exact hOpar
  obtain ⟨fsE, hErun, hwfE, hnsE, hstE, hhoE, houtE⟩ :=
    Extract_ok hwfC hnsC hstC cwd acs ocs _ fuel hva hane harchC
      hvo hone hstaro hOfreshC hOparC hesfacts hsep hfuelO hfuelA
  refine ⟨_, fsE, hC, hErun, ?_⟩
  intro rest hvrest
  have hvlastD : validComp (dcs.getLast hdne) = true := by
    have := List.all_eq_true.mp hvd _ (List.getLast_mem hdne)
    simpa using this
  have hvldrest : validComps (dcs.getLast hdne :: rest) = true :=
    validComps_append (c := [dcs.getLast hdne])
      (by simp [validComps, hvlastD]) hvrest
  have hlook := hhoE (dcs.getLast hdne :: rest) hvldrest
  rw [if_neg (by simp)] at hlook
  have hLHS : fileAt fsE
      (mkPath (ocs ++ dcs.getLast hdne :: rest)) =
      (match extNode (((dfsFiles
          (fsInsert fs (mkPath acs) (.file [])) fuel
          (mkPath dcs)).map (entryOf (mkPath dcs.dropLast))).map
          (fun e => (comps e.name, e.content)))
          (dcs.getLast hdne :: rest) with
       | some (.file bs) => some bs
       | _ => none) := by
    rw [fileAt, hlook]
  rw [hLHS]
  cases hf : (((dfsFiles (fsInsert fs (mkPath acs) (.file []))
      fuel (mkPath dcs)).map (entryOf (mkPath dcs.dropLast))).map
      (fun e => (comps e.name, e.content))).find?
      (fun pr => pr.1 = dcs.getLast hdne :: rest) with
  | some pr' =>
    rw [extNode_eval_some _ _ hf]
    have hmem := List.mem_of_find?_eq_some hf
    have hpr'1 : pr'.1 = dcs.getLast hdne :: rest := by
      simpa using List.find?_some hf
    rw [List.mem_map] at hmem
    obtain ⟨e, hemem, hepair⟩ := hmem
    rw [List.mem_map] at hemem
    obtain ⟨pr, hpr, rfl⟩ := hemem
    obtain ⟨u, hune, hp1, hpv, hpl⟩ :=
      dfsFiles_shape hwf₁ hns₁ fuel dcs hvd pr hpr
    have hn : comps ((entryOf (mkPath dcs.dropLast) pr).name) =
        dcs.getLast hdne :: u := by
      show comps (pr.1.drop (mkPath dcs.dropLast).length) = _
      rw [hp1]
      exact (entry_name_comps dcs u hdne hpv).1
    have hfst := congrArg Prod.fst hepair
    rw [hn] at hfst
    rw [hpr'1] at hfst
    have hu : u = rest := by injection hfst
    subst hu
    have hsnd := congrArg Prod.snd hepair
    have hpne : mkPath (dcs ++ u) ≠ mkPath acs := by
      intro h
      have hpu := (pathUnder_mkPath_iff dcs (dcs ++ u)
        hvd hpv).mpr ⟨u, rfl⟩
      rw [h, hADout] at hpu
      cases hpu
    have hlfs : lookupFS fs (mkPath (dcs ++ u)) =
        some (.file pr.2) := by
      have h2 := hpl
      rwa [lookupFS_insert_ne _ _ _ _ hpne] at h2
    rw [fileAt, hlfs, ← hsnd]
    rfl
  | none =>
    rw [extNode_eval _ _ hf]
    have hL : (match (if (((dfsFiles
        (fsInsert fs (mkPath acs) (.file [])) fuel
        (mkPath dcs)).map (entryOf (mkPath dcs.dropLast))).map
        (fun e => (comps e.name, e.content))).any
        (fun pr => compPrefix (dcs.getLast hdne :: rest) pr.1)
        then some Node.dir else none) with
       | some (.file bs) => some bs
       | _ => (none : Option (List Nat))) = none := by
      by_cases h : (((dfsFiles
          (fsInsert fs (mkPath acs) (.file [])) fuel
          (mkPath dcs)).map (entryOf (mkPath dcs.dropLast))).map
          (fun e => (comps e.name, e.content))).any
          (fun pr => compPrefix (dcs.getLast hdne :: rest) pr.1)
          = true
      · rw [if_pos h]
      · rw [if_neg h]
    rw [hL, fileAt]
    cases hlf : lookupFS fs (mkPath (dcs ++ rest)) with
    | none => rfl
    | some nd =>
      match nd, hlf with
      | .dir, hlf => rfl
      | .symlink t, hlf => rfl
      | .file bs, hlf =>
        exfalso
        by_cases hr0 : rest = []
        · subst hr0
          rw [List.append_nil, hdir] at hlf
          cases hlf
        · have hv : validComps (dcs ++ rest) = true :=
            validComps_append hvd hvrest
          have hpne : mkPath (dcs ++ rest) ≠ mkPath acs := by
            intro h
            have hpu := (pathUnder_mkPath_iff dcs (dcs ++ rest)
              hvd hv).mpr ⟨rest, rfl⟩
            rw [h, hADout] at hpu
            cases hpu
          have hlf₁ : lookupFS (fsInsert fs (mkPath acs) (.file []))
              (mkPath (dcs ++ rest)) = some (.file bs) := by
            rw [lookupFS_insert_ne _ _ _ _ hpne]
            exact hlf
          have hmem := dfsFiles_complete hwf₁ hns₁ fuel dcs rest bs
            hv hr0 hlf₁ (by rw [hmax₁]; omega)
          have hpairmem : ((dcs.getLast hdne :: rest), bs) ∈
              (((dfsFiles (fsInsert fs (mkPath acs) (.file []))
                fuel (mkPath dcs)).map
                  (entryOf (mkPath dcs.dropLast))).map
                (fun e => (comps e.name, e.content))) := by
            rw [List.mem_map]
            refine ⟨entryOf (mkPath dcs.dropLast)
              (mkPath (dcs ++ rest), bs), ?_, ?_⟩
            · rw [List.mem_map]
              exact ⟨_, hmem, rfl⟩
            · show (comps ((mkPath (dcs ++ rest), bs).1.drop
                (mkPath dcs.dropLast).length), bs) = _
              rw [show ((mkPath (dcs ++ rest), bs) :
                  Path × List Nat).1 = mkPath (dcs ++ rest) from rfl]
              rw [(entry_name_comps dcs rest hdne hv).1]
          have hcontr := List.find?_eq_none.mp hf _ hpairmem
          simp at hcontr

/-! ## Lemmas: `mkdirAll` on a blocked chain -/

/-- `targz.mkdirAll` fails with `ENOTDIR` when a component of the
target path exists as a regular file (either a strict ancestor or the
target itself, the latter classified by the stat/lstat pair). -/
theorem mkdirAll_blocked {fs : FS} (hwf : wfFS fs)
    (hns : noSymlinks fs) (pre ds : List Comp) (fuel : Nat)
    {bs : List Nat}
    (hpre : pre ≠ []) (hv : validComps (pre ++ ds) = true)
    (hfile : lookupFS fs (mkPath pre) = some (.file bs))
    (hfuel : pre.length + 1 < fuel) :
    mkdirAll fs fuel (mkPath (pre ++ ds)) = .error .enotdir := by
  obtain ⟨f, rfl⟩ : ∃ f, fuel = f + 1 := ⟨fuel - 1, by omega⟩
  have hloop : mkdirAllLoop fs (f + 1) (mkPath (pre ++ ds)) none =
      .error .enotdir := by
    have hrw : mkdirAllLoop fs (f + 1) (mkPath (pre ++ ds)) none =
        (match statNode fs (f + 1) (mkPath (pre ++ ds)) with
         | .ok finfo =>
           if finfo.isDir then .ok none
           else
             match lstatNode fs (f + 1) (mkPath (pre ++ ds)) with
             | .error e => .error e
             | .ok finfo2 =>
               if finfo2.isDir then .ok none else .error .enotdir
         | .error .enoent =>
           mkdirAllLoop fs f (dirP (mkPath (pre ++ ds)))
             (some (mkPath (pre ++ ds)))
         | .error e => .error e) := rfl
    by_cases hds : ds = []
    · subst hds
      rw [List.append_nil] at hv ⊢
      have hstat : statNode fs (f + 1) (mkPath pre) =
          .ok (.file bs) :=
        statNode_nosym hwf hns hv hfile (by omega)
      rw [List.append_nil] at hrw
      rw [hrw, hstat]
      have hsnoc : pre.dropLast ++ [pre.getLast hpre] = pre :=
        List.dropLast_append_getLast hpre
      have hlstat : lstatNode fs (f + 1) (mkPath pre) =
          .ok (.file bs) := by
        conv_lhs => rw [← hsnoc]
        exact lstatNode_nosym hwf hns pre.dropLast (pre.getLast hpre)
          (by rw [hsnoc]; exact hv) (by rw [hsnoc]; exact hfile)
          (by rw [List.length_dropLast]; omega)
      rw [hlstat]
      rfl
    · have hres : resolvePath fs (f + 1) (mkPath (pre ++ ds)) =
          .error .enotdir :=
        resolvePath_enotdir hwf hns pre ds (f + 1) hpre hds hv hfile
          (by omega)
      have hstat : statNode fs (f + 1) (mkPath (pre ++ ds)) =
          .error .enotdir := by
        rw [statNode, hres]
        rfl
      rw [hrw, hstat]
  rw [mkdirAll]
  rw [hloop]
  rfl

/-- C9: `targz.handleErrorInDefer` terminates the calling process with
exit code 1 on any non-nil cleanup error, instead of returning the
error to the caller — the library exits the process on a cleanup
failure, contradicting the specification's requirement that the
secondary failure be surfaced without terminating the process. -/
theorem C9_cleanup_exits_process (e : Err) :
    handleErrorInDefer (some e) = .exitProcess 1 ∧
    handleErrorInDefer none = .normal := ⟨rfl, rfl⟩

/-- C3: compressing a directory with zero entries fails with the
empty-source error before the output archive file is created: the
filesystem is returned unchanged, and in particular no file exists at
the output path afterwards. -/
theorem C3_empty_source {fs : FS} (hwf : wfFS fs) (hns : noSymlinks fs)
    (hst : noStars fs) (cwd : Option Path) (dcs acs : List Comp)
    (fuel : Nat)
    (hvd : validComps dcs = true) (hdne : dcs ≠ [])
    (hdir : lookupFS fs (mkPath dcs) = some .dir)
    (hempty : childrenNames fs (mkPath dcs) = [])
    (hva : validComps acs = true) (hane : acs ≠ [])
    (hAfresh : lookupFS fs (mkPath acs) = none)
    (hApar : lookupFS fs (mkPath acs.dropLast) = some .dir)
    (hfuelD : dcs.length < fuel) (hfuelA : acs.length < fuel) :
    Compress cwd fs fuel (mkPath dcs) (mkPath acs) =
      (.error .emptySource, fs) ∧
    lookupFS fs (mkPath acs) = none := by
  refine ⟨?_, hAfresh⟩
  have hstarD : '*' ∉ mkPath dcs :=
    star_free_key hst (mkPath_ne_root dcs hvd hdne) hdir
  have hstrip := stripTrailingSlashes_valid dcs hdne hvd
  have habs : ∀ cs, validComps cs = true →
      absPath cwd (mkPath cs) = .ok (mkPath cs) := by
    intro cs hv
    show (if isAbs (mkPath cs) then
        (.ok (clean (mkPath cs)) : Except Err Path)
      else
        match cwd with
        | some w => .ok (join2 w (mkPath cs))
        | none => .error .absFail) = _
    rw [if_pos (isAbs_mkPath cs), clean_mkPath cs hv]
  have hmkabs : makeAbsolute cwd (mkPath dcs) (mkPath acs) =
      .ok (mkPath dcs, mkPath acs) := by
    rw [makeAbsolute, habs dcs hvd]
    show (do
      let o ← absPath cwd (mkPath acs)
      pure (mkPath dcs, o) : Except Err (Path × Path)) = _
    rw [habs acs hva]
    rfl
  have hsnocD : dcs.dropLast ++ [dcs.getLast hdne] = dcs :=
    List.dropLast_append_getLast hdne
  have hsnocA : acs.dropLast ++ [acs.getLast hane] = acs :=
    List.dropLast_append_getLast hane
  have hdpD : dirP (mkPath dcs) = mkPath dcs.dropLast := by
    conv_lhs => rw [← hsnocD]
    exact dirP_mkPath _ _ (by rw [hsnocD]; exact hvd)
  have hdpA : dirP (mkPath acs) = mkPath acs.dropLast := by
    conv_lhs => rw [← hsnocA]
    exact dirP_mkPath _ _ (by rw [hsnocA]; exact hva)
  have hvadl : validComps acs.dropLast = true := by
    rw [List.dropLast_eq_take]; exact validComps_take _ _ hva
  have hmkall : mkdirAll fs fuel (mkPath acs.dropLast) =
      .ok (none, fs) :=
    mkdirAll_noop hwf hns acs.dropLast fuel hvadl hApar
      (by rw [List.length_dropLast]; omega)
  have hstarDdir : ¬ '*' ∈ splitDirPart (mkPath dcs) :=
    fun h => hstarD (splitDirPart_subset _ _ h)
  have hread := readDirEx_nosym hwf hns dcs fuel hvd hdir hfuelD
  have hcfn : compressFn fs fuel (mkPath dcs) (mkPath acs)
      (mkPath dcs.dropLast) = (.error .emptySource, fs) := by
    have h1 : compressFn fs fuel (mkPath dcs) (mkPath acs)
        (mkPath dcs.dropLast) =
        (match readDirEx fs fuel (mkPath dcs) with
         | .error e => ((.error e : Except Err Unit), fs)
         | .ok (_, files) =>
           if files.length = 0 then (.error .emptySource, fs)
           else
             match createFile fs fuel (mkPath acs) with
             | .error e => (.error e, fs)
             | .ok (fs₁, handle) =>
               match writeDirectory fs₁ fuel (mkPath dcs)
                   (mkPath dcs.dropLast) with
               | .error e => (.error e, fsRemove fs₁ (mkPath acs))
               | .ok es => (.ok (), setContent fs₁ handle
                   (encode es))) := rfl
    rw [h1, hread]
    show (if (childrenNames fs (mkPath dcs)).length = 0 then
        ((.error .emptySource : Except Err Unit), fs)
      else _) = _
    rw [if_pos (by rw [hempty]; rfl)]
  have h1 : Compress cwd fs fuel (mkPath dcs) (mkPath acs) =
      (match makeAbsolute cwd (stripTrailingSlashes (mkPath dcs))
          (mkPath acs) with
       | .error e => ((.error e : Except Err Unit), fs)
       | .ok (inputFilePath, outputFilePath) =>
         match mkdirAll fs fuel (dirP outputFilePath) with
         | .error e => (.error e, fs)
         | .ok (undoDir, fs₁) =>
           if '*' ∈ splitDirPart inputFilePath then
             (.error .invalidWildcard, applyUndo fs₁ undoDir)
           else
             let pair :=
               if '*' ∈ inputFilePath then
                 (inputFilePath.dropLast, inputFilePath.dropLast)
               else (inputFilePath, dirP inputFilePath)
             match compressFn fs₁ fuel pair.1 outputFilePath
                 pair.2 with
             | (.ok _, fs₂) => (.ok (), fs₂)
             | (.error e, fs₂) =>
               (.error e, applyUndo fs₂ undoDir)) := rfl
  rw [h1, hstrip, hmkabs]
  show (match mkdirAll fs fuel (dirP (mkPath acs)) with
    | .error e => ((.error e : Except Err Unit), fs)
    | .ok (undoDir, fs₁) =>
      if '*' ∈ splitDirPart (mkPath dcs) then
        (.error .invalidWildcard, applyUndo fs₁ undoDir)
      else
        let pair :=
          if '*' ∈ mkPath dcs then
            ((mkPath dcs).dropLast, (mkPath dcs).dropLast)
          else (mkPath dcs, dirP (mkPath dcs))
        match compressFn fs₁ fuel pair.1 (mkPath acs) pair.2 with
        | (.ok _, fs₂) => (.ok (), fs₂)
        | (.error e, fs₂) => (.error e, applyUndo fs₂ undoDir)) = _
  rw [hdpA, hmkall]
  show (if '*' ∈ splitDirPart (mkPath dcs) then
      ((.error .invalidWildcard : Except Err Unit), applyUndo fs none)
    else
      let pair :=
        if '*' ∈ mkPath dcs then
          ((mkPath dcs).dropLast, (mkPath dcs).dropLast)
        else (mkPath dcs, dirP (mkPath dcs))
      match compressFn fs fuel pair.1 (mkPath acs) pair.2 with
      | (.ok _, fs₂) => (.ok (), fs₂)
      | (.error e, fs₂) => (.error e, applyUndo fs₂ none)) = _
  rw [if_neg hstarDdir]
  show (match compressFn fs fuel
      ((if '*' ∈ mkPath dcs then
        ((mkPath dcs).dropLast, (mkPath dcs).dropLast)
      else (mkPath dcs, dirP (mkPath dcs)))).1 (mkPath acs)
      ((if '*' ∈ mkPath dcs then
        ((mkPath dcs).dropLast, (mkPath dcs).dropLast)
      else (mkPath dcs, dirP (mkPath dcs)))).2 with
    | (.ok _, fs₂) => ((.ok () : Except Err Unit), fs₂)
    | (.error e, fs₂) => (.error e, applyUndo fs₂ none)) = _
  rw [if_neg hstarD]
  show (match compressFn fs fuel (mkPath dcs) (mkPath acs)
      (dirP (mkPath dcs)) with
    | (.ok _, fs₂) => ((.ok () : Except Err Unit), fs₂)
    | (.error e, fs₂) => (.error e, applyUndo fs₂ none)) = _
  rw [hdpD, hcfn]
  rfl

/-- C6: the directory-provisioning step fails with `ENOTDIR` whenever a
component of the target path exists as a regular file — the target
itself is classified with the stat/lstat pair, a strict ancestor
through the resolution walk — and consequently extracting into a path
that is already a regular file returns `ENOTDIR` with the filesystem
unchanged. -/
theorem C6_notadir {fs : FS} (hwf : wfFS fs) (hns : noSymlinks fs)
    (cwd : Option Path) (pre ics : List Comp) (fuel : Nat)
    {bs : List Nat}
    (hpre : pre ≠ []) (hvp : validComps pre = true)
    (hvi : validComps ics = true)
    (hfile : lookupFS fs (mkPath pre) = some (.file bs))
    (hfuel : pre.length + 1 < fuel) :
    (∀ ds, validComps (pre ++ ds) = true →
      mkdirAll fs fuel (mkPath (pre ++ ds)) = .error .enotdir) ∧
    Extract cwd fs fuel (mkPath ics) (mkPath pre) =
      (.error .enotdir, fs) := by
  constructor
  · intro ds hv
    exact mkdirAll_blocked hwf hns pre ds fuel hpre hv hfile hfuel
  · have hstrip := stripTrailingSlashes_valid pre hpre hvp
    have habs : ∀ cs, validComps cs = true →
        absPath cwd (mkPath cs) = .ok (mkPath cs) := by
      intro cs hv
      show (if isAbs (mkPath cs) then
          (.ok (clean (mkPath cs)) : Except Err Path)
        else
          match cwd with
          | some w => .ok (join2 w (mkPath cs))
          | none => .error .absFail) = _
      rw [if_pos (isAbs_mkPath cs), clean_mkPath cs hv]
    have hmkabs : makeAbsolute cwd (mkPath ics) (mkPath pre) =
        .ok (mkPath ics, mkPath pre) := by
      rw [makeAbsolute, habs ics hvi]
      show (do
        let o ← absPath cwd (mkPath pre)
        pure (mkPath ics, o) : Except Err (Path × Path)) = _
      rw [habs pre hvp]
      rfl
    have hmkall : mkdirAll fs fuel (mkPath pre) = .error .enotdir := by
      have := mkdirAll_blocked hwf hns pre [] fuel hpre
        (by simpa using hvp) hfile hfuel
      rwa [List.append_nil] at this
    have h1 : Extract cwd fs fuel (mkPath ics) (mkPath pre) =
        (match makeAbsolute cwd (mkPath ics)
            (stripTrailingSlashes (mkPath pre)) with
         | .error e => ((.error e : Except Err Unit), fs)
         | .ok (inputFilePath, outputFilePath) =>
           match mkdirAll fs fuel outputFilePath with
           | .error e => (.error e, fs)
           | .ok (undoDir, fs₁) =>
             match extractFn fs₁ fuel inputFilePath
                 outputFilePath with
             | (.ok _, fs₂) => (.ok (), fs₂)
             | (.error e, fs₂) =>
               (.error e, applyUndo fs₂ undoDir)) := rfl
    rw [h1, hstrip, hmkabs]
    show (match mkdirAll fs fuel (mkPath pre) with
      | .error e => ((.error e : Except Err Unit), fs)
      | .ok (undoDir, fs₁) =>
        match extractFn fs₁ fuel (mkPath ics) (mkPath pre) with
        | (.ok _, fs₂) => (.ok (), fs₂)
        | (.error e, fs₂) => (.error e, applyUndo fs₂ undoDir)) = _
    rw [hmkall]

/-- C7 (amended): how `targz.writeTarGz` really records a
non-directory entry whose resolved path holds a regular file.  The
header name is the resolved path with the resolved sub-path prefix
removed, and the link name is the resolved path whenever it differs
from the nominal path.  An entry whose directory-entry info carries the
symlink mode bit is written as a link entry only when the resolved
target file is empty; a non-empty target makes the write fail with
`tar.ErrWriteTooLong`, because the header then has size 0 while the
file content is still streamed after it.  Entries whose info is not a
symlink are written as regular files with their content. -/
theorem C7_amended (fs : FS) (fuel : Nat) (path subPath r rs : Path)
    (info : Node) (bs : List Nat)
    (hres : resolvePath fs fuel path = .ok r)
    (hsub : resolvePath fs fuel subPath = .ok rs)
    (hfile : lookupFS fs r = some (.file bs)) :
    writeTarGz fs fuel path info subPath =
      if info.isLink then
        (if bs.length > 0 then .error .writeTooLong
         else .ok { name := r.drop rs.length, isLink := true,
                    linkname := if r ≠ path then r else [],
                    content := [] })
      else .ok { name := r.drop rs.length, isLink := false,
                 linkname := if r ≠ path then r else [],
                 content := bs } := by
  rw [writeTarGz, hres, hsub]
  simp only [bind, Except.bind]
  rw [hfile]

/-- C2 (amended): on a symlink-free star-free tree, every entry the
archive writer produces is a regular file found under the source
directory; its name is the (trivially resolved) file path with the
(trivially resolved) strip prefix — the parent of the source directory
— removed, so its components always begin with the final component of
the source path; and whenever the source directory is not directly
under the root, the name keeps a leading path separator (it is not
relative). -/
theorem C2_amended {fs : FS} (hwf : wfFS fs) (hns : noSymlinks fs)
    (hst : noStars fs) (cwd : Option Path) (dcs acs : List Comp)
    (fuel : Nat)
    (hvd : validComps dcs = true) (hdne : dcs ≠ [])
    (hdir : lookupFS fs (mkPath dcs) = some .dir)
    (hva : validComps acs = true) (hane : acs ≠ [])
    (hstara : '*' ∉ mkPath acs)
    (hAfresh : lookupFS fs (mkPath acs) = none)
    (hApar : lookupFS fs (mkPath acs.dropLast) = some .dir)
    (hADout : pathUnder (mkPath dcs) (mkPath acs) = false)
    (hchild : childrenNames fs (mkPath dcs) ≠ [])
    (hfuelD : dcs.length < fuel) (hfuelA : acs.length < fuel)
    (hfuelW : 2 * max acs.length (maxDepth fs) + 3 ≤
      fuel + dcs.length) :
    ∃ es, Compress cwd fs fuel (mkPath dcs) (mkPath acs) =
        (.ok (), setContent (fsInsert fs (mkPath acs) (.file []))
          (mkPath acs) (encode es)) ∧
      ∀ e ∈ es, ∃ u bs,
        lookupFS fs (mkPath (dcs ++ u)) = some (.file bs) ∧
        e.content = bs ∧ e.isLink = false ∧
        e.name = (mkPath (dcs ++ u)).drop
          (mkPath dcs.dropLast).length ∧
        comps e.name = dcs.getLast hdne :: u ∧
        (dcs.dropLast ≠ [] → e.name.head? = some '/') := by
  have hC := Compress_ok hwf hns hst cwd dcs acs fuel hvd hdne hdir
    hva hane hstara hAfresh hApar hchild hfuelD hfuelA hfuelW
  refine ⟨_, hC, ?_⟩
  intro e he
  have hdpA : dirP (mkPath acs) = mkPath acs.dropLast := by
    have hsnocA : acs.dropLast ++ [acs.getLast hane] = acs :=
      List.dropLast_append_getLast hane
    conv_lhs => rw [← hsnocA]
    exact dirP_mkPath _ _ (by rw [hsnocA]; exact hva)
  have hwf₁ : wfFS (fsInsert fs (mkPath acs) (.file [])) :=
    wf_insert hwf acs (.file []) hva hane (by rw [hdpA]; exact hApar)
      (Or.inl hAfresh)
  have hns₁ : noSymlinks (fsInsert fs (mkPath acs) (.file [])) :=
    noSymlinks_insert hns _ _ (by simp [Node.isLink])
  rw [List.mem_map] at he
  obtain ⟨pr, hpr, rfl⟩ := he
  obtain ⟨u, hune, hp1, hpv, hpl⟩ :=
    dfsFiles_shape hwf₁ hns₁ fuel dcs hvd pr hpr
  have hpne : mkPath (dcs ++ u) ≠ mkPath acs := by
    intro h
    have hpu := (pathUnder_mkPath_iff dcs (dcs ++ u)
      hvd hpv).mpr ⟨u, rfl⟩
    rw [h, hADout] at hpu
    cases hpu
  have hlfs : lookupFS fs (mkPath (dcs ++ u)) = some (.file pr.2) := by
    have h2 := hpl
    rwa [lookupFS_insert_ne _ _ _ _ hpne] at h2
  have hname : (entryOf (mkPath dcs.dropLast) pr).name =
      (mkPath (dcs ++ u)).drop (mkPath dcs.dropLast).length := by
    rw [entryOf, hp1]
  refine ⟨u, pr.2, hlfs, rfl, rfl, hname, ?_, ?_⟩
  · rw [hname]
    exact (entry_name_comps dcs u hdne hpv).1
  · intro hdl
    have hsnoc : dcs.dropLast ++ [dcs.getLast hdne] = dcs :=
      List.dropLast_append_getLast hdne
    have hsplit : dcs ++ u =
        dcs.dropLast ++ (dcs.getLast hdne :: u) := by
      conv_lhs => rw [← hsnoc]
      rw [List.append_assoc]
      rfl
    have hdrop : (mkPath (dcs ++ u)).drop
        (mkPath dcs.dropLast).length =
        mkPath (dcs.getLast hdne :: u) := by
      rw [hsplit]
      exact drop_mkPath_append _ _ hdl (by simp)
    rw [hname, hdrop]
    exact mkPath_head _

/-- C4 (amended): a wildcard in a non-final path segment makes
`Compress` fail with the invalid-wildcard error (filesystem unchanged,
since the provisioning step created nothing).  A `*` as the final
character of the source path, however, is not globbed: `Compress`
merely drops that final character and archives the directory named by
the remaining prefix, using that prefix itself as the strip prefix, so
the glob branch of the writer is never reached from `Compress`. -/
theorem C4_amended {fs : FS} (hwf : wfFS fs) (hns : noSymlinks fs)
    (hst : noStars fs) (cwd : Option Path) (acs : List Comp)
    (fuel : Nat)
    (hva : validComps acs = true) (hane : acs ≠ [])
    (hstara : '*' ∉ mkPath acs)
    (hAfresh : lookupFS fs (mkPath acs) = none)
    (hApar : lookupFS fs (mkPath acs.dropLast) = some .dir)
    (hfuelA : acs.length < fuel) :
    (∀ ds c, validComps (ds ++ [c]) = true → ds ≠ [] →
      '*' ∈ mkPath ds →
      Compress cwd fs fuel (mkPath (ds ++ [c])) (mkPath acs) =
        (.error .invalidWildcard, fs)) ∧
    (∀ ds c, validComps (ds ++ [c ++ ['*']]) = true →
      validComps (ds ++ [c]) = true →
      lookupFS fs (mkPath (ds ++ [c])) = some .dir →
      childrenNames fs (mkPath (ds ++ [c])) ≠ [] →
      (ds ++ [c]).length < fuel →
      2 * max acs.length (maxDepth fs) + 3 ≤
        fuel + (ds ++ [c]).length →
      Compress cwd fs fuel (mkPath (ds ++ [c ++ ['*']]))
          (mkPath acs) =
        (.ok (), setContent (fsInsert fs (mkPath acs) (.file []))
          (mkPath acs)
          (encode ((dfsFiles (fsInsert fs (mkPath acs) (.file []))
            fuel (mkPath (ds ++ [c]))).map
              (entryOf (mkPath (ds ++ [c]))))))) := by
  have habs : ∀ cs, validComps cs = true →
      absPath cwd (mkPath cs) = .ok (mkPath cs) := by
    intro cs hv
    show (if isAbs (mkPath cs) then
        (.ok (clean (mkPath cs)) : Except Err Path)
      else
        match cwd with
        | some w => .ok (join2 w (mkPath cs))
        | none => .error .absFail) = _
    rw [if_pos (isAbs_mkPath cs), clean_mkPath cs hv]
  have hmkabs : ∀ cs, validComps cs = true →
      makeAbsolute cwd (mkPath cs) (mkPath acs) =
        .ok (mkPath cs, mkPath acs) := by
    intro cs hv
    rw [makeAbsolute, habs cs hv]
    show (do
      let o ← absPath cwd (mkPath acs)
      pure (mkPath cs, o) : Except Err (Path × Path)) = _
    rw [habs acs hva]
    rfl
  have hsnocA : acs.dropLast ++ [acs.getLast hane] = acs :=
    List.dropLast_append_getLast hane
  have hdpA : dirP (mkPath acs) = mkPath acs.dropLast := by
    conv_lhs => rw [← hsnocA]
    exact dirP_mkPath _ _ (by rw [hsnocA]; exact hva)
  have hvadl : validComps acs.dropLast = true := by
    rw [List.dropLast_eq_take]; exact validComps_take _ _ hva
  have hmkall : mkdirAll fs fuel (mkPath acs.dropLast) =
      .ok (none, fs) :=
    mkdirAll_noop hwf hns acs.dropLast fuel hvadl hApar
      (by rw [List.length_dropLast]; omega)
  constructor
  · intro ds c hv hds hstar
    have hslashc : '/' ∉ c := by
      have := validComps_of_append_right hv
      simp [validComps, validComp, decide_eq_true_eq] at this
      exact this.2.1
    have hstrip : stripTrailingSlashes (mkPath (ds ++ [c])) =
        mkPath (ds ++ [c]) :=
      stripTrailingSlashes_valid _ (by simp) hv
    have hsplitD : '*' ∈ splitDirPart (mkPath (ds ++ [c])) := by
      rw [mkPath_eq_append, if_neg hds,
        splitDirPart_append (mkPath ds) c hslashc]
      exact List.mem_append_left _ hstar
    have h1 : Compress cwd fs fuel (mkPath (ds ++ [c]))
        (mkPath acs) =
        (match makeAbsolute cwd
            (stripTrailingSlashes (mkPath (ds ++ [c])))
            (mkPath acs) with
         | .error e => ((.error e : Except Err Unit), fs)
         | .ok (inputFilePath, outputFilePath) =>
           match mkdirAll fs fuel (dirP outputFilePath) with
           | .error e => (.error e, fs)
           | .ok (undoDir, fs₁) =>
             if '*' ∈ splitDirPart inputFilePath then
               (.error .invalidWildcard, applyUndo fs₁ undoDir)
             else
               let pair :=
                 if '*' ∈ inputFilePath then
                   (inputFilePath.dropLast, inputFilePath.dropLast)
                 else (inputFilePath, dirP inputFilePath)
               match compressFn fs₁ fuel pair.1 outputFilePath
                   pair.2 with
               | (.ok _, fs₂) => (.ok (), fs₂)
               | (.error e, fs₂) =>
                 (.error e, applyUndo fs₂ undoDir)) := rfl
    rw [h1, hstrip, hmkabs _ hv]
    show (match mkdirAll fs fuel (dirP (mkPath acs)) with
      | .error e => ((.error e : Except Err Unit), fs)
      | .ok (undoDir, fs₁) =>
        if '*' ∈ splitDirPart (mkPath (ds ++ [c])) then
          (.error .invalidWildcard, applyUndo fs₁ undoDir)
        else
          let pair :=
            if '*' ∈ mkPath (ds ++ [c]) then
              ((mkPath (ds ++ [c])).dropLast,
                (mkPath (ds ++ [c])).dropLast)
            else (mkPath (ds ++ [c]), dirP (mkPath (ds ++ [c])))
          match compressFn fs₁ fuel pair.1 (mkPath acs) pair.2 with
          | (.ok _, fs₂) => (.ok (), fs₂)
          | (.error e, fs₂) => (.error e, applyUndo fs₂ undoDir)) = _
    rw [hdpA, hmkall]
    show (if '*' ∈ splitDirPart (mkPath (ds ++ [c])) then
        ((.error .invalidWildcard : Except Err Unit), applyUndo fs none)
      else _) = _
    rw [if_pos hsplitD]
    rfl
  · intro ds c hvstar hv hdirB hchildB hfuelD hfuelW
    have hstarD : '*' ∉ mkPath (ds ++ [c]) :=
      star_free_key hst (mkPath_ne_root _ hv (by simp)) hdirB
    have hip : mkPath (ds ++ [c ++ ['*']]) =
        mkPath (ds ++ [c]) ++ ['*'] := by
      rw [mkPath_eq_append, mkPath_eq_append]
      rw [List.append_assoc]
      rfl
    have hstrip : stripTrailingSlashes (mkPath (ds ++ [c ++ ['*']])) =
        mkPath (ds ++ [c ++ ['*']]) := by
      rw [stripTrailingSlashes, if_neg]
      rw [hip, List.getLast?_concat]
      intro h
      cases h
    have hstarip : '*' ∈ mkPath (ds ++ [c ++ ['*']]) := by
      rw [hip]
      exact List.mem_append_right _ (by simp)
    have hslashcs : '/' ∉ c ++ ['*'] := by
      have := validComps_of_append_right hvstar
      simp [validComps, validComp, decide_eq_true_eq] at this
      intro h
      rcases List.mem_append.mp h with h | h
      · exact this.1 h
      · simp at h
    have hsplitD : ¬ '*' ∈ splitDirPart (mkPath (ds ++ [c ++ ['*']]))
        := by
      rw [mkPath_eq_append,
        splitDirPart_append (if ds = [] then ([] : Path)
          else mkPath ds) (c ++ ['*']) hslashcs]
      intro h
      rcases List.mem_append.mp h with h | h
      · by_cases hds : ds = []
        · rw [if_pos hds] at h
          cases h
        · rw [if_neg hds] at h
          have hstards : '*' ∉ mkPath ds := by
            have := star_mkPath_dropLast (ds ++ [c]) (by simp) hstarD
            rwa [List.dropLast_concat] at this
          exact hstards h
      · rcases List.mem_cons.mp h with h | h
        · cases h
        · cases h
    have hdropip : (mkPath (ds ++ [c ++ ['*']])).dropLast =
        mkPath (ds ++ [c]) := by
      rw [hip, List.dropLast_concat]
    have hcfnB := compressFn_ok hwf hns hst (ds ++ [c]) acs
      (ds ++ [c]) fuel hv (by simp) hdirB hva hane hstara hAfresh
      hApar hv ⟨.dir, hdirB⟩ hchildB hfuelD hfuelA hfuelW
    have h1 : Compress cwd fs fuel (mkPath (ds ++ [c ++ ['*']]))
        (mkPath acs) =
        (match makeAbsolute cwd
            (stripTrailingSlashes (mkPath (ds ++ [c ++ ['*']])))
            (mkPath acs) with
         | .error e => ((.error e : Except Err Unit), fs)
         | .ok (inputFilePath, outputFilePath) =>
           match mkdirAll fs fuel (dirP outputFilePath) with
           | .error e => (.error e, fs)
           | .ok (undoDir, fs₁) =>
             if '*' ∈ splitDirPart inputFilePath then
               (.error .invalidWildcard, applyUndo fs₁ undoDir)
             else
               let pair :=
                 if '*' ∈ inputFilePath then
                   (inputFilePath.dropLast, inputFilePath.dropLast)
                 else (inputFilePath, dirP inputFilePath)
               match compressFn fs₁ fuel pair.1 outputFilePath
                   pair.2 with
               | (.ok _, fs₂) => (.ok (), fs₂)
               | (.error e, fs₂) =>
                 (.error e, applyUndo fs₂ undoDir)) := rfl
    rw [h1, hstrip, hmkabs _ hvstar]
    show (match mkdirAll fs fuel (dirP (mkPath acs)) with
      | .error e => ((.error e : Except Err Unit), fs)
      | .ok (undoDir, fs₁) =>
        if '*' ∈ splitDirPart (mkPath (ds ++ [c ++ ['*']])) then
          (.error .invalidWildcard, applyUndo fs₁ undoDir)
        else
          let pair :=
            if '*' ∈ mkPath (ds ++ [c ++ ['*']]) then
              ((mkPath (ds ++ [c ++ ['*']])).dropLast,
                (mkPath (ds ++ [c ++ ['*']])).dropLast)
            else (mkPath (ds ++ [c ++ ['*']]),
              dirP (mkPath (ds ++ [c ++ ['*']])))
          match compressFn fs₁ fuel pair.1 (mkPath acs) pair.2 with
          | (.ok _, fs₂) => (.ok (), fs₂)
          | (.error e, fs₂) => (.error e, applyUndo fs₂ undoDir)) = _
    rw [hdpA, hmkall]
    show (if '*' ∈ splitDirPart (mkPath (ds ++ [c ++ ['*']])) then
        ((.error .invalidWildcard : Except Err Unit), applyUndo fs none)
      else
        let pair :=
          if '*' ∈ mkPath (ds ++ [c ++ ['*']]) then
            ((mkPath (ds ++ [c ++ ['*']])).dropLast,
              (mkPath (ds ++ [c ++ ['*']])).dropLast)
          else (mkPath (ds ++ [c ++ ['*']]),
            dirP (mkPath (ds ++ [c ++ ['*']])))
        match compressFn fs fuel pair.1 (mkPath acs) pair.2 with
        | (.ok _, fs₂) => (.ok (), fs₂)
        | (.error e, fs₂) => (.error e, applyUndo fs₂ none)) = _
    rw [if_neg hsplitD]
    show (match compressFn fs fuel
        ((if '*' ∈ mkPath (ds ++ [c ++ ['*']]) then
          ((mkPath (ds ++ [c ++ ['*']])).dropLast,
            (mkPath (ds ++ [c ++ ['*']])).dropLast)
        else (mkPath (ds ++ [c ++ ['*']]),
          dirP (mkPath (ds ++ [c ++ ['*']]))))).1 (mkPath acs)
        ((if '*' ∈ mkPath (ds ++ [c ++ ['*']]) then
          ((mkPath (ds ++ [c ++ ['*']])).dropLast,
            (mkPath (ds ++ [c ++ ['*']])).dropLast)
        else (mkPath (ds ++ [c ++ ['*']]),
          dirP (mkPath (ds ++ [c ++ ['*']]))))).2 with
      | (.ok _, fs₂) => ((.ok () : Except Err Unit), fs₂)
      | (.error e, fs₂) => (.error e, applyUndo fs₂ none)) = _
    rw [if_pos hstarip]
    show (match compressFn fs fuel
        ((mkPath (ds ++ [c ++ ['*']])).dropLast) (mkPath acs)
        ((mkPath (ds ++ [c ++ ['*']])).dropLast) with
      | (.ok _, fs₂) => ((.ok () : Except Err Unit), fs₂)
      | (.error e, fs₂) => (.error e, applyUndo fs₂ none)) = _
    rw [hdropip, hcfnB]

/-- Re-creating a file deleted afterwards leaves the deletion. -/
theorem fsRemove_insert (fs : FS) (p : Path) (n : Node) :
    fsRemove (fsInsert fs p n) p = fsRemove fs p := by
  rw [fsRemove, fsInsert]
  rw [List.filter_cons_of_neg (by simp)]
  rw [List.filter_filter]
  exact List.filter_congr (fun e _ => by simp)

/-- The filesystem `targz.compress` leaves behind on failure: either
untouched (failure before the archive file was created) or with the
just-created archive file removed by the deferred `os.Remove`. -/
theorem compressFn_err_inv {fs : FS} {fuel : Nat} {i o s : Path}
    {e : Err} {fsX : FS}
    (h : compressFn fs fuel i o s = (.error e, fsX)) :
    fsX = fs ∨ ∃ fs₁ handle, createFile fs fuel o = .ok (fs₁, handle) ∧
      fsX = fsRemove fs₁ o := by
  rw [compressFn] at h
  cases hr : readDirEx fs fuel i with
  | error e₂ =>
    rw [hr] at h
    have h' : ((.error e₂ : Except Err Unit), fs) = (.error e, fsX) :=
      h
    left
    exact (congrArg Prod.snd h').symm
  | ok pr =>
    obtain ⟨r, files⟩ := pr
    rw [hr] at h
    by_cases hlen : files.length = 0
    · have h' : ((.error .emptySource : Except Err Unit), fs) =
          (.error e, fsX) := by
        have h'' : (if files.length = 0 then
            ((.error .emptySource : Except Err Unit), fs)
          else
            match createFile fs fuel o with
            | .error e => (.error e, fs)
            | .ok (fs₁, handle) =>
              match writeDirectory fs₁ fuel i s with
              | .error e => (.error e, fsRemove fs₁ o)
              | .ok es => (.ok (), setContent fs₁ handle
                  (encode es))) = (.error e, fsX) := h
        rwa [if_pos hlen] at h''
      left
      exact (congrArg Prod.snd h').symm
    · have h'' : (match createFile fs fuel o with
          | .error e => ((.error e : Except Err Unit), fs)
          | .ok (fs₁, handle) =>
            match writeDirectory fs₁ fuel i s with
            | .error e => (.error e, fsRemove fs₁ o)
            | .ok es => (.ok (), setContent fs₁ handle
                (encode es))) = (.error e, fsX) := by
        have h3 : (if files.length = 0 then
            ((.error .emptySource : Except Err Unit), fs)
          else
            match createFile fs fuel o with
            | .error e => (.error e, fs)
            | .ok (fs₁, handle) =>
              match writeDirectory fs₁ fuel i s with
              | .error e => (.error e, fsRemove fs₁ o)
              | .ok es => (.ok (), setContent fs₁ handle
                  (encode es))) = (.error e, fsX) := h
        rwa [if_neg hlen] at h3
      cases hc : createFile fs fuel o with
      | error e₃ =>
        rw [hc] at h''
        have h' : ((.error e₃ : Except Err Unit), fs) =
            (.error e, fsX) := h''
        left
        exact (congrArg Prod.snd h').symm
      | ok pr₂ =>
        obtain ⟨fs₁, handle⟩ := pr₂
        rw [hc] at h''
        have h4 : (match writeDirectory fs₁ fuel i s with
            | .error e => ((.error e : Except Err Unit),
                fsRemove fs₁ o)
            | .ok es => (.ok (), setContent fs₁ handle
                (encode es))) = (.error e, fsX) := h''
        cases hw : writeDirectory fs₁ fuel i s with
        | error e₄ =>
          rw [hw] at h4
          have h' : ((.error e₄ : Except Err Unit), fsRemove fs₁ o) =
              (.error e, fsX) := h4
          right
          exact ⟨fs₁, handle, rfl, (congrArg Prod.snd h').symm⟩
        | ok es =>
          rw [hw] at h4
          have h' : ((.ok () : Except Err Unit), setContent fs₁ handle
              (encode es)) = (.error e, fsX) := h4
          have := congrArg Prod.fst h'
          simp at this

/-- C5: when `Compress` fails, the rollback removes exactly what the
run created.  If directory provisioning created a chain (shallowest
created directory `u`), everything at or below `u` — including the
partial archive file, which lives below `u` — is absent afterwards and
every path outside `u`'s subtree (in particular every pre-existing
ancestor) is untouched.  If provisioning created nothing, the
filesystem is unchanged except possibly for the removal of the archive
file the run created at the output path. -/
theorem C5_rollback {fs : FS} (hwf : wfFS fs) (hns : noSymlinks fs)
    (hst : noStars fs) (cwd : Option Path) (ics acs : List Comp)
    (fuel : Nat)
    (hvi : validComps ics = true) (hine : ics ≠ [])
    (hva : validComps acs = true) (hane : acs ≠ [])
    (hstara : '*' ∉ mkPath acs) (hfuel0 : 0 < fuel)
    {e : Err} {fs₂ : FS}
    (hrun : Compress cwd fs fuel (mkPath ics) (mkPath acs) =
      (.error e, fs₂)) :
    (∀ u fs₁, mkdirAll fs fuel (mkPath acs.dropLast) =
        .ok (some u, fs₁) →
      (∀ q, pathUnder u q = true → lookupFS fs₂ q = none) ∧
      (∀ q, pathUnder u q = false →
        lookupFS fs₂ q = lookupFS fs q)) ∧
    (∀ fs₁, mkdirAll fs fuel (mkPath acs.dropLast) =
        .ok (none, fs₁) →
      fs₂ = fs ∨ fs₂ = fsRemove fs (mkPath acs)) := by
  have hstrip := stripTrailingSlashes_valid ics hine hvi
  have habs : ∀ cs, validComps cs = true →
      absPath cwd (mkPath cs) = .ok (mkPath cs) := by
    intro cs hv
    show (if isAbs (mkPath cs) then
        (.ok (clean (mkPath cs)) : Except Err Path)
      else
        match cwd with
        | some w => .ok (join2 w (mkPath cs))
        | none => .error .absFail) = _
    rw [if_pos (isAbs_mkPath cs), clean_mkPath cs hv]
  have hmkabs : makeAbsolute cwd (mkPath ics) (mkPath acs) =
      .ok (mkPath ics, mkPath acs) := by
    rw [makeAbsolute, habs ics hvi]
    show (do
      let o ← absPath cwd (mkPath acs)
      pure (mkPath ics, o) : Except Err (Path × Path)) = _
    rw [habs acs hva]
    rfl
  have hsnocA : acs.dropLast ++ [acs.getLast hane] = acs :=
    List.dropLast_append_getLast hane
  have hdpA : dirP (mkPath acs) = mkPath acs.dropLast := by
    conv_lhs => rw [← hsnocA]
    exact dirP_mkPath _ _ (by rw [hsnocA]; exact hva)
  have hvadl : validComps acs.dropLast = true := by
    rw [List.dropLast_eq_take]; exact validComps_take _ _ hva
  have hstardl : '*' ∉ mkPath acs.dropLast :=
    star_mkPath_dropLast acs hane hstara
  have h1 : Compress cwd fs fuel (mkPath ics) (mkPath acs) =
      (match makeAbsolute cwd (stripTrailingSlashes (mkPath ics))
          (mkPath acs) with
       | .error e => ((.error e : Except Err Unit), fs)
       | .ok (inputFilePath, outputFilePath) =>
         match mkdirAll fs fuel (dirP outputFilePath) with
         | .error e => (.error e, fs)
         | .ok (undoDir, fs₁) =>
           if '*' ∈ splitDirPart inputFilePath then
             (.error .invalidWildcard, applyUndo fs₁ undoDir)
           else
             let pair :=
               if '*' ∈ inputFilePath then
                 (inputFilePath.dropLast, inputFilePath.dropLast)
               else (inputFilePath, dirP inputFilePath)
             match compressFn fs₁ fuel pair.1 outputFilePath
                 pair.2 with
             | (.ok _, fs₂) => (.ok (), fs₂)
             | (.error e, fs₂) =>
               (.error e, applyUndo fs₂ undoDir)) := rfl
  rw [h1, hstrip, hmkabs] at hrun
  have hrun₂ : (match mkdirAll fs fuel (dirP (mkPath acs)) with
      | .error e => ((.error e : Except Err Unit), fs)
      | .ok (undoDir, fs₁) =>
        if '*' ∈ splitDirPart (mkPath ics) then
          (.error .invalidWildcard, applyUndo fs₁ undoDir)
        else
          let pair :=
            if '*' ∈ mkPath ics then
              ((mkPath ics).dropLast, (mkPath ics).dropLast)
            else (mkPath ics, dirP (mkPath ics))
          match compressFn fs₁ fuel pair.1 (mkPath acs) pair.2 with
          | (.ok _, fs₂) => (.ok (), fs₂)
          | (.error e, fs₂) => (.error e, applyUndo fs₂ undoDir)) =
      (.error e, fs₂) := hrun
  rw [hdpA] at hrun₂
  constructor
  · intro u fs₁ hmk
    by_cases hdl : acs.dropLast = []
    · rw [hdl] at hmk
      rw [mkdirAll_noop hwf hns [] fuel rfl
        (by rw [show mkPath [] = root from rfl, lookupFS, if_pos rfl])
        (by simpa using hfuel0)] at hmk
      simp at hmk
    obtain ⟨us, huu, hvus, husne, hustake, humiss, hupar, hwf₁, hns₁,
      hst₁, htdir, hout₁⟩ :=
      mkdirAll_some_inv hwf hns hst hvadl hdl hstardl hmk
    have hlenus : us.length ≤ acs.length - 1 := by
      have h7 : us.length = min us.length (acs.length - 1) := by
        conv_lhs => rw [hustake]
        rw [List.length_take, List.length_dropLast]
      rcases Nat.le_total us.length (acs.length - 1) with h | h
      · exact h
      · rw [min_eq_right h] at h7
        exact le_of_eq h7
    have hunderA : pathUnder u (mkPath acs) = true := by
      rw [huu]
      refine (pathUnder_mkPath_iff us acs hvus hva).mpr ?_
      refine ⟨acs.drop us.length, ?_⟩
      conv_lhs => rw [← List.take_append_drop us.length acs]
      congr 1
      conv_rhs => rw [hustake, take_dropLast_eq _ _ hlenus]
    have hconc : ∀ fsX,
        (fsX = fs₁ ∨ ∃ fs₁' handle,
          createFile fs₁ fuel (mkPath acs) = .ok (fs₁', handle) ∧
          fsX = fsRemove fs₁' (mkPath acs)) →
        (∀ q, pathUnder u q = true →
          lookupFS (applyUndo fsX (some u)) q = none) ∧
        (∀ q, pathUnder u q = false →
          lookupFS (applyUndo fsX (some u)) q = lookupFS fs q) := by
      intro fsX hfsX
      constructor
      · intro q hq
        have hqroot : q ≠ root := by
          intro h
          subst h
          rw [huu, pathUnder, comps_mkPath us hvus, comps_root] at hq
          simp at hq
          exact husne hq
        exact lookupFS_removeAll_under fsX u q hq hqroot
      · intro q hq
        rw [show applyUndo fsX (some u) = fsRemoveAll fsX u from rfl,
          lookupFS_removeAll_out fsX u q hq]
        have hqA : q ≠ mkPath acs := by
          intro h
          subst h
          rw [hunderA] at hq
          cases hq
        rcases hfsX with rfl | ⟨fs₁', handle, hc, rfl⟩
        · exact hout₁ q (by rw [hq]; simp)
        · have hc' : createFile fs₁ fuel
              (mkPath (acs.dropLast ++ [acs.getLast hane])) =
              .ok (fs₁', handle) := by
            rw [hsnocA]
            exact hc
          obtain ⟨hfs₁', hhandle, hpar', hold'⟩ :=
            createFile_ok_inv hwf₁ hns₁ acs.dropLast
              (acs.getLast hane) fuel (by rw [hsnocA]; exact hva) hc'
          rw [hsnocA] at hfs₁'
          rw [hfs₁', fsRemove_insert]
          rw [lookupFS_remove_ne fs₁ _ q hqA]
          exact hout₁ q (by rw [hq]; simp)
    by_cases hsd : '*' ∈ splitDirPart (mkPath ics)
    · have h' : ((.error .invalidWildcard : Except Err Unit),
          applyUndo fs₁ (some u)) = (.error e, fs₂) := by
        have h3 : (if '*' ∈ splitDirPart (mkPath ics) then
            ((.error .invalidWildcard : Except Err Unit),
              applyUndo fs₁ (some u))
          else
            let pair :=
              if '*' ∈ mkPath ics then
                ((mkPath ics).dropLast, (mkPath ics).dropLast)
              else (mkPath ics, dirP (mkPath ics))
            match compressFn fs₁ fuel pair.1 (mkPath acs)
                pair.2 with
            | (.ok _, fs₂) => (.ok (), fs₂)
            | (.error e, fs₂) => (.error e, applyUndo fs₂ (some u)))
            = (.error e, fs₂) := by
          have h5 := hrun₂
          rw [hmk] at h5
          exact h5
        rwa [if_pos hsd] at h3
      have hfs₂ : fs₂ = applyUndo fs₁ (some u) :=
        (congrArg Prod.snd h').symm
      rw [hfs₂]
      exact hconc fs₁ (Or.inl rfl)
    · have h3 : (match compressFn fs₁ fuel
          ((if '*' ∈ mkPath ics then
            ((mkPath ics).dropLast, (mkPath ics).dropLast)
          else (mkPath ics, dirP (mkPath ics)))).1 (mkPath acs)
          ((if '*' ∈ mkPath ics then
            ((mkPath ics).dropLast, (mkPath ics).dropLast)
          else (mkPath ics, dirP (mkPath ics)))).2 with
          | (.ok _, fs₂) => ((.ok () : Except Err Unit), fs₂)
          | (.error e, fs₂) => (.error e, applyUndo fs₂ (some u))) =
          (.error e, fs₂) := by
        have h4 : (if '*' ∈ splitDirPart (mkPath ics) then
            ((.error .invalidWildcard : Except Err Unit),
              applyUndo fs₁ (some u))
          else
            let pair :=
              if '*' ∈ mkPath ics then
                ((mkPath ics).dropLast, (mkPath ics).dropLast)
              else (mkPath ics, dirP (mkPath ics))
            match compressFn fs₁ fuel pair.1 (mkPath acs)
                pair.2 with
            | (.ok _, fs₂) => (.ok (), fs₂)
            | (.error e, fs₂) => (.error e, applyUndo fs₂ (some u)))
            = (.error e, fs₂) := by
          have h5 := hrun₂
          rw [hmk] at h5
          exact h5
        rwa [if_neg hsd] at h4
      cases hcf : compressFn fs₁ fuel
          ((if '*' ∈ mkPath ics then
            ((mkPath ics).dropLast, (mkPath ics).dropLast)
          else (mkPath ics, dirP (mkPath ics)))).1 (mkPath acs)
          ((if '*' ∈ mkPath ics then
            ((mkPath ics).dropLast, (mkPath ics).dropLast)
          else (mkPath ics, dirP (mkPath ics)))).2 with
      | mk res fsX =>
        rw [hcf] at h3
        cases res with
        | ok uu =>
          have := congrArg Prod.fst h3
          simp at this
        | error e₄ =>
          have hfs₂ : fs₂ = applyUndo fsX (some u) :=
            (congrArg Prod.snd h3).symm
          rw [hfs₂]
          exact hconc fsX (compressFn_err_inv hcf)
  · intro fs₁ hmk
    have hfs₁ : fs₁ = fs := mkdirAll_none_inv hmk
    subst hfs₁
    by_cases hsd : '*' ∈ splitDirPart (mkPath ics)
    · have h3 : (if '*' ∈ splitDirPart (mkPath ics) then
          ((.error .invalidWildcard : Except Err Unit),
            applyUndo fs₁ none)
        else
          let pair :=
            if '*' ∈ mkPath ics then
              ((mkPath ics).dropLast, (mkPath ics).dropLast)
            else (mkPath ics, dirP (mkPath ics))
          match compressFn fs₁ fuel pair.1 (mkPath acs) pair.2 with
          | (.ok _, fs₂) => (.ok (), fs₂)
          | (.error e, fs₂) => (.error e, applyUndo fs₂ none)) =
          (.error e, fs₂) := by
        have h5 := hrun₂
        rw [hmk] at h5
        exact h5
      rw [if_pos hsd] at h3
      left
      exact (congrArg Prod.snd h3).symm
    · have h3 : (match compressFn fs₁ fuel
          ((if '*' ∈ mkPath ics then
            ((mkPath ics).dropLast, (mkPath ics).dropLast)
          else (mkPath ics, dirP (mkPath ics)))).1 (mkPath acs)
          ((if '*' ∈ mkPath ics then
            ((mkPath ics).dropLast, (mkPath ics).dropLast)
          else (mkPath ics, dirP (mkPath ics)))).2 with
          | (.ok _, fs₂) => ((.ok () : Except Err Unit), fs₂)
          | (.error e, fs₂) => (.error e, applyUndo fs₂ none)) =
          (.error e, fs₂) := by
        have h4 : (if '*' ∈ splitDirPart (mkPath ics) then
            ((.error .invalidWildcard : Except Err Unit),
              applyUndo fs₁ none)
          else
            let pair :=
              if '*' ∈ mkPath ics then
                ((mkPath ics).dropLast, (mkPath ics).dropLast)
              else (mkPath ics, dirP (mkPath ics))
            match compressFn fs₁ fuel pair.1 (mkPath acs)
                pair.2 with
            | (.ok _, fs₂) => (.ok (), fs₂)
            | (.error e, fs₂) => (.error e, applyUndo fs₂ none)) =
            (.error e, fs₂) := by
          have h5 := hrun₂
          rw [hmk] at h5
          exact h5
        rwa [if_neg hsd] at h4
      cases hcf : compressFn fs₁ fuel
          ((if '*' ∈ mkPath ics then
            ((mkPath ics).dropLast, (mkPath ics).dropLast)
          else (mkPath ics, dirP (mkPath ics)))).1 (mkPath acs)
          ((if '*' ∈ mkPath ics then
            ((mkPath ics).dropLast, (mkPath ics).dropLast)
          else (mkPath ics, dirP (mkPath ics)))).2 with
      | mk res fsX =>
        rw [hcf] at h3
        cases res with
        | ok uu =>
          have := congrArg Prod.fst h3
          simp at this
        | error e₄ =>
          have hfs₂ : fs₂ = applyUndo fsX none :=
            (congrArg Prod.snd h3).symm
          rcases compressFn_err_inv hcf with rfl |
            ⟨fs₁q, handle, hc, rfl⟩
          · left
            exact hfs₂
          · right
            rw [hfs₂]
            have hc2 : createFile fs₁ fuel
                (mkPath (acs.dropLast ++ [acs.getLast hane])) =
                .ok (fs₁q, handle) := by
              rw [hsnocA]
              exact hc
            obtain ⟨hfs₁q, hhandle, hpar2, hold2⟩ :=
              createFile_ok_inv hwf hns acs.dropLast
                (acs.getLast hane) fuel (by rw [hsnocA]; exact hva)
                hc2
            rw [hsnocA] at hfs₁q
            show fsRemove fs₁q (mkPath acs) =
              fsRemove fs₁ (mkPath acs)
            rw [hfs₁q]
            exact fsRemove_insert fs₁ (mkPath acs) (.file [])

/-! ## Lemmas: shape of cleaned paths -/

theorem compsGo_elem_props (p : Path) :
    ∀ (acc : List Char), '/' ∉ acc →
      ∀ c ∈ compsGo p acc, c ≠ [] ∧ '/' ∉ c := by
  induction p with
  | nil =>
    intro acc hacc c hc
    rw [compsGo] at hc
    by_cases h : acc = []
    · rw [if_pos h] at hc; cases hc
    · rw [if_neg h] at hc
      rw [List.mem_singleton] at hc
      subst hc
      exact ⟨by simpa using h, by simpa using hacc⟩
  | cons ch rest ih =>
    intro acc hacc c hc
    rw [compsGo] at hc
    by_cases hch : ch = '/'
    · rw [if_pos hch] at hc
      by_cases h : acc = []
      · rw [if_pos h] at hc
        exact ih [] (by simp) c hc
      · rw [if_neg h] at hc
        rcases List.mem_cons.mp hc with hc | hc
        · subst hc
          exact ⟨by simpa using h, by simpa using hacc⟩
        · exact ih [] (by simp) c hc
    · rw [if_neg hch] at hc
      refine ih (ch :: acc) ?_ c hc
      intro hmem
      rcases List.mem_cons.mp hmem with h | h
      · exact hch h.symm
      · exact hacc h

theorem comps_elem_props (p : Path) :
    ∀ c ∈ comps p, c ≠ [] ∧ '/' ∉ c :=
  compsGo_elem_props p [] (by simp)

theorem cleanStep_fold_props (rooted : Bool) :
    ∀ (cs : List Comp), (∀ c ∈ cs, c ≠ [] ∧ '/' ∉ c) →
      ∀ (out : List Comp), (∀ c ∈ out, c ≠ [] ∧ '/' ∉ c) →
      ∀ c ∈ cs.foldl (cleanStep rooted) out, c ≠ [] ∧ '/' ∉ c := by
  intro cs
  induction cs with
  | nil => intro h out hout c hc; exact hout c hc
  | cons a cs ih =>
    intro h out hout c hc
    rw [List.foldl_cons] at hc
    refine ih (fun x hx => h x (List.mem_cons_of_mem _ hx)) _ ?_ c hc
    intro x hx
    rw [cleanStep] at hx
    by_cases h1 : a = ['.']
    · rw [if_pos h1] at hx; exact hout x hx
    · rw [if_neg h1] at hx
      by_cases h2 : a = ['.', '.']
      · rw [if_pos h2] at hx
        by_cases h3 : out ≠ [] ∧ out.getLast? ≠ some ['.', '.']
        · rw [if_pos h3] at hx
          exact hout x ((List.dropLast_sublist out).subset hx)
        · rw [if_neg h3] at hx
          by_cases h4 : rooted = true
          · rw [if_pos h4] at hx; exact hout x hx
          · rw [if_neg h4] at hx
            rcases List.mem_append.mp hx with hx | hx
            · exact hout x hx
            · rw [List.mem_singleton] at hx
              subst hx
              rw [h2]
              exact ⟨by simp, by simp⟩
      · rw [if_neg h2] at hx
        rcases List.mem_append.mp hx with hx | hx
        · exact hout x hx
        · rw [List.mem_singleton] at hx
          subst hx
          exact h x (List.mem_cons_self _ _)

theorem rooted_getLast_ne_slash (cs : List Comp)
    (h : ∀ c ∈ cs, c ≠ [] ∧ '/' ∉ c) (hne : cs ≠ []) :
    ('/' :: joinComps cs).getLast? ≠ some '/' := by
  obtain ⟨init, last, rfl⟩ : ∃ i l, cs = i ++ [l] :=
    ⟨cs.dropLast, cs.getLast hne,
      (List.dropLast_append_getLast hne).symm⟩
  have hl := h last (by simp)
  rw [show ('/' :: joinComps (init ++ [last]) : Path) =
    mkPath (init ++ [last]) from rfl]
  rw [mkPath_eq_append]
  rw [getLast_append_comp _ last hl.1]
  intro hc
  exact hl.2 (List.mem_of_mem_getLast? hc)

/-- `Clean` of a rooted path is the root or a rooted path without a
trailing separator. -/
theorem clean_shape (p : Path) (hroot : p.head? = some '/') :
    clean p = root ∨
      ((clean p).head? = some '/' ∧ (clean p).getLast? ≠ some '/') := by
  have hpne : p ≠ [] := by
    intro h
    subst h
    cases hroot
  have h1 : clean p =
      (if p.head? = some '/' then
        (if (comps p).foldl
            (cleanStep (decide (p.head? = some '/'))) [] = []
          then ['/']
          else '/' :: joinComps ((comps p).foldl
            (cleanStep (decide (p.head? = some '/'))) []))
      else
        (if (comps p).foldl
            (cleanStep (decide (p.head? = some '/'))) [] = []
          then ['.']
          else joinComps ((comps p).foldl
            (cleanStep (decide (p.head? = some '/'))) []))) := by
    rw [clean, if_neg hpne]
  rw [h1, if_pos hroot]
  by_cases hout : (comps p).foldl
      (cleanStep (decide (p.head? = some '/'))) [] = []
  · left
    rw [if_pos hout]
    rfl
  · right
    rw [if_neg hout]
    refine ⟨rfl, ?_⟩
    exact rooted_getLast_ne_slash _
      (cleanStep_fold_props _ (comps p) (comps_elem_props p) []
        (by simp)) hout

/-- `filepath.Abs` (with an absolute working directory) yields an
absolute path with no trailing separator (or the bare root). -/
theorem absPath_normalized (cwd : Option Path)
    (hcwd : ∀ w, cwd = some w → w.head? = some '/') (p q : Path)
    (h : absPath cwd p = .ok q) :
    isAbs q = true ∧ (q = root ∨ q.getLast? ≠ some '/') := by
  rw [absPath.eq_def] at h
  by_cases hab : isAbs p = true
  · rw [if_pos hab] at h
    have hq : q = clean p := (Except.ok.inj h).symm
    subst hq
    rcases clean_shape p (by simpa [isAbs] using hab) with hsh | hsh
    · rw [hsh]
      exact ⟨by decide, Or.inl rfl⟩
    · exact ⟨by simpa [isAbs] using hsh.1, Or.inr hsh.2⟩
  · rw [if_neg hab] at h
    cases hw : cwd with
    | none =>
      rw [hw] at h
      cases h
    | some w =>
      rw [hw] at h
      have hq : q = join2 w p := (Except.ok.inj h).symm
      have hwh := hcwd w hw
      have hwne : w ≠ [] := by
        intro hz
        rw [hz] at hwh
        cases hwh
      have hq' : q = clean (w ++ '/' :: p) := by
        rw [hq, join2, if_neg hwne]
      subst hq'
      have hhead : (w ++ '/' :: p).head? = some '/' := by
        cases w with
        | nil => exact absurd rfl hwne
        | cons a t =>
          have : a = '/' := by
            have := hwh
            simp [List.head?] at this
            exact this
          simp [this]
      rcases clean_shape _ hhead with hsh | hsh
      · rw [hsh]
        exact ⟨by decide, Or.inl rfl⟩
      · exact ⟨by simpa [isAbs] using hsh.1, Or.inr hsh.2⟩

theorem makeAbsolute_ok_cases (cwd : Option Path) (p q i o : Path)
    (h : makeAbsolute cwd p q = .ok (i, o)) :
    absPath cwd p = .ok i ∧ absPath cwd q = .ok o := by
  rw [makeAbsolute] at h
  cases hp : absPath cwd p with
  | error e =>
    have h' : (Except.error e : Except Err (Path × Path)) = .ok (i, o) := by
      rw [hp] at h
      exact h
    cases h'
  | ok a =>
    rw [hp] at h
    cases hq : absPath cwd q with
    | error e =>
      have h' : (Except.error e : Except Err (Path × Path)) = .ok (i, o) := by
        rw [hq] at h
        exact h
      cases h'
    | ok b =>
      rw [hq] at h
      have h' : (Except.ok (a, b) : Except Err (Path × Path)) = .ok (i, o) := h
      have hab : (a, b) = (i, o) := Except.ok.inj h'
      rw [Prod.mk.injEq] at hab
      exact ⟨by rw [hab.1], by rw [hab.2]⟩

/-- C8: both orchestrators normalize their raw path arguments first.
The normalized paths are absolute and carry no trailing separator
(given a resolvable absolute working directory), and the behavior of
`Compress` and `Extract` depends on the raw arguments only through
`makeAbsolute` applied after `stripTrailingSlashes` (on the input path
for `Compress`, on the output path for `Extract`): all filesystem work
happens after, and on the result of, this normalization. -/
theorem C8_normalize_first :
    (∀ (cwd : Option Path) (p q i o : Path),
      (∀ w, cwd = some w → w.head? = some '/') →
      makeAbsolute cwd p q = .ok (i, o) →
      (isAbs i = true ∧ (i = root ∨ i.getLast? ≠ some '/')) ∧
      (isAbs o = true ∧ (o = root ∨ o.getLast? ≠ some '/'))) ∧
    (∀ (cwd : Option Path) (fs : FS) (fuel : Nat) (ip ip' op op' : Path),
      makeAbsolute cwd (stripTrailingSlashes ip) op =
        makeAbsolute cwd (stripTrailingSlashes ip') op' →
      Compress cwd fs fuel ip op = Compress cwd fs fuel ip' op') ∧
    (∀ (cwd : Option Path) (fs : FS) (fuel : Nat) (ip ip' op op' : Path),
      makeAbsolute cwd ip (stripTrailingSlashes op) =
        makeAbsolute cwd ip' (stripTrailingSlashes op') →
      Extract cwd fs fuel ip op = Extract cwd fs fuel ip' op') := by
  refine ⟨?_, ?_, ?_⟩
  · intro cwd p q i o hcwd h
    obtain ⟨hp, hq⟩ := makeAbsolute_ok_cases cwd p q i o h
    exact ⟨absPath_normalized cwd hcwd p i hp,
      absPath_normalized cwd hcwd q o hq⟩
  · intro cwd fs fuel ip ip' op op' h
    have e1 : Compress cwd fs fuel ip op =
        (match makeAbsolute cwd (stripTrailingSlashes ip) op with
        | .error e => (.error e, fs)
        | .ok (inputFilePath, outputFilePath) =>
          match mkdirAll fs fuel (dirP outputFilePath) with
          | .error e => (.error e, fs)
          | .ok (undoDir, fs₁) =>
            if '*' ∈ splitDirPart inputFilePath then
              (.error .invalidWildcard, applyUndo fs₁ undoDir)
            else
              let pair :=
                if '*' ∈ inputFilePath then
                  (inputFilePath.dropLast, inputFilePath.dropLast)
                else (inputFilePath, dirP inputFilePath)
              match compressFn fs₁ fuel pair.1 outputFilePath pair.2 with
              | (.ok _, fs₂) => (.ok (), fs₂)
              | (.error e, fs₂) => (.error e, applyUndo fs₂ undoDir)) := rfl
    have e2 : Compress cwd fs fuel ip' op' =
        (match makeAbsolute cwd (stripTrailingSlashes ip') op' with
        | .error e => (.error e, fs)
        | .ok (inputFilePath, outputFilePath) =>
          match mkdirAll fs fuel (dirP outputFilePath) with
          | .error e => (.error e, fs)
          | .ok (undoDir, fs₁) =>
            if '*' ∈ splitDirPart inputFilePath then
              (.error .invalidWildcard, applyUndo fs₁ undoDir)
            else
              let pair :=
                if '*' ∈ inputFilePath then
                  (inputFilePath.dropLast, inputFilePath.dropLast)
                else (inputFilePath, dirP inputFilePath)
              match compressFn fs₁ fuel pair.1 outputFilePath pair.2 with
              | (.ok _, fs₂) => (.ok (), fs₂)
              | (.error e, fs₂) => (.error e, applyUndo fs₂ undoDir)) := rfl
    rw [e1, e2, h]
  · intro cwd fs fuel ip ip' op op' h
    have e1 : Extract cwd fs fuel ip op =
        (match makeAbsolute cwd ip (stripTrailingSlashes op) with
        | .error e => (.error e, fs)
        | .ok (inputFilePath, outputFilePath) =>
          match mkdirAll fs fuel outputFilePath with
          | .error e => (.error e, fs)
          | .ok (undoDir, fs₁) =>
            match extractFn fs₁ fuel inputFilePath outputFilePath with
            | (.ok _, fs₂) => (.ok (), fs₂)
            | (.error e, fs₂) => (.error e, applyUndo fs₂ undoDir)) := rfl
    have e2 : Extract cwd fs fuel ip' op' =
        (match makeAbsolute cwd ip' (stripTrailingSlashes op') with
        | .error e => (.error e, fs)
        | .ok (inputFilePath, outputFilePath) =>
          match mkdirAll fs fuel outputFilePath with
          | .error e => (.error e, fs)
          | .ok (undoDir, fs₁) =>
            match extractFn fs₁ fuel inputFilePath outputFilePath with
            | (.ok _, fs₂) => (.ok (), fs₂)
            | (.error e, fs₂) => (.error e, applyUndo fs₂ undoDir)) := rfl
    rw [e1, e2, h]

/-! ## Path traversal during extraction -/

deriving instance DecidableEq for Except

/-- A filesystem holding `/tmp` and an archive `/tmp/a` with a single
entry named `../evil`. -/
def fsTraversal : FS :=
  [(mkPath [['t', 'm', 'p']], .dir),
   (mkPath [['t', 'm', 'p'], ['a']],
     .file (encode [⟨['.', '.', '/', 'e', 'v', 'i', 'l'],
       false, [], [5]⟩]))]

/-- C10: `extract` derives each entry's destination as the output
directory joined with the directory part and base name of the entry
name, with no validation of the name; concretely, extracting an archive
whose entry is named `../evil` into `/tmp/out` succeeds and creates
`/tmp/evil`, which lies outside the output directory. -/
theorem C10_no_traversal_protection :
    (∀ (fs : FS) (fuel : Nat) (e : Entry) (rest : List Entry)
        (directory : Path),
      extractEntries fs fuel (e :: rest) directory =
        match mkdirAllOS fs fuel (join2 directory (dirP e.name)) with
        | .error err => (.error err, fs)
        | .ok fs₁ =>
          match createFile fs₁ fuel
              (join2 (join2 directory (dirP e.name)) (baseP e.name)) with
          | .error err => (.error err, fs₁)
          | .ok (fs₂, handle) =>
            extractEntries (setContent fs₂ handle e.content) fuel rest
              directory) ∧
    ((Extract (some root) fsTraversal 20 (mkPath [['t', 'm', 'p'], ['a']])
        (mkPath [['t', 'm', 'p'], ['o', 'u', 't']])).1 = .ok () ∧
      fileAt (Extract (some root) fsTraversal 20
          (mkPath [['t', 'm', 'p'], ['a']])
          (mkPath [['t', 'm', 'p'], ['o', 'u', 't']])).2
        (mkPath [['t', 'm', 'p'], ['e', 'v', 'i', 'l']]) = some [5] ∧
      pathUnder (mkPath [['t', 'm', 'p'], ['o', 'u', 't']])
        (mkPath [['t', 'm', 'p'], ['e', 'v', 'i', 'l']]) = false) :=
  ⟨fun _ _ _ _ _ => rfl, by decide⟩

/-! ## Concrete instances: counterexamples and witnesses -/

/-- A tree with one file under one directory, plus a directory for the
archive. -/
def fsRoundtrip : FS :=
  [(mkPath [['d']], .dir),
   (mkPath [['d'], ['f']], .file [7]),
   (mkPath [['t']], .dir)]

/-- A tree whose source directory is not directly under the root. -/
def fsNested : FS :=
  [(mkPath [['a']], .dir),
   (mkPath [['a'], ['b']], .dir),
   (mkPath [['a'], ['b'], ['f']], .file [3]),
   (mkPath [['t']], .dir)]

/-- An empty source directory beside a target directory. -/
def fsEmptyDir : FS :=
  [(mkPath [['e']], .dir),
   (mkPath [['t']], .dir)]

/-- Two files whose names share the prefix `b`, as glob candidates. -/
def fsGlobTwo : FS :=
  [(mkPath [['a']], .dir),
   (mkPath [['a'], ['b', 'c']], .file [1]),
   (mkPath [['a'], ['b', 'd']], .file [2]),
   (mkPath [['t']], .dir)]

/-- Just one directory. -/
def fsOneDir : FS := [(mkPath [['t']], .dir)]

/-- A directory holding a file, a symlink to that file, and a target
directory beside it. -/
def fsSymlinkTree : FS :=
  [(mkPath [['d']], .dir),
   (mkPath [['d'], ['f']], .file [7]),
   (mkPath [['d'], ['s']], .symlink (mkPath [['d'], ['f']])),
   (mkPath [['t']], .dir)]

/-- A directory holding a non-empty file and a symlink to it. -/
def fsSymlinkPair : FS :=
  [(mkPath [['d']], .dir),
   (mkPath [['d'], ['f']], .file [7]),
   (mkPath [['d'], ['s']], .symlink (mkPath [['d'], ['f']]))]

/-- A regular file occupying the would-be output directory path. -/
def fsBlockedFile : FS := [(mkPath [['p']], .file [1])]

/-- The round trip fails on a tree holding a symlink to a non-empty
file even though the tree contains a regular file: compression already
errors with `tar.ErrWriteTooLong`, because the symlink's header
carries size 0 while the resolved file's bytes are still streamed. -/
theorem C1_counterexample :
    (Compress none fsSymlinkTree 20 (mkPath [['d']])
      (mkPath [['t'], ['a']])).1 = .error .writeTooLong := by decide

/-- Compressing `/a/b` (not directly under the root) produces a single
entry whose name is `/b/f`: it keeps a leading separator, so entry
names are not always relative. -/
theorem C2_counterexample :
    (Compress none fsNested 20 (mkPath [['a'], ['b']])
      (mkPath [['t'], ['x']])).1 = .ok () ∧
    (fileAt (Compress none fsNested 20 (mkPath [['a'], ['b']])
        (mkPath [['t'], ['x']])).2 (mkPath [['t'], ['x']])).bind decode =
      some [⟨['/', 'b', '/', 'f'], false, [], [3]⟩] ∧
    (['/', 'b', '/', 'f'] : Path).head? = some '/' := by decide

/-- Compressing `/a/b*` does not archive the union of the glob matches
`/a/bc`, `/a/bd`; the trailing `*` is merely dropped and the run fails
looking for the directory `/a/b`. -/
theorem C4_counterexample :
    (Compress none fsGlobTwo 20 ['/', 'a', '/', 'b', '*']
      (mkPath [['t'], ['o']])).1 = .error .enoent := by decide

/-- A symlink entry pointing at a non-empty file is not recorded as a
link entry: the write fails with `tar.ErrWriteTooLong`. -/
theorem C7_counterexample :
    lookupFS fsSymlinkPair (mkPath [['d'], ['s']]) =
      some (.symlink (mkPath [['d'], ['f']])) ∧
    writeTarGz fsSymlinkPair 20 (mkPath [['d'], ['s']])
      (.symlink (mkPath [['d'], ['f']])) (mkPath [['d']]) =
      .error .writeTooLong := by decide

/-- The round-trip theorem at a concrete tree. -/
theorem roundtrip_files_witness :
    ∃ fsC fsE,
      Compress none fsRoundtrip 20 (mkPath [['d']])
        (mkPath [['t'], ['a']]) = (.ok (), fsC) ∧
      Extract none fsC 20 (mkPath [['t'], ['a']])
        (mkPath [['o']]) = (.ok (), fsE) ∧
      ∀ rest, validComps rest = true →
        fileAt fsE (mkPath ([['o']] ++ ['d'] :: rest)) =
          fileAt fsRoundtrip (mkPath ([['d']] ++ rest)) :=
  @roundtrip_files fsRoundtrip (by decide) (by decide) (by decide)
    none [['d']] [['t'], ['a']] [['o']] [['f']] [7] 20
    (by decide) (by decide) (by decide) (by decide) (by decide)
    (by decide) (by decide) (by decide) (by decide) (by decide)
    (by decide) (by decide) (by decide) (by decide) (by decide)
    (by decide) (by decide) (by decide) (by decide) (by decide)
    (by decide) (by decide) (by decide)

/-- The amended entry-name theorem at a concrete nested tree. -/
theorem C2_amended_witness :
    ∃ es, Compress none fsNested 20 (mkPath [['a'], ['b']])
        (mkPath [['t'], ['x']]) =
      (.ok (), setContent (fsInsert fsNested (mkPath [['t'], ['x']])
        (.file [])) (mkPath [['t'], ['x']]) (encode es)) ∧
      ∀ e ∈ es, ∃ u bs,
        lookupFS fsNested (mkPath ([['a'], ['b']] ++ u)) =
          some (.file bs) ∧
        e.content = bs ∧ e.isLink = false ∧
        e.name = (mkPath ([['a'], ['b']] ++ u)).drop
          (mkPath [['a']]).length ∧
        comps e.name = ['b'] :: u ∧
        (([['a']] : List Comp) ≠ [] → e.name.head? = some '/') :=
  @C2_amended fsNested (by decide) (by decide) (by decide)
    none [['a'], ['b']] [['t'], ['x']] 20
    (by decide) (by decide) (by decide) (by decide) (by decide)
    (by decide) (by decide) (by decide) (by decide) (by decide)
    (by decide) (by decide) (by decide)

/-- The empty-source theorem at a concrete empty directory. -/
theorem C3_empty_source_witness :
    Compress none fsEmptyDir 20 (mkPath [['e']])
      (mkPath [['t'], ['z']]) = (.error .emptySource, fsEmptyDir) ∧
    lookupFS fsEmptyDir (mkPath [['t'], ['z']]) = none :=
  @C3_empty_source fsEmptyDir (by decide) (by decide) (by decide)
    none [['e']] [['t'], ['z']] 20
    (by decide) (by decide) (by decide) (by decide) (by decide)
    (by decide) (by decide) (by decide) (by decide) (by decide)

/-- The amended wildcard theorem at a concrete filesystem. -/
theorem C4_amended_witness :
    (∀ ds c, validComps (ds ++ [c]) = true → ds ≠ [] →
      '*' ∈ mkPath ds →
      Compress none fsGlobTwo 20 (mkPath (ds ++ [c]))
          (mkPath [['t'], ['o']]) =
        (.error .invalidWildcard, fsGlobTwo)) ∧
    (∀ ds c, validComps (ds ++ [c ++ ['*']]) = true →
      validComps (ds ++ [c]) = true →
      lookupFS fsGlobTwo (mkPath (ds ++ [c])) = some .dir →
      childrenNames fsGlobTwo (mkPath (ds ++ [c])) ≠ [] →
      (ds ++ [c]).length < 20 →
      2 * max 2 (maxDepth fsGlobTwo) + 3 ≤ 20 + (ds ++ [c]).length →
      Compress none fsGlobTwo 20 (mkPath (ds ++ [c ++ ['*']]))
          (mkPath [['t'], ['o']]) =
        (.ok (), setContent (fsInsert fsGlobTwo (mkPath [['t'], ['o']])
          (.file [])) (mkPath [['t'], ['o']])
          (encode ((dfsFiles (fsInsert fsGlobTwo (mkPath [['t'], ['o']])
            (.file [])) 20 (mkPath (ds ++ [c]))).map
              (entryOf (mkPath (ds ++ [c]))))))) :=
  @C4_amended fsGlobTwo (by decide) (by decide) (by decide)
    none [['t'], ['o']] 20
    (by decide) (by decide) (by decide) (by decide) (by decide)
    (by decide)

/-- The rollback theorem at a concrete failing run (the input directory
does not exist, so compression fails after provisioning nothing). -/
theorem C5_rollback_witness :
    (∀ u fs₁, mkdirAll fsOneDir 20 (mkPath [['t']]) =
        .ok (some u, fs₁) →
      (∀ q, pathUnder u q = true → lookupFS fsOneDir q = none) ∧
      (∀ q, pathUnder u q = false →
        lookupFS fsOneDir q = lookupFS fsOneDir q)) ∧
    (∀ fs₁, mkdirAll fsOneDir 20 (mkPath [['t']]) =
        .ok (none, fs₁) →
      fsOneDir = fsOneDir ∨
      fsOneDir = fsRemove fsOneDir (mkPath [['t'], ['q']])) :=
  @C5_rollback fsOneDir (by decide) (by decide) (by decide)
    none [['n']] [['t'], ['q']] 20
    (by decide) (by decide) (by decide) (by decide) (by decide)
    (by decide) .enoent fsOneDir (by decide)

/-- The not-a-directory theorem at a concrete blocking file. -/
theorem C6_notadir_witness :
    (∀ ds, validComps ([['p']] ++ ds) = true →
      mkdirAll fsBlockedFile 20 (mkPath ([['p']] ++ ds)) =
        .error .enotdir) ∧
    Extract none fsBlockedFile 20 (mkPath [['i']]) (mkPath [['p']]) =
      (.error .enotdir, fsBlockedFile) :=
  @C6_notadir fsBlockedFile (by decide) (by decide)
    none [['p']] [['i']] 20 [1]
    (by decide) (by decide) (by decide) (by decide) (by decide)

/-- The amended writer theorem at a concrete regular file. -/
theorem C7_amended_witness :
    writeTarGz fsSymlinkPair 20 (mkPath [['d'], ['f']]) (.file [7])
      (mkPath [['d']]) =
      if (Node.file [7]).isLink then
        (if ([7] : List Nat).length > 0 then .error .writeTooLong
         else .ok { name := (mkPath [['d'], ['f']]).drop
                      (mkPath [['d']]).length,
                    isLink := true,
                    linkname := if mkPath [['d'], ['f']] ≠
                        mkPath [['d'], ['f']] then
                      mkPath [['d'], ['f']] else [],
                    content := [] })
      else .ok { name := (mkPath [['d'], ['f']]).drop
                   (mkPath [['d']]).length,
                 isLink := false,
                 linkname := if mkPath [['d'], ['f']] ≠
                     mkPath [['d'], ['f']] then
                   mkPath [['d'], ['f']] else [],
                 content := [7] } :=
  C7_amended fsSymlinkPair 20 (mkPath [['d'], ['f']]) (mkPath [['d']])
    (mkPath [['d'], ['f']]) (mkPath [['d']]) (.file [7]) [7]
    (by decide) (by decide) (by decide)

end Targz
